import Mathlib

/-!
# bsonview (`bv`): document cache and viewport engine

A shallow embedding of `src/mongo/bsonview/main.cpp`.

* Addresses (`const char*`) are natural numbers; `base + n` is pointer arithmetic inside one
  address space and is not taken modulo the word size.
* `int` members of the viewport are `Int`; `unsigned long` members are `Nat`, reduced modulo
  `2^64` where the source can wrap (`_startDoc--`).
* A C++ exception thrown by the BSON codec and an operation the language leaves undefined are
  both recorded as a `Fault`; loops that need not terminate take a `fuel` argument.
-/

namespace BsonView

/-! ## The BSON codec, seen from the cache -/

/-- The two properties of `mongo::BSONObj` that the cache uses: `objdata()` is the address the
object was constructed from and `objsize()` is the value of its length prefix. -/
structure BSONObj where
  objdata : Nat
  objsize : Nat
  deriving DecidableEq, Repr

/-- The constructor `BSONObj(const char*)`, taken as a parameter: applied to an address it either
yields the record's `objsize()` or throws (`none`).  It receives the address alone, never the
end of the mapping. -/
abbrev Decoder := Nat → Option Nat

/-- Ways in which a call can fail to return normally. -/
inductive Fault where
  | dbException
  | undefinedBehaviour
  deriving DecidableEq, Repr

/-- The members of `class BSONCache`. -/
structure BSONCache where
  docs : List BSONObj
  base : Nat
  end_ : Nat
  complete : Bool
  deriving DecidableEq, Repr

/-- The cache a call leaves behind, and the fault that ended the call (`none`: it returned). -/
structure Run where
  cache : BSONCache
  fault : Option Fault
  deriving DecidableEq, Repr

namespace BSONCache

/-- The default constructor `BSONCache()`: null pointers, no documents, not complete. -/
def new : BSONCache := { docs := [], base := 0, end_ := 0, complete := false }

/-- Method `init(base, end)`.  The statement `_docs.empty();` only queries the vector, so the
documents already held are kept and the first record is appended to them. -/
def init (dec : Decoder) (c : BSONCache) (base end_ : Nat) : Run :=
  let c1 : BSONCache := { c with base := base, end_ := end_, complete := false }
  match dec base with
  | none => { cache := c1, fault := some Fault.dbException }
  | some n => { cache := { c1 with docs := c1.docs ++ [{ objdata := base, objsize := n }] },
                fault := none }

/-- Method `isComplete()`. -/
def isComplete (c : BSONCache) : Bool := c.complete

/-- Method `numDocs()`. -/
def numDocs (c : BSONCache) : Nat := c.docs.length

/-- Method `_getLast()`: `_docs.back()`, undefined on an empty vector (`none`). -/
def _getLast (c : BSONCache) : Option BSONObj := c.docs.getLast?

/-- Method `_getNextBase()`: `last.objdata() + last.objsize()`. -/
def _getNextBase (c : BSONCache) : Option Nat :=
  match c._getLast with
  | none => none
  | some last => some (last.objdata + last.objsize)

/-- Method `sizeOfFile()`: `_getEnd() - _getBase()`. -/
def sizeOfFile (c : BSONCache) : Nat := c.end_ - c.base

/-- Method `sizeOfFileSeen()`: `_getNextBase() - _getBase()`, a difference of two addresses of
which the first is never below the second in a state the program reaches. -/
def sizeOfFileSeen (c : BSONCache) : Option Nat :=
  match c._getNextBase with
  | none => none
  | some nextBase => some (nextBase - c.base)

/-- Method `_loadNext()`. -/
def _loadNext (dec : Decoder) (c : BSONCache) : Run :=
  if c.isComplete then { cache := c, fault := none }
  else
    match c._getNextBase with
    | none => { cache := c, fault := some Fault.undefinedBehaviour }
    | some nextBase =>
      match dec nextBase with
      | none => { cache := c, fault := some Fault.dbException }
      | some n =>
        let c1 : BSONCache := { c with docs := c.docs ++ [{ objdata := nextBase, objsize := n }] }
        match c1._getNextBase with
        | none => { cache := c1, fault := some Fault.undefinedBehaviour }
        | some nextBase2 =>
          if nextBase2 ≥ c1.end_ then { cache := { c1 with complete := true }, fault := none }
          else { cache := c1, fault := none }

/-- The loop of `loadSome`; the first argument is `maxDocs - i`, the number of iterations the
test `i < maxDocs` still allows. -/
def loadSomeLoop (dec : Decoder) : Nat → BSONCache → Run
  | 0, c => { cache := c, fault := none }
  | k + 1, c =>
    if c.isComplete then { cache := c, fault := none }
    else
      let r := c._loadNext dec
      match r.fault with
      | some f => { cache := r.cache, fault := some f }
      | none => loadSomeLoop dec k r.cache

/-- Method `loadSome(maxDocs)`. -/
def loadSome (dec : Decoder) (maxDocs : Nat) (c : BSONCache) : Run :=
  loadSomeLoop dec maxDocs c

/-- Loop of `loadAll(cb)`, with the loop counter `i` explicit.  The callback acts on a state `W`
of its own; `fuel` bounds the number of iterations and `none` means it ran out. -/
def loadAllLoop {W : Type} (dec : Decoder) (cb : W → W) :
    Nat → Nat → BSONCache → W → Option (Run × W)
  | 0, _, c, w => if c.isComplete then some ({ cache := c, fault := none }, w) else none
  | fuel + 1, i, c, w =>
    if c.isComplete then some ({ cache := c, fault := none }, w)
    else
      let r := c._loadNext dec
      match r.fault with
      | some f => some ({ cache := r.cache, fault := some f }, w)
      | none =>
        let w1 := if i % 1000 = 0 then cb w else w
        loadAllLoop dec cb fuel ((i + 1) % 2 ^ 64) r.cache w1

/-- Method `loadAll(cb)`. -/
def loadAll {W : Type} (dec : Decoder) (cb : W → W) (fuel : Nat) (c : BSONCache) (w : W) :
    Option (Run × W) :=
  loadAllLoop dec cb fuel 0 c w

/-- Method `_loadTo(index)`: `while (index >= _docs.size()) _loadNext();`. -/
def _loadTo (dec : Decoder) : Nat → Nat → BSONCache → Option Run
  | 0, index, c => if index ≥ c.docs.length then none else some { cache := c, fault := none }
  | fuel + 1, index, c =>
    if index ≥ c.docs.length then
      let r := c._loadNext dec
      match r.fault with
      | some f => some { cache := r.cache, fault := some f }
      | none => _loadTo dec fuel index r.cache
    else some { cache := c, fault := none }

/-- Method `operator[](index)`: the cache after `_loadTo(index)` and, when that returned,
`_docs[index]`. -/
def index (dec : Decoder) (fuel : Nat) (i : Nat) (c : BSONCache) : Option (Run × Option BSONObj) :=
  match _loadTo dec fuel i c with
  | none => none
  | some r =>
    match r.fault with
    | some _ => some (r, none)
    | none => some (r, r.cache.docs.get? i)

end BSONCache

/-- The states the program's cache can be in: `init` on the default-constructed cache, followed
by any number of `loadSome`, `loadAll` and `operator[]` calls.  The cache a call leaves behind
counts as reached whether the call returned or ended in a fault. -/
inductive Reachable (dec : Decoder) (base end_ : Nat) : BSONCache → Prop
  | init : (BSONCache.init dec BSONCache.new base end_).fault = none →
      Reachable dec base end_ (BSONCache.init dec BSONCache.new base end_).cache
  | loadSome (c : BSONCache) (n : Nat) : Reachable dec base end_ c →
      Reachable dec base end_ (c.loadSome dec n).cache
  | loadAll {W : Type} (c : BSONCache) (cb : W → W) (fuel : Nat) (w : W) (r : Run) (w1 : W) :
      Reachable dec base end_ c → c.loadAll dec cb fuel w = some (r, w1) →
      Reachable dec base end_ r.cache
  | index (c : BSONCache) (fuel i : Nat) (r : Run) (d : Option BSONObj) :
      Reachable dec base end_ c → c.index dec fuel i = some (r, d) →
      Reachable dec base end_ r.cache

/-- The `k`-th record of the file that starts at `base`, found by walking the length prefixes. -/
def recordAt (dec : Decoder) (base : Nat) : Nat → Option BSONObj
  | 0 => (dec base).map fun n => { objdata := base, objsize := n }
  | k + 1 =>
    match recordAt dec base k with
    | none => none
    | some d => (dec (d.objdata + d.objsize)).map fun n =>
        { objdata := d.objdata + d.objsize, objsize := n }

/-- What holds of the cache in every state the program reaches for the file `[base, end_)`: the
documents are the first records of the file, in order; a complete cache has reached `end_`; a
cache that is not complete and has loaded a record after the first has not. -/
structure CacheInv (dec : Decoder) (base end_ : Nat) (c : BSONCache) : Prop where
  hbase : c.base = base
  hend : c.end_ = end_
  nonempty : c.docs ≠ []
  records : ∀ k, k < c.docs.length → recordAt dec base k = c.docs[k]?
  done : c.complete = true →
    ∀ last, c.docs.getLast? = some last → end_ ≤ last.objdata + last.objsize
  pending : c.complete = false → 2 ≤ c.docs.length →
    ∀ last, c.docs.getLast? = some last → last.objdata + last.objsize < end_

/-- Modelled from the spec: the BSON codec is not among the sources.  A record is
self-describing by a leading little-endian 32-bit length field that includes itself and the
trailing null terminator, so the field of a decodable record is at least 5 and, being a signed
32-bit value, below `2^31`.  The file's bytes are mapped at address `base`; a length field that
does not lie inside the mapping cannot be decoded. -/
def fileDecoder (base : Nat) (bytes : List Nat) : Decoder := fun p =>
  if base ≤ p ∧ p + 4 ≤ base + bytes.length then
    let off := p - base
    let n := bytes.getD off 0 + 256 * bytes.getD (off + 1) 0 + 65536 * bytes.getD (off + 2) 0
      + 16777216 * bytes.getD (off + 3) 0
    if 5 ≤ n ∧ n < 2 ^ 31 then some n else none
  else none

/-- The cache `c1` extends `c`: same file, the documents of `c` first, and a next base that is
not lower. -/
def BSONCache.Grows (c c1 : BSONCache) : Prop :=
  c1.base = c.base ∧ c.docs <+: c1.docs ∧
    ∀ nb, c._getNextBase = some nb → ∃ nb1, c1._getNextBase = some nb1 ∧ nb ≤ nb1

/-- The cache after a sequence of `loadSome` calls with the given budgets. -/
def loadSomeSeq (dec : Decoder) : List Nat → BSONCache → BSONCache
  | [], c => c
  | n :: ns, c => loadSomeSeq dec ns (c.loadSome dec n).cache

/-- The 8 bytes of the BSON record of the document with the single field `a`, of type null. -/
def sampleRecord : List Nat := [8, 0, 0, 0, 10, 97, 0, 0]

/-- A file of two such records, 16 bytes, mapped at address 1000. -/
def sampleDec : Decoder := fileDecoder 1000 (sampleRecord ++ sampleRecord)

/-- The cache after `init` on the two-record file. -/
def sampleInit : BSONCache := (BSONCache.init sampleDec BSONCache.new 1000 1016).cache

/-- The cache after `init` and `loadSome(1)` on the two-record file. -/
def sampleLoaded : BSONCache := (sampleInit.loadSome sampleDec 1).cache

/-- A file of 15 bytes, the two-record file cut one byte short: its second record announces 8
bytes where 7 remain.  Mapped at address 1000. -/
def truncatedDec : Decoder := fileDecoder 1000 (sampleRecord ++ [8, 0, 0, 0, 10, 97, 0])

/-- The cache after `init` and `loadSome(1)` on the truncated file. -/
def truncatedLoaded : BSONCache :=
  ((BSONCache.init truncatedDec BSONCache.new 1000 1015).cache.loadSome truncatedDec 1).cache

/-- A file of 5 bytes, the first 5 bytes of the record: its only record announces 8 bytes.
Mapped at address 1000. -/
def overlongDec : Decoder := fileDecoder 1000 [8, 0, 0, 0, 10]

/-- A file that holds exactly one record, the 5 bytes of the empty document, mapped at address
1000. -/
def singleDec : Decoder := fileDecoder 1000 [5, 0, 0, 0, 0]

/-- A file of six records, 48 bytes, mapped at address 1000. -/
def sixDec : Decoder :=
  fileDecoder 1000
    (sampleRecord ++ sampleRecord ++ sampleRecord ++ sampleRecord ++ sampleRecord ++ sampleRecord)

/-- The cache of the six-record file once loading is complete. -/
def sixLoaded : BSONCache :=
  ((BSONCache.init sixDec BSONCache.new 1000 1048).cache.loadSome sixDec 100).cache

/-! ## The viewport -/

/-- The enumeration `BSONCacheView::DocumentRenderMode`. -/
inductive DocumentRenderMode where
  | kJSONOneline
  | kJSONPretty
  | kToString
  | kTextLogs
  deriving DecidableEq, Repr

/-- The two values of `mongo::JsonStringFormat` that the viewer uses. -/
inductive JsonStringFormat where
  | Strict
  | TenGen
  deriving DecidableEq, Repr

/-- The text that `renderDoc` obtains from the codec (`jsonString`, `toString`) or from
`textLogs` for a document, taken as a parameter. -/
abbrev Renderer := DocumentRenderMode → JsonStringFormat → BSONObj → List Char

/-- What the viewport needs from outside: the codec, the renderer and the fuel given to each
loop that need not terminate. -/
structure Env where
  dec : Decoder
  render : Renderer
  fuel : Nat

/-- Outcome of a viewport call: it returned, it ended in a fault, or a loop ran out of fuel. -/
inductive Res (α : Type) where
  | ok (a : α)
  | fault (f : Fault)
  | outOfFuel
  deriving DecidableEq, Repr

/-- Sequencing of two calls: the second runs only if the first returned. -/
def Res.bind {α β : Type} : Res α → (α → Res β) → Res β
  | Res.ok a, k => k a
  | Res.fault f, _ => Res.fault f
  | Res.outOfFuel, _ => Res.outOfFuel

instance : Monad Res where
  pure := Res.ok
  bind := Res.bind

/-- `x - 1` on `unsigned long`. -/
def usub1 (x : Nat) : Nat := (x + 2 ^ 64 - 1) % 2 ^ 64

/-- `x + 1` on `unsigned long`. -/
def uadd1 (x : Nat) : Nat := (x + 1) % 2 ^ 64

/-- The members of `class BSONCacheView` that the motion commands use, with their initial
values; `cache` is the cache `_cache` points to and `jumpToEndAfterLoadingComplete` is the
global flag of that name. -/
structure BSONCacheView where
  cache : BSONCache
  documentRenderMode : DocumentRenderMode := DocumentRenderMode.kJSONOneline
  startCol : Int := 0
  longestLineStartCol : Int := 0
  startDoc : Nat := 0
  startLine : Int := 0
  lastDisplayedDoc : Nat := 0
  lastDisplayedLine : Int := 0
  docLines : List Int := []
  cursorLine : Int := 0
  cursorDoc : Nat := 0
  mainLines : Int := 0
  mainCols : Int := 0
  extendedJSONMode : JsonStringFormat := JsonStringFormat.Strict
  jumpToEndAfterLoadingComplete : Bool := false
  deriving DecidableEq, Repr

/-- The lengths of the pieces of a string between its newline characters, as the repeated
`strchr(s, '\n')` of `computeVisible` finds them; there is always at least one piece. -/
def subLineLens : List Char → List Nat
  | [] => [0]
  | c :: cs =>
    if c = '\n' then 0 :: subLineLens cs
    else
      match subLineLens cs with
      | [] => [1]
      | n :: ns => (n + 1) :: ns

/-- The local variables of `computeVisible` that its inner loop updates, with `_cursorDoc`. -/
structure Scan where
  line : Int
  longestLine : Int
  skipLines : Int
  thisDocLines : Int
  cursorDoc : Nat
  deriving DecidableEq, Repr

/-- The inner loop of `computeVisible` over the sub-lines of document `doc`, given by their
lengths: `while (line < _mainLines) { ... if (!e) break; s = e + 1; }`. -/
def subLineLoop (mainLines cursorLine : Int) (doc : Nat) : List Nat → Scan → Scan
  | [], st => st
  | len :: rest, st =>
    if st.line < mainLines then
      let st1 : Scan :=
        if st.skipLines > 0 then { st with skipLines := st.skipLines - 1 }
        else
          { st with
            longestLine := if st.longestLine < (len : Int) then (len : Int) else st.longestLine
            cursorDoc := if st.line = cursorLine then doc else st.cursorDoc
            line := st.line + 1 }
      let st2 : Scan := { st1 with thisDocLines := st1.thisDocLines + 1 }
      match rest with
      | [] => st2
      | _ :: _ => subLineLoop mainLines cursorLine doc rest st2
    else st

namespace BSONCacheView

/-- The view as constructed and then given the cache by `init(&cache, ...)`. -/
def new (c : BSONCache) : BSONCacheView := { cache := c }

/-- Method `renderDoc(doc)`: `cache()[doc]` first loads up to `doc`, then the document is
rendered in the current mode and flavor. -/
def renderDoc (E : Env) (v : BSONCacheView) (doc : Nat) : Res (List Char × BSONCacheView) :=
  match v.cache.index E.dec E.fuel doc with
  | none => Res.outOfFuel
  | some (r, od) =>
    match r.fault, od with
    | some f, _ => Res.fault f
    | none, none => Res.fault Fault.undefinedBehaviour
    | none, some d =>
      Res.ok (E.render v.documentRenderMode v.extendedJSONMode d, { v with cache := r.cache })

/-- The outer loop of `computeVisible`, with the locals `doc`, `line`, `longestLine` and
`skipLines`; it returns the view with the final `line` and `longestLine`. -/
def computeVisibleLoop (E : Env) :
    Nat → BSONCacheView → Nat → Int → Int → Int → Res (BSONCacheView × Int × Int)
  | 0, v, doc, line, longestLine, _ =>
    if line < v.mainLines ∧ (v.cache.isComplete = false ∨ doc < v.cache.numDocs) then
      Res.outOfFuel
    else Res.ok (v, line, longestLine)
  | fuel + 1, v, doc, line, longestLine, skipLines =>
    if line < v.mainLines ∧ (v.cache.isComplete = false ∨ doc < v.cache.numDocs) then
      match renderDoc E v doc with
      | Res.outOfFuel => Res.outOfFuel
      | Res.fault f => Res.fault f
      | Res.ok (str, v1) =>
        let st := subLineLoop v1.mainLines v1.cursorLine doc (subLineLens str)
          { line := line, longestLine := longestLine, skipLines := skipLines, thisDocLines := 0,
            cursorDoc := v1.cursorDoc }
        let v2 : BSONCacheView :=
          { v1 with
            cursorDoc := st.cursorDoc
            docLines := v1.docLines ++ [st.thisDocLines]
            lastDisplayedDoc := doc }
        computeVisibleLoop E fuel v2 (uadd1 doc) st.line st.longestLine st.skipLines
    else Res.ok (v, line, longestLine)

/-- Method `computeVisible()`. -/
def computeVisible (E : Env) (v : BSONCacheView) : Res BSONCacheView :=
  match computeVisibleLoop E E.fuel { v with docLines := [] } v.startDoc 0 0 v.startLine with
  | Res.outOfFuel => Res.outOfFuel
  | Res.fault f => Res.fault f
  | Res.ok (v1, line, longestLine) =>
    Res.ok { v1 with
      lastDisplayedLine := line - 1
      longestLineStartCol := longestLine - v1.mainCols }

/-- Method `moveLeft()`.  Here and below `redrawFull()` is left out: it asks the terminal
toolkit for an expose event and touches no member. -/
def moveLeft (E : Env) (v : BSONCacheView) : Res BSONCacheView :=
  if v.startCol > 0 then computeVisible E { v with startCol := v.startCol - 1 } else Res.ok v

/-- Method `moveRight()`. -/
def moveRight (E : Env) (v : BSONCacheView) : Res BSONCacheView :=
  if v.startCol < v.longestLineStartCol then computeVisible E { v with startCol := v.startCol + 1 }
  else Res.ok v

/-- Method `jumpLeft()`. -/
def jumpLeft (E : Env) (v : BSONCacheView) : Res BSONCacheView :=
  if v.startCol ≠ 0 then computeVisible E { v with startCol := 0 } else Res.ok v

/-- Method `jumpRight()`. -/
def jumpRight (E : Env) (v : BSONCacheView) : Res BSONCacheView :=
  let targetStartCol : Int := if v.longestLineStartCol > 0 then v.longestLineStartCol else 0
  if v.startCol ≠ targetStartCol then computeVisible E { v with startCol := targetStartCol }
  else Res.ok v

/-- Method `cursorTop()`. -/
def cursorTop (E : Env) (v : BSONCacheView) : Res BSONCacheView :=
  let target : Int := 0
  if v.cursorLine ≠ target then computeVisible E { v with cursorLine := target } else Res.ok v

/-- Method `cursorMiddle()`; `/` on `int` truncates. -/
def cursorMiddle (E : Env) (v : BSONCacheView) : Res BSONCacheView :=
  let target0 : Int := Int.tdiv v.mainLines 2
  let target : Int := if target0 > v.lastDisplayedLine then v.lastDisplayedLine else target0
  if v.cursorLine ≠ target then computeVisible E { v with cursorLine := target } else Res.ok v

/-- Method `cursorBottom()`. -/
def cursorBottom (E : Env) (v : BSONCacheView) : Res BSONCacheView :=
  let target0 : Int := v.mainLines - 1
  let target : Int := if target0 > v.lastDisplayedLine then v.lastDisplayedLine else target0
  if v.cursorLine ≠ target then computeVisible E { v with cursorLine := target } else Res.ok v

/-- Method `cursorUp()`. -/
def cursorUp (E : Env) (v : BSONCacheView) : Res BSONCacheView :=
  if v.cursorLine > 0 then computeVisible E { v with cursorLine := v.cursorLine - 1 }
  else Res.ok v

/-- Method `cursorDown()`. -/
def cursorDown (E : Env) (v : BSONCacheView) : Res BSONCacheView :=
  if v.cursorLine < v.mainLines - 1 ∧ v.cursorLine < v.lastDisplayedLine then
    computeVisible E { v with cursorLine := v.cursorLine + 1 }
  else Res.ok v

/-- Method `nextDoc()`: the view it leaves and the value it returns. -/
def nextDoc (v : BSONCacheView) : BSONCacheView × Bool :=
  if v.cache.isComplete = false ∨ v.startDoc < usub1 v.cache.numDocs then
    ({ v with startDoc := uadd1 v.startDoc, startLine := 0 }, true)
  else (v, false)

/-- Method `prevDoc()`: the view it leaves and the value it returns. -/
def prevDoc (v : BSONCacheView) : BSONCacheView × Bool :=
  if v.startDoc > 0 then ({ v with startDoc := usub1 v.startDoc, startLine := 0 }, true)
  else (v, false)

/-- Method `moveNextDoc()`. -/
def moveNextDoc (E : Env) (v : BSONCacheView) : Res BSONCacheView :=
  let p := nextDoc v
  if p.2 then computeVisible E p.1 else Res.ok p.1

/-- Method `movePrevDoc()`. -/
def movePrevDoc (E : Env) (v : BSONCacheView) : Res BSONCacheView :=
  let p := prevDoc v
  if p.2 then computeVisible E p.1 else Res.ok p.1

/-- Method `moveDown()`; `_docLines[0]` of an empty vector is undefined. -/
def moveDown (E : Env) (v : BSONCacheView) : Res BSONCacheView :=
  (computeVisible E v).bind fun v1 =>
    match v1.docLines with
    | [] => Res.fault Fault.undefinedBehaviour
    | l0 :: _ =>
      if v1.startLine = l0 - 1 then
        let p := nextDoc v1
        if p.2 then
          (computeVisible E { p.1 with startLine := 0 }).bind fun v2 => cursorUp E v2
        else Res.ok p.1
      else
        (computeVisible E { v1 with startLine := v1.startLine + 1 }).bind fun v2 => cursorUp E v2

/-- Method `moveUp()`.  The assignment `_startLine = _docLines[0] - 1` reads the line counts of
the frame computed before `prevDoc()`. -/
def moveUp (E : Env) (v : BSONCacheView) : Res BSONCacheView :=
  (computeVisible E v).bind fun v1 =>
    if v1.startLine = 0 then
      let p := prevDoc v1
      if p.2 then
        match p.1.docLines with
        | [] => Res.fault Fault.undefinedBehaviour
        | l0 :: _ =>
          (computeVisible E { p.1 with startLine := l0 - 1 }).bind fun v2 => cursorDown E v2
      else Res.ok p.1
    else
      (computeVisible E { v1 with startLine := v1.startLine - 1 }).bind fun v2 => cursorDown E v2

/-- Method `moveCursorUp()`. -/
def moveCursorUp (E : Env) (v : BSONCacheView) : Res BSONCacheView :=
  (if v.cursorLine = 0 then moveUp E v else Res.ok v).bind fun v1 => cursorUp E v1

/-- Method `moveCursorDown()`. -/
def moveCursorDown (E : Env) (v : BSONCacheView) : Res BSONCacheView :=
  (if v.cursorLine = v.mainLines - 1 then moveDown E v else Res.ok v).bind fun v1 =>
    cursorDown E v1

/-- Method `jumpUp()`. -/
def jumpUp (E : Env) (v : BSONCacheView) : Res BSONCacheView :=
  (if v.startDoc ≠ 0 ∨ v.startLine ≠ 0 then
      computeVisible E { v with startDoc := 0, startLine := 0 }
    else Res.ok v).bind fun v1 => cursorTop E v1

/-- Method `getTotalDocLines()`. -/
def getTotalDocLines (v : BSONCacheView) : Int := v.docLines.foldl (fun a b => a + b) 0

/-- The loop of `jumpDown`: `while (_lastDisplayedLine < _mainLines - 2) { _startDoc--;
computeVisible(); }`. -/
def jumpDownLoop (E : Env) : Nat → BSONCacheView → Res BSONCacheView
  | 0, v => if v.lastDisplayedLine < v.mainLines - 2 then Res.outOfFuel else Res.ok v
  | fuel + 1, v =>
    if v.lastDisplayedLine < v.mainLines - 2 then
      (computeVisible E { v with startDoc := usub1 v.startDoc }).bind fun v1 =>
        jumpDownLoop E fuel v1
    else Res.ok v

/-- Method `jumpDown()`. -/
def jumpDown (E : Env) (v : BSONCacheView) : Res BSONCacheView :=
  if v.cache.isComplete = false then Res.ok { v with jumpToEndAfterLoadingComplete := true }
  else
    let targetStartDoc := usub1 v.cache.numDocs
    (computeVisible E { v with startDoc := targetStartDoc }).bind fun v1 =>
    (jumpDownLoop E E.fuel v1).bind fun v2 =>
    let totalLines := getTotalDocLines v2
    (computeVisible E { v2 with startLine := totalLines - (v2.mainLines - 2) }).bind fun v3 =>
    (cursorBottom E v3).bind fun v4 =>
    Res.ok { v4 with jumpToEndAfterLoadingComplete := false }

/-- The first loop of `pageUp`; it returns the view and `crashedIntoTop`. -/
def pageUpLoop (E : Env) (oldStartDoc : Nat) : Nat → BSONCacheView → Res (BSONCacheView × Bool)
  | 0, v =>
    if v.lastDisplayedDoc ≠ oldStartDoc then
      if v.startDoc = 0 then Res.ok (v, true) else Res.outOfFuel
    else Res.ok (v, false)
  | fuel + 1, v =>
    if v.lastDisplayedDoc ≠ oldStartDoc then
      if v.startDoc = 0 then Res.ok (v, true)
      else
        (computeVisible E { v with startDoc := usub1 v.startDoc }).bind fun v1 =>
          pageUpLoop E oldStartDoc fuel v1
    else Res.ok (v, false)

/-- The second loop of `pageUp`: the cursor line after adding the line counts of the on-screen
documents that precede `oldStartDoc`. -/
def pageUpCursor (oldStartDoc : Nat) : List Int → Nat → Int → Int
  | [], _, cursorLine => cursorLine
  | l :: rest, docNum, cursorLine =>
    if docNum = oldStartDoc then cursorLine
    else pageUpCursor oldStartDoc rest (uadd1 docNum) (cursorLine + l)

/-- Method `pageUp()`; `_docLines.back()` of an empty vector is undefined. -/
def pageUp (E : Env) (v : BSONCacheView) : Res BSONCacheView :=
  if v.startDoc = 0 ∧ v.startLine = 0 then cursorTop E v
  else
    let oldStartDoc := v.startDoc
    (pageUpLoop E oldStartDoc E.fuel v).bind fun p =>
      let v1 := p.1
      if p.2 then
        let c1 := pageUpCursor oldStartDoc v1.docLines 0 v1.cursorLine + v1.startLine
        let c2 := if c1 > v1.mainLines - 1 then v1.mainLines - 1 else c1
        computeVisible E { v1 with cursorLine := c2, startLine := 0 }
      else
        match v1.docLines.getLast? with
        | none => Res.fault Fault.undefinedBehaviour
        | some back =>
          let startLine := getTotalDocLines v1 - (back - v1.startLine) - v1.mainLines
          (cursorBottom E { v1 with startLine := startLine }).bind fun v2 => computeVisible E v2

/-- Method `pageDown()`; `_docLines.back()` of an empty vector is undefined. -/
def pageDown (E : Env) (v : BSONCacheView) : Res BSONCacheView :=
  if v.lastDisplayedLine < v.mainLines - 1 then cursorBottom E v
  else
    match v.docLines.getLast? with
    | none => Res.fault Fault.undefinedBehaviour
    | some back =>
      let v1 : BSONCacheView :=
        { v with
          startDoc := v.lastDisplayedDoc
          startLine := back - (getTotalDocLines v - v.startLine - v.mainLines) }
      (cursorTop E v1).bind fun v2 =>
      (computeVisible E v2).bind fun v3 =>
      (if v3.lastDisplayedDoc = usub1 v3.cache.numDocs then
        let emptyLines := v3.mainLines - 1 - v3.lastDisplayedLine
        (jumpDown E v3).bind fun v4 => Res.ok { v4 with cursorLine := emptyLines }
      else Res.ok v3).bind fun v5 => computeVisible E v5

/-- Method `setDocumentRenderMode(documentRenderMode)`. -/
def setDocumentRenderMode (E : Env) (m : DocumentRenderMode) (v : BSONCacheView) :
    Res BSONCacheView :=
  computeVisible E { v with documentRenderMode := m, startCol := 0 }

/-- Method `setExtendedJSONMode(extendedJSONMode)`. -/
def setExtendedJSONMode (E : Env) (f : JsonStringFormat) (v : BSONCacheView) :
    Res BSONCacheView :=
  computeVisible E { v with extendedJSONMode := f }

/-- Method `toggleExtendedJSONMode()`. -/
def toggleExtendedJSONMode (E : Env) (v : BSONCacheView) : Res BSONCacheView :=
  if v.extendedJSONMode = JsonStringFormat.Strict then
    setExtendedJSONMode E JsonStringFormat.TenGen v
  else setExtendedJSONMode E JsonStringFormat.Strict v

/-- Method `updateDimensions(win)`, given the lines and columns of the window. -/
def updateDimensions (E : Env) (newMainLines newMainCols : Int) (v : BSONCacheView) :
    Res BSONCacheView :=
  let changed := newMainLines ≠ v.mainLines ∨ newMainCols ≠ v.mainCols
  let v1 : BSONCacheView := { v with mainLines := newMainLines, mainCols := newMainCols }
  if changed then computeVisible E v1 else Res.ok v1

/-- The loop of `_jumpToDocOffscreen`: `for (int i = 0; i < *targetLine; i++) moveUp();`, with
the number of iterations left as first argument. -/
def moveUpTimes (E : Env) : Nat → BSONCacheView → Res BSONCacheView
  | 0, v => Res.ok v
  | k + 1, v => (moveUp E v).bind fun v1 => moveUpTimes E k v1

/-- Method `_jumpToDocOffscreen(doc)` with the default `targetLine`. -/
def _jumpToDocOffscreen (E : Env) (doc : Nat) (v : BSONCacheView) : Res BSONCacheView :=
  let v1 : BSONCacheView := { v with startDoc := doc, startLine := 0, cursorLine := 0 }
  let targetLine : Int := Int.tdiv v1.mainLines 4
  if targetLine > 0 then moveUpTimes E targetLine.toNat v1 else computeVisible E v1

/-- The loop of `_jumpToDocOnscreen`: `for (d = _startDoc; d != doc && d < _lastDisplayedDoc;
d++) _cursorLine += _docLines[d - _startDoc];`, with a bound on the iterations left; an index
outside `_docLines` is undefined. -/
def onscreenLoop (doc : Nat) (v : BSONCacheView) : Nat → Nat → Int → Option Int
  | 0, _, cursorLine => some cursorLine
  | k + 1, d, cursorLine =>
    if d ≠ doc ∧ d < v.lastDisplayedDoc then
      match v.docLines.get? ((d + 2 ^ 64 - v.startDoc) % 2 ^ 64) with
      | none => none
      | some l => onscreenLoop doc v k (uadd1 d) (cursorLine + l)
    else some cursorLine

/-- Method `_jumpToDocOnscreen(doc)`. -/
def _jumpToDocOnscreen (E : Env) (doc : Nat) (v : BSONCacheView) : Res BSONCacheView :=
  match onscreenLoop doc v (v.lastDisplayedDoc - v.startDoc) v.startDoc (0 - v.startLine) with
  | none => Res.fault Fault.undefinedBehaviour
  | some cl => computeVisible E { v with cursorLine := cl }

/-- Method `jumpToDoc(doc)`. -/
def jumpToDoc (E : Env) (doc : Nat) (v : BSONCacheView) : Res BSONCacheView :=
  if doc < v.startDoc ∨ (doc = v.startDoc ∧ v.startLine > 0) then _jumpToDocOffscreen E doc v
  else if doc > v.lastDisplayedDoc then _jumpToDocOffscreen E doc v
  else _jumpToDocOnscreen E doc v

end BSONCacheView

/-- The scan of document `doc`, rendered as `str`, by the inner loop of `computeVisible` when
the outer loop has reached `line`, `longestLine` and `skipLines`. -/
def scanOf (v : BSONCacheView) (doc : Nat) (str : List Char) (line longestLine skipLines : Int) :
    Scan :=
  subLineLoop v.mainLines v.cursorLine doc (subLineLens str)
    { line := line, longestLine := longestLine, skipLines := skipLines, thisDocLines := 0,
      cursorDoc := v.cursorDoc }

/-- The view after one iteration of the outer loop of `computeVisible`: the cache as
`cache()[doc]` left it, and the members the iteration assigns. -/
def stepView (v : BSONCacheView) (c : BSONCache) (doc : Nat) (st : Scan) : BSONCacheView :=
  { v with
    cache := c
    cursorDoc := st.cursorDoc
    docLines := v.docLines ++ [st.thisDocLines]
    lastDisplayedDoc := doc }

/-- The members that `computeVisible` does not assign are the same in `v1` as in `v`. -/
structure SameCtl (v v1 : BSONCacheView) : Prop where
  documentRenderMode : v1.documentRenderMode = v.documentRenderMode
  startCol : v1.startCol = v.startCol
  startDoc : v1.startDoc = v.startDoc
  startLine : v1.startLine = v.startLine
  cursorLine : v1.cursorLine = v.cursorLine
  mainLines : v1.mainLines = v.mainLines
  mainCols : v1.mainCols = v.mainCols
  extendedJSONMode : v1.extendedJSONMode = v.extendedJSONMode
  jumpToEndAfterLoadingComplete :
    v1.jumpToEndAfterLoadingComplete = v.jumpToEndAfterLoadingComplete

/-- A view whose derived members are what `computeVisible` computes from it: recomputing
changes nothing. -/
def Fresh (E : Env) (v : BSONCacheView) : Prop := BSONCacheView.computeVisible E v = Res.ok v

/-- A viewport method that leaves the horizontal scroll alone and, run on a fresh view, leaves a
fresh view. -/
def Keeps (E : Env) (f : BSONCacheView → Res BSONCacheView) : Prop :=
  ∀ v v1, f v = Res.ok v1 → (Fresh E v → Fresh E v1) ∧ v1.startCol = v.startCol

/-- The first statements of `pageDown` on a full screen: the scroll to the last document of the
frame, `cursorTop()` and `computeVisible()`, up to the test for the last loaded document. -/
def BSONCacheView.pageDownScroll (E : Env) (v : BSONCacheView) : Res BSONCacheView :=
  match v.docLines.getLast? with
  | none => Res.fault Fault.undefinedBehaviour
  | some back =>
    (BSONCacheView.cursorTop E
      { v with
        startDoc := v.lastDisplayedDoc
        startLine := back - (BSONCacheView.getTotalDocLines v - v.startLine - v.mainLines) }).bind
      fun v2 => BSONCacheView.computeVisible E v2

/-- A renderer for the sample files: one line in every mode but `kJSONPretty`, which spreads the
document over three lines. -/
def sampleRender : Renderer := fun m _ _ =>
  match m with
  | DocumentRenderMode.kJSONPretty => "\x7b\n \"a\" : null\n\x7d".toList
  | _ => "\x7b \"a\" : null \x7d".toList

/-- The two-record file with its renderer. -/
def sampleEnv : Env := { dec := sampleDec, render := sampleRender, fuel := 8 }

/-- The six-record file with its renderer. -/
def sixEnv : Env := { dec := sixDec, render := sampleRender, fuel := 8 }

/-- The 5 bytes of the BSON record of the empty document. -/
def emptyRecord : List Nat := [5, 0, 0, 0, 0]

/-- The 17 bytes of the BSON record of the document with the four fields `a`, `b`, `c` and `d`,
all of type null. -/
def tallRecord : List Nat := [17, 0, 0, 0, 10, 97, 0, 10, 98, 0, 10, 99, 0, 10, 100, 0, 0]

/-- A renderer for files that mix the three sample records: the empty document is one line in
every mode, the others are one line in every mode but `kJSONPretty`, which gives one line per
field between the lines of the two braces. -/
def mixedRender : Renderer := fun m _ d =>
  if d.objsize = 5 then "\x7b\x7d".toList
  else if d.objsize = 8 then
    match m with
    | DocumentRenderMode.kJSONPretty => "\x7b\n \"a\" : null\n\x7d".toList
    | _ => "\x7b \"a\" : null \x7d".toList
  else
    match m with
    | DocumentRenderMode.kJSONPretty =>
      "\x7b\n \"a\" : null,\n \"b\" : null,\n \"c\" : null,\n \"d\" : null\n\x7d".toList
    | _ => "\x7b \"a\" : null, \"b\" : null, \"c\" : null, \"d\" : null \x7d".toList

/-- A file of six records, 39 bytes, mapped at address 1000: the one-field document and the
empty document in turn, three times. -/
def mixedDec : Decoder :=
  fileDecoder 1000
    (sampleRecord ++ emptyRecord ++ sampleRecord ++ emptyRecord ++ sampleRecord ++ emptyRecord)

/-- The cache of the mixed file once loading is complete. -/
def mixedLoaded : BSONCache :=
  ((BSONCache.init mixedDec BSONCache.new 1000 1039).cache.loadSome mixedDec 100).cache

/-- The mixed file with its renderer. -/
def mixedEnv : Env := { dec := mixedDec, render := mixedRender, fuel := 8 }

/-- A file of two records, 25 bytes, mapped at address 1000: the one-field document, then the
four-field document. -/
def tallDec : Decoder := fileDecoder 1000 (sampleRecord ++ tallRecord)

/-- The cache of the two-record file with the four-field document once loading is complete. -/
def tallLoaded : BSONCache :=
  ((BSONCache.init tallDec BSONCache.new 1000 1025).cache.loadSome tallDec 100).cache

/-- The two-record file with the four-field document, with its renderer. -/
def tallEnv : Env := { dec := tallDec, render := mixedRender, fuel := 8 }

/-- The viewport commands: horizontal and vertical motion, cursor motion, paging, jumps, and
changes of render mode and JSON flavor. -/
inductive ViewOp where
  | moveLeft
  | moveRight
  | jumpLeft
  | jumpRight
  | cursorTop
  | cursorMiddle
  | cursorBottom
  | cursorUp
  | cursorDown
  | moveCursorUp
  | moveCursorDown
  | moveNextDoc
  | movePrevDoc
  | moveDown
  | moveUp
  | jumpUp
  | jumpDown
  | pageUp
  | pageDown
  | setDocumentRenderMode (m : DocumentRenderMode)
  | toggleExtendedJSONMode
  | jumpToDoc (doc : Nat)
  deriving DecidableEq, Repr

/-- The method a viewport command calls. -/
def ViewOp.run (E : Env) : ViewOp → BSONCacheView → Res BSONCacheView
  | ViewOp.moveLeft => BSONCacheView.moveLeft E
  | ViewOp.moveRight => BSONCacheView.moveRight E
  | ViewOp.jumpLeft => BSONCacheView.jumpLeft E
  | ViewOp.jumpRight => BSONCacheView.jumpRight E
  | ViewOp.cursorTop => BSONCacheView.cursorTop E
  | ViewOp.cursorMiddle => BSONCacheView.cursorMiddle E
  | ViewOp.cursorBottom => BSONCacheView.cursorBottom E
  | ViewOp.cursorUp => BSONCacheView.cursorUp E
  | ViewOp.cursorDown => BSONCacheView.cursorDown E
  | ViewOp.moveCursorUp => BSONCacheView.moveCursorUp E
  | ViewOp.moveCursorDown => BSONCacheView.moveCursorDown E
  | ViewOp.moveNextDoc => BSONCacheView.moveNextDoc E
  | ViewOp.movePrevDoc => BSONCacheView.movePrevDoc E
  | ViewOp.moveDown => BSONCacheView.moveDown E
  | ViewOp.moveUp => BSONCacheView.moveUp E
  | ViewOp.jumpUp => BSONCacheView.jumpUp E
  | ViewOp.jumpDown => BSONCacheView.jumpDown E
  | ViewOp.pageUp => BSONCacheView.pageUp E
  | ViewOp.pageDown => BSONCacheView.pageDown E
  | ViewOp.setDocumentRenderMode m => BSONCacheView.setDocumentRenderMode E m
  | ViewOp.toggleExtendedJSONMode => BSONCacheView.toggleExtendedJSONMode E
  | ViewOp.jumpToDoc doc => BSONCacheView.jumpToDoc E doc

/-- A sequence of viewport commands, run in order. -/
def runOps (E : Env) : List ViewOp → BSONCacheView → Res BSONCacheView
  | [], v => Res.ok v
  | op :: ops, v => (op.run E v).bind fun v1 => runOps E ops v1

/-- The states of the viewport that the program reaches: the first expose of a window with a
line or a column, then viewport commands, resizes of the window, and loads of further documents
by the idle callback. -/
inductive ViewReachable (E : Env) : BSONCacheView → Prop
  | start (c : BSONCache) (lines cols : Int) (v : BSONCacheView) :
      lines ≠ 0 ∨ cols ≠ 0 →
      BSONCacheView.updateDimensions E lines cols (BSONCacheView.new c) = Res.ok v →
      ViewReachable E v
  | op (v v1 : BSONCacheView) (o : ViewOp) :
      ViewReachable E v → o.run E v = Res.ok v1 → ViewReachable E v1
  | resize (v v1 : BSONCacheView) (lines cols : Int) :
      ViewReachable E v → BSONCacheView.updateDimensions E lines cols v = Res.ok v1 →
      ViewReachable E v1
  | load (v : BSONCacheView) (n : Nat) :
      ViewReachable E v →
      ViewReachable E { v with cache := (v.cache.loadSome E.dec n).cache }

/-- The horizontal scroll commands. -/
def ViewOp.horizontal : ViewOp → Bool
  | ViewOp.moveLeft => true
  | ViewOp.moveRight => true
  | ViewOp.jumpLeft => true
  | ViewOp.jumpRight => true
  | _ => false

/-! ## The mark set and the drag -/

/-- Method `insert` of `std::set<unsigned long>`, the set being the ascending list of its
elements. -/
def setInsert (x : Nat) : List Nat → List Nat
  | [] => [x]
  | y :: ys =>
    if x < y then x :: y :: ys
    else if x = y then y :: ys
    else y :: setInsert x ys

/-- Method `erase` of `std::set<unsigned long>`, by key. -/
def setErase (x : Nat) (s : List Nat) : List Nat := s.filter fun y => y ≠ x

/-- Method `upper_bound` of `std::set<unsigned long>`: the position of the first element
greater than `x`, the length of the list standing for `end()`. -/
def upperBound (x : Nat) (s : List Nat) : Nat := (s.takeWhile fun y => y ≤ x).length

/-- Method `lower_bound` of `std::set<unsigned long>`: the position of the first element not
less than `x`, the length of the list standing for `end()`. -/
def lowerBound (x : Nat) (s : List Nat) : Nat := (s.takeWhile fun y => y < x).length

/-- The members of `class BSONCacheView` that the mark and drag methods use: `_markedDocs`,
`_dragMarked`, `_dragFirst` and `_dragLast`.  The last two have no initialiser in the class;
they are read only while `_dragMarked` holds a value, or in `dragEnd`. -/
structure Marks where
  markedDocs : List Nat := []
  dragMarked : Option Bool := none
  dragFirst : Nat := 0
  dragLast : Nat := 0
  deriving DecidableEq, Repr

namespace Marks

/-- Method `isMarkedDoc(doc)`. -/
def isMarkedDoc (m : Marks) (doc : Nat) : Bool :=
  match m.dragMarked with
  | some b =>
    if (m.dragFirst ≤ m.dragLast ∧ m.dragFirst ≤ doc ∧ doc ≤ m.dragLast) ∨
        (m.dragFirst > m.dragLast ∧ m.dragLast ≤ doc ∧ doc ≤ m.dragFirst) then b
    else decide (doc ∈ m.markedDocs)
  | none => decide (doc ∈ m.markedDocs)

/-- Method `dragStart(doc)`. -/
def dragStart (m : Marks) (doc : Nat) : Marks :=
  { m with dragMarked := some (!m.isMarkedDoc doc), dragFirst := doc, dragLast := doc }

/-- Method `dragUpdate(doc)`. -/
def dragUpdate (m : Marks) (doc : Nat) : Marks := { m with dragLast := doc }

/-- Method `markDoc(doc)`. -/
def markDoc (m : Marks) (doc : Nat) : Marks := { m with markedDocs := setInsert doc m.markedDocs }

/-- Method `unmarkDoc(doc)`. -/
def unmarkDoc (m : Marks) (doc : Nat) : Marks :=
  { m with markedDocs := setErase doc m.markedDocs }

/-- Method `toggleMarkDoc(doc)`. -/
def toggleMarkDoc (m : Marks) (doc : Nat) : Marks :=
  if m.isMarkedDoc doc then m.unmarkDoc doc else m.markDoc doc

/-- The loop of `dragEnd`: `for (doc = _dragFirst; doc <= _dragLast; doc++)`, which marks or
unmarks `doc` as `*_dragMarked` says; dereferencing an empty `_dragMarked` is undefined. -/
def dragEndLoop : Nat → Nat → Marks → Res Marks
  | 0, doc, m => if doc ≤ m.dragLast then Res.outOfFuel else Res.ok m
  | fuel + 1, doc, m =>
    if doc ≤ m.dragLast then
      match m.dragMarked with
      | none => Res.fault Fault.undefinedBehaviour
      | some b => dragEndLoop fuel (uadd1 doc) (if b then m.markDoc doc else m.unmarkDoc doc)
    else Res.ok m

/-- Method `dragEnd(doc)`. -/
def dragEnd (E : Env) (doc : Nat) (m : Marks) : Res Marks :=
  let m1 : Marks := { m with dragLast := doc }
  let m2 : Marks :=
    if m1.dragFirst > m1.dragLast then
      { m1 with dragFirst := m1.dragLast, dragLast := m1.dragFirst }
    else m1
  (dragEndLoop E.fuel m2.dragFirst m2).bind fun m3 => Res.ok { m3 with dragMarked := none }

/-- Method `nextMarkedDoc(doc)`. -/
def nextMarkedDoc (m : Marks) (doc : Nat) : Option Nat :=
  if m.markedDocs.length = 0 then none
  else
    let next := upperBound doc m.markedDocs
    if next ≠ m.markedDocs.length then m.markedDocs.get? next
    else m.markedDocs.head?

/-- Method `prevMarkedDoc(doc)`. -/
def prevMarkedDoc (m : Marks) (doc : Nat) : Option Nat :=
  if m.markedDocs.length = 0 then none
  else
    let nextOrThis := lowerBound doc m.markedDocs
    if nextOrThis = 0 then m.markedDocs.getLast?
    else m.markedDocs.get? (nextOrThis - 1)

end Marks

/-- Modelled from the spec: `y` is the smallest marked index strictly greater than `x`, or the
smallest marked index overall when none is greater. -/
def IsNextMarked (s : List Nat) (x y : Nat) : Prop :=
  y ∈ s ∧ ((x < y ∧ ∀ z ∈ s, x < z → y ≤ z) ∨ ((∀ z ∈ s, z ≤ x) ∧ ∀ z ∈ s, y ≤ z))

/-- Modelled from the spec: `y` is the largest marked index strictly smaller than `x`, or the
largest marked index overall when none is smaller. -/
def IsPrevMarked (s : List Nat) (x y : Nat) : Prop :=
  y ∈ s ∧ ((y < x ∧ ∀ z ∈ s, z < x → z ≤ y) ∨ ((∀ z ∈ s, x ≤ z) ∧ ∀ z ∈ s, z ≤ y))

/-! ## Search -/

/-- Method `find(str)` of `std::string`: the first position at which `t` occurs in `s`, `none`
standing for `npos`. -/
def strFind : List Char → List Char → Option Nat
  | [], t => if t = [] then some 0 else none
  | c :: cs, t =>
    if t.isPrefixOf (c :: cs) then some 0
    else (strFind cs t).map fun i => i + 1

/-- The two subclasses of `class Search`: `SearchRenderedText` with its text, and `SearchMQL`
with its text and the matcher built from it, absent when the text does not parse (`_valid` is
then false).  The match details that the matcher fills in are left out. -/
inductive Search where
  | renderedText (text : List Char)
  | mql (text : List Char) (matcher : Option (BSONObj → Bool))

namespace Search

/-- Method `isValid()`. -/
def isValid : Search → Bool
  | renderedText text => decide (text ≠ [])
  | mql _ matcher => matcher.isSome

/-- Method `matches(doc, view)`; the view comes back because `renderDoc(doc)` and
`cache()[doc]` may load documents. -/
def matches_ (E : Env) (s : Search) (doc : Nat) (v : BSONCacheView) :
    Res (Bool × BSONCacheView) :=
  match s with
  | renderedText text =>
    if (renderedText text).isValid = false then Res.ok (false, v)
    else
      (BSONCacheView.renderDoc E v doc).bind fun p =>
        Res.ok ((strFind p.1 text).isSome, p.2)
  | mql _ none => Res.ok (false, v)
  | mql _ (some matcher) =>
    match v.cache.index E.dec E.fuel doc with
    | none => Res.outOfFuel
    | some (r, od) =>
      match r.fault, od with
      | some f, _ => Res.fault f
      | none, none => Res.fault Fault.undefinedBehaviour
      | none, some d => Res.ok (matcher d, { v with cache := r.cache })

end Search

/-- The loop of `searchFor`: `for (curr = ...; curr < cache().numDocs(); curr++)`. -/
def BSONCacheView.searchForLoop (E : Env) (s : Search) :
    Nat → Nat → BSONCacheView → Res (Option Nat × BSONCacheView)
  | 0, curr, v => if curr < v.cache.numDocs then Res.outOfFuel else Res.ok (none, v)
  | fuel + 1, curr, v =>
    if curr < v.cache.numDocs then
      (s.matches_ E curr v).bind fun p =>
        if p.1 then Res.ok (some curr, p.2)
        else BSONCacheView.searchForLoop E s fuel (uadd1 curr) p.2
    else Res.ok (none, v)

/-- Method `searchFor(s)`. -/
def BSONCacheView.searchFor (E : Env) (s : Search) (v : BSONCacheView) :
    Res (Option Nat × BSONCacheView) :=
  BSONCacheView.searchForLoop E s E.fuel (uadd1 v.cursorDoc) v

/-- The globals that a search touches: `view`, its member `_lastSearch`, and the member `_extra`
of `status`. -/
structure Session where
  view : BSONCacheView
  lastSearch : Option Search := none
  extra : List Char := []

/-- The function that `doSearch()` defers until after the next paint. -/
def doSearchDeferred (E : Env) (s : Session) : Res Session :=
  match s.lastSearch with
  | some lastSearch =>
    if lastSearch.isValid then
      (BSONCacheView.searchFor E lastSearch s.view).bind fun p =>
        match p.1 with
        | some doc =>
          (BSONCacheView.jumpToDoc E doc p.2).bind fun v2 =>
            Res.ok { s with extra := "".toList, view := v2 }
        | none => Res.ok { s with extra := "Pattern not found".toList, view := p.2 }
    else Res.ok { s with extra := "Invalid search pattern".toList }
  | none => Res.ok { s with extra := "No search pattern".toList }

/-- Function `doSearch()`: the status shows `Searching...`, then the deferred function runs. -/
def doSearch (E : Env) (s : Session) : Res Session :=
  doSearchDeferred E { s with extra := "Searching...".toList }

/-- Function `submitSearchString(s)`; `mql` stands for the construction of the matcher from
the text, which gives nothing when the text does not parse.  An empty `std::string` has the
null character at index 0. -/
def submitSearchString (E : Env) (mql : List Char → Option (BSONObj → Bool)) (text : List Char)
    (s : Session) : Res Session :=
  let search : Search :=
    if text.headD (Char.ofNat 0) = '\x7b' then Search.mql text (mql text)
    else Search.renderedText text
  doSearch E { s with lastSearch := some search }

/-- A file of two records, 25 bytes, mapped at address 1000: the four-field document, then the
one-field document. -/
def tallFirstDec : Decoder := fileDecoder 1000 (tallRecord ++ sampleRecord)

/-- The cache of the file that starts with the four-field document, once loading is
complete. -/
def tallFirstLoaded : BSONCache :=
  ((BSONCache.init tallFirstDec BSONCache.new 1000 1025).cache.loadSome tallFirstDec 100).cache

/-- The file that starts with the four-field document, with its renderer. -/
def tallFirstEnv : Env := { dec := tallFirstDec, render := mixedRender, fuel := 8 }

/-! ## The visible sub-lines of a frame -/

/-- Modelled from the spec: the lengths of the sub-lines that `doc_lines` counts, document by
document from `doc` on: of the rendering of each document, as many sub-lines as its entry of
`doc_lines` says. -/
def BSONCacheView.countedLens (E : Env) (v : BSONCacheView) : Nat → List Int → List Nat
  | _, [] => []
  | doc, n :: rest =>
    (match v.cache.docs.get? doc with
      | some d =>
        (subLineLens (E.render v.documentRenderMode v.extendedJSONMode d)).take n.toNat
      | none => []) ++ BSONCacheView.countedLens E v (doc + 1) rest

/-- Modelled from the spec: the lengths of the visible sub-lines of a frame, top row first: the
counted sub-lines without the first `start_line` of them, which are hidden. -/
def BSONCacheView.visibleLens (E : Env) (v : BSONCacheView) : List Nat :=
  (BSONCacheView.countedLens E v v.startDoc v.docLines).drop v.startLine.toNat

/-- Modelled from the spec: the length of the longest visible sub-line, 0 when no sub-line is
visible. -/
def BSONCacheView.longestVisible (E : Env) (v : BSONCacheView) : Int :=
  (BSONCacheView.visibleLens E v).foldl (fun (a : Int) (len : Nat) => max a (len : Int)) 0

/-! ## Rows and documents, and the mouse -/

/-- The loop of `docForLine(line)`: `doc` is the loop counter and `l` the local of that name on
entry to the iteration. -/
def BSONCacheView.docForLineLoop (v : BSONCacheView) (line : Int) :
    List Int → Nat → Int → Option Nat
  | [], _, _ => none
  | n :: rest, doc, l =>
    if l ≤ line ∧ line < l + n then some ((v.startDoc + doc) % 2 ^ 64)
    else BSONCacheView.docForLineLoop v line rest (doc + 1) (l + n)

/-- Method `docForLine(line)`. -/
def BSONCacheView.docForLine (v : BSONCacheView) (line : Int) : Option Nat :=
  BSONCacheView.docForLineLoop v line v.docLines 0 (0 - v.startLine)

/-- Method `dragStartLine(line)`. -/
def BSONCacheView.dragStartLine (v : BSONCacheView) (line : Int) (m : Marks) : Marks :=
  match v.docForLine line with
  | some doc => m.dragStart doc
  | none => m

/-- Method `dragUpdateLine(line)`. -/
def BSONCacheView.dragUpdateLine (v : BSONCacheView) (line : Int) (m : Marks) : Marks :=
  match v.docForLine line with
  | some doc => m.dragUpdate doc
  | none => m

/-- Method `dragEndLine(line)`. -/
def BSONCacheView.dragEndLine (E : Env) (v : BSONCacheView) (line : Int) (m : Marks) :
    Res Marks :=
  match v.docForLine line with
  | some doc => m.dragEnd E doc
  | none => Res.ok m

/-- The button-1 events that `event_mouse` handles, with the row under the pointer. -/
inductive MouseEvent where
  | press (line : Int)
  | drag (line : Int)
  | release (line : Int)
  deriving DecidableEq, Repr

/-- Function `event_mouse`, for a button-1 event. -/
def event_mouse (E : Env) (v : BSONCacheView) (ev : MouseEvent) (m : Marks) : Res Marks :=
  match ev with
  | MouseEvent.press line => Res.ok (v.dragStartLine line m)
  | MouseEvent.drag line => Res.ok (v.dragUpdateLine line m)
  | MouseEvent.release line => v.dragEndLine E line m

/-- A sequence of button-1 events on one frame, handled in order. -/
def mouseEvents (E : Env) (v : BSONCacheView) : List MouseEvent → Marks → Res Marks
  | [], m => Res.ok m
  | ev :: evs, m => (event_mouse E v ev m).bind fun m1 => mouseEvents E v evs m1

/-! ## The prompt -/

/-- Method `substr(pos)` of `std::string`; it throws when `pos` exceeds the size. -/
def substrFrom (s : List Char) (pos : Int) : Option (List Char) :=
  if 0 ≤ pos ∧ pos ≤ s.length then some (s.drop pos.toNat) else none

/-- Method `substr(0, n)` of `std::string`; a negative `n`, converted to `size_t`, is taken as a
large count. -/
def substrTo (s : List Char) (n : Int) : List Char :=
  if 0 ≤ n then s.take n.toNat else s

/-- The members of `class SingleLinePrompt` that its key handler uses. -/
structure SingleLinePrompt where
  enteredText : List Char := []
  cursorCol : Int := 0
  deriving DecidableEq, Repr

/-- The key events that the prompt handles: text, with the string of the event, and the named
keys. -/
inductive PromptKey where
  | text (str : List Char)
  | backspace
  | delete
  | left
  | right
  | home
  | end_
  | ctrlU
  | up
  | down
  | escape
  | enter
  deriving DecidableEq, Repr

/-- What the key handler of the prompt calls, with `_enteredText`. -/
inductive PromptCall where
  | confirm (text : List Char)
  | cancel (text : List Char)
  deriving DecidableEq, Repr

namespace SingleLinePrompt

/-- Method `setEnteredText(s)`. -/
def setEnteredText (s : List Char) (_p : SingleLinePrompt) : SingleLinePrompt :=
  { enteredText := s, cursorCol := s.length }

/-- Method `_event_key`, for an event with a string: the prompt it leaves and the callback it
calls, if any; `none` stands for an exception of `substr`. -/
def _event_key (key : PromptKey) (p : SingleLinePrompt) :
    Option (SingleLinePrompt × Option PromptCall) :=
  match key with
  | PromptKey.text str =>
    some ({ enteredText := p.enteredText ++ str, cursorCol := p.cursorCol + 1 }, none)
  | PromptKey.backspace =>
    if p.cursorCol > 0 then
      match substrFrom p.enteredText p.cursorCol with
      | none => none
      | some rest =>
        some ({ enteredText := substrTo p.enteredText (p.cursorCol - 1) ++ rest,
                cursorCol := p.cursorCol - 1 }, none)
    else if p.enteredText = [] then some (p, some (PromptCall.cancel p.enteredText))
    else some (p, none)
  | PromptKey.delete =>
    if p.cursorCol < (p.enteredText.length : Int) then
      match substrFrom p.enteredText (p.cursorCol + 1) with
      | none => none
      | some rest =>
        some ({ p with enteredText := substrTo p.enteredText p.cursorCol ++ rest }, none)
    else some (p, none)
  | PromptKey.left =>
    if p.cursorCol > 0 then some ({ p with cursorCol := p.cursorCol - 1 }, none)
    else some (p, none)
  | PromptKey.right =>
    if p.cursorCol < (p.enteredText.length : Int) then
      some ({ p with cursorCol := p.cursorCol + 1 }, none)
    else some (p, none)
  | PromptKey.home =>
    if p.cursorCol ≠ 0 then some ({ p with cursorCol := 0 }, none) else some (p, none)
  | PromptKey.end_ =>
    if p.cursorCol ≠ (p.enteredText.length : Int) then
      some ({ p with cursorCol := (p.enteredText.length : Int) }, none)
    else some (p, none)
  | PromptKey.ctrlU =>
    if p.cursorCol > 0 then
      match substrFrom p.enteredText p.cursorCol with
      | none => none
      | some rest => some ({ enteredText := rest, cursorCol := 0 }, none)
    else some (p, none)
  | PromptKey.up => some (p, none)
  | PromptKey.down => some (p, none)
  | PromptKey.escape => some (p, some (PromptCall.cancel p.enteredText))
  | PromptKey.enter => some (p, some (PromptCall.confirm p.enteredText))

/-- A sequence of keys typed in the prompt, none of which calls a callback or throws. -/
def typeKeys : List PromptKey → SingleLinePrompt → Option SingleLinePrompt
  | [], p => some p
  | k :: ks, p =>
    match _event_key k p with
    | some (p1, none) => typeKeys ks p1
    | _ => none

end SingleLinePrompt

/-! ## Sub-line offsets -/

/-- Modelled from the spec: the number of sub-lines of the rendering of document `i`, in the
mode and flavor of the view; 0 for a document that is not loaded. -/
def BSONCacheView.subLineCount (E : Env) (v : BSONCacheView) (i : Nat) : Nat :=
  match v.cache.docs.get? i with
  | some d => (subLineLens (E.render v.documentRenderMode v.extendedJSONMode d)).length
  | none => 0

/-- Modelled from the spec: the number of sub-lines of all documents before document `n`. -/
def BSONCacheView.linesBefore (E : Env) (v : BSONCacheView) (n : Nat) : Nat :=
  ((List.range n).map (BSONCacheView.subLineCount E v)).sum

/-- Modelled from the spec: the global sub-line offset of the frame: the sub-lines of all
documents before `start_doc`, plus `start_line`. -/
def BSONCacheView.globalOffset (E : Env) (v : BSONCacheView) : Int :=
  (BSONCacheView.linesBefore E v v.startDoc : Int) + v.startLine

/-- The cache after `init` on the six-record file: one document, not complete. -/
def sixInit : BSONCache := (BSONCache.init sixDec BSONCache.new 1000 1048).cache

/-! ## The cache: invariants of the reachable states -/

namespace BSONCache

theorem getNextBase_append (c : BSONCache) (ds : List BSONObj) (d : BSONObj) :
    _getNextBase { c with docs := ds ++ [d] } = some (d.objdata + d.objsize) := by
  simp [_getNextBase, _getLast]

/-- The three ways `_loadNext` can go: nothing to do, a fault that leaves the cache as it was,
or one record appended at the next base. -/
theorem loadNext_cases (dec : Decoder) (c : BSONCache) :
    (c.complete = true ∧ c._loadNext dec = { cache := c, fault := none }) ∨
    (c.complete = false ∧ (c._loadNext dec).cache = c ∧
      ∃ f, (c._loadNext dec).fault = some f) ∨
    (c.complete = false ∧ ∃ last n, c.docs.getLast? = some last ∧
      dec (last.objdata + last.objsize) = some n ∧
      c._loadNext dec =
        { cache :=
            { c with
              docs := c.docs ++ [{ objdata := last.objdata + last.objsize, objsize := n }]
              complete := decide (c.end_ ≤ last.objdata + last.objsize + n) }
          fault := none }) := by
  cases hc : c.complete with
  | true => left; simp [_loadNext, isComplete, hc]
  | false =>
    right
    cases hl : c.docs.getLast? with
    | none => left; simp [_loadNext, isComplete, hc, _getNextBase, _getLast, hl]
    | some last =>
      cases hd : dec (last.objdata + last.objsize) with
      | none => left; simp [_loadNext, isComplete, hc, _getNextBase, _getLast, hl, hd]
      | some n =>
        right
        refine ⟨rfl, last, n, rfl, hd, ?_⟩
        simp only [_loadNext, isComplete, hc, _getNextBase, _getLast, hl, hd]
        by_cases h : c.end_ ≤ last.objdata + last.objsize + n
        · simp [h]
        · simp [h]

end BSONCache

theorem recordAt_succ (dec : Decoder) (base k : Nat) (d : BSONObj)
    (h : recordAt dec base k = some d) :
    recordAt dec base (k + 1) = (dec (d.objdata + d.objsize)).map fun n =>
      { objdata := d.objdata + d.objsize, objsize := n } := by
  simp [recordAt, h]

theorem CacheInv.append {dec : Decoder} {base end_ : Nat} {c : BSONCache}
    (h : CacheInv dec base end_ c) {last : BSONObj} {n : Nat}
    (hl : c.docs.getLast? = some last) (hd : dec (last.objdata + last.objsize) = some n) :
    CacheInv dec base end_
      { c with
        docs := c.docs ++ [{ objdata := last.objdata + last.objsize, objsize := n }]
        complete := decide (c.end_ ≤ last.objdata + last.objsize + n) } := by
  have hlen : 0 < c.docs.length := List.length_pos.mpr h.nonempty
  refine ⟨h.hbase, h.hend, by simp, ?_, ?_, ?_⟩
  · intro k hk
    simp only [List.length_append, List.length_singleton] at hk
    by_cases hk2 : k < c.docs.length
    · rw [List.getElem?_append_left hk2]; exact h.records k hk2
    · have hk3 : k = (c.docs.length - 1) + 1 := by omega
      have hlast : recordAt dec base (c.docs.length - 1) = some last := by
        rw [h.records _ (by omega), ← List.getLast?_eq_getElem?]; exact hl
      rw [hk3, recordAt_succ dec base _ last hlast, hd]
      have : c.docs.length - 1 + 1 = c.docs.length := by omega
      rw [this]
      simp
  · intro hcomp last2 hl2
    simp at hl2
    simp only [decide_eq_true_eq] at hcomp
    cases hl2
    simpa [h.hend] using hcomp
  · intro hcomp _ last2 hl2
    simp at hl2
    simp only [decide_eq_false_iff_not, not_le] at hcomp
    cases hl2
    simpa [h.hend] using hcomp

theorem CacheInv.loadNext {dec : Decoder} {base end_ : Nat} {c : BSONCache}
    (h : CacheInv dec base end_ c) : CacheInv dec base end_ (c._loadNext dec).cache := by
  rcases BSONCache.loadNext_cases dec c with
    ⟨_, h1⟩ | ⟨_, h1, _⟩ | ⟨_, last, n, hl, hd, h1⟩
  · rw [h1]; exact h
  · rw [h1]; exact h
  · rw [h1]; exact h.append hl hd

theorem CacheInv.loadSomeLoop {dec : Decoder} {base end_ : Nat} (k : Nat) :
    ∀ {c : BSONCache}, CacheInv dec base end_ c →
      CacheInv dec base end_ (BSONCache.loadSomeLoop dec k c).cache := by
  induction k with
  | zero => intro c h; simpa [BSONCache.loadSomeLoop] using h
  | succ k ih =>
    intro c h
    unfold BSONCache.loadSomeLoop
    by_cases hc : c.isComplete = true
    · simpa [hc] using h
    · simp only [hc]
      cases hf : (c._loadNext dec).fault with
      | some f => simpa using h.loadNext
      | none => simpa using ih h.loadNext

theorem CacheInv.loadAllLoop {W : Type} {dec : Decoder} {base end_ : Nat} (cb : W → W)
    (fuel : Nat) : ∀ {c : BSONCache} {i : Nat} {w w1 : W} {r : Run},
      CacheInv dec base end_ c → BSONCache.loadAllLoop dec cb fuel i c w = some (r, w1) →
      CacheInv dec base end_ r.cache := by
  induction fuel with
  | zero =>
    intro c i w w1 r h hr
    unfold BSONCache.loadAllLoop at hr
    by_cases hc : c.isComplete = true
    · simp [hc] at hr; rw [← hr.1]; exact h
    · simp [hc] at hr
  | succ fuel ih =>
    intro c i w w1 r h hr
    unfold BSONCache.loadAllLoop at hr
    by_cases hc : c.isComplete = true
    · simp [hc] at hr; rw [← hr.1]; exact h
    · simp only [hc] at hr
      cases hf : (c._loadNext dec).fault with
      | some f => simp [hf] at hr; rw [← hr.1]; exact h.loadNext
      | none => simp only [hf] at hr; exact ih h.loadNext hr

theorem CacheInv.loadTo {dec : Decoder} {base end_ : Nat} (fuel : Nat) :
    ∀ {c : BSONCache} {i : Nat} {r : Run},
      CacheInv dec base end_ c → BSONCache._loadTo dec fuel i c = some r →
      CacheInv dec base end_ r.cache := by
  induction fuel with
  | zero =>
    intro c i r h hr
    unfold BSONCache._loadTo at hr
    by_cases hc : i ≥ c.docs.length
    · simp [hc] at hr
    · simp [hc] at hr; rw [← hr]; exact h
  | succ fuel ih =>
    intro c i r h hr
    unfold BSONCache._loadTo at hr
    by_cases hc : i ≥ c.docs.length
    · simp only [hc] at hr
      cases hf : (c._loadNext dec).fault with
      | some f => simp [hf] at hr; rw [← hr]; exact h.loadNext
      | none => simp only [hf] at hr; exact ih h.loadNext hr
    · simp [hc] at hr; rw [← hr]; exact h

theorem CacheInv.init {dec : Decoder} {base end_ : Nat}
    (h : (BSONCache.init dec BSONCache.new base end_).fault = none) :
    CacheInv dec base end_ (BSONCache.init dec BSONCache.new base end_).cache := by
  unfold BSONCache.init at h ⊢
  cases hd : dec base with
  | none => simp [hd] at h
  | some n =>
    simp only [hd]
    refine ⟨rfl, rfl, by simp [BSONCache.new], ?_, ?_, ?_⟩
    · intro k hk
      simp [BSONCache.new] at hk
      subst hk
      simp [recordAt, hd, BSONCache.new]
    · intro hc; simp at hc
    · intro _ hlen; simp [BSONCache.new] at hlen

theorem Reachable.inv {dec : Decoder} {base end_ : Nat} {c : BSONCache}
    (h : Reachable dec base end_ c) : CacheInv dec base end_ c := by
  induction h with
  | init h0 => exact CacheInv.init h0
  | loadSome c n _ ih => exact CacheInv.loadSomeLoop n ih
  | loadAll c cb fuel w r w1 _ hr ih => exact CacheInv.loadAllLoop cb fuel ih hr
  | index c fuel i r d _ hr ih =>
    unfold BSONCache.index at hr
    cases hl : BSONCache._loadTo dec fuel i c with
    | none => simp [hl] at hr
    | some r1 =>
      have hinv := CacheInv.loadTo fuel ih hl
      simp only [hl] at hr
      cases hf : r1.fault with
      | some f => simp [hf] at hr; rw [← hr.1]; exact hinv
      | none => simp [hf] at hr; rw [← hr.1]; exact hinv

theorem recordAt_succ_inv (dec : Decoder) (base k : Nat) (d : BSONObj)
    (h : recordAt dec base (k + 1) = some d) :
    ∃ d0, recordAt dec base k = some d0 ∧ dec (d0.objdata + d0.objsize) = some d.objsize ∧
      d.objdata = d0.objdata + d0.objsize := by
  unfold recordAt at h
  cases h0 : recordAt dec base k with
  | none => simp [h0] at h
  | some d0 =>
    simp only [h0] at h
    cases hd : dec (d0.objdata + d0.objsize) with
    | none => simp [hd] at h
    | some n =>
      simp [hd] at h
      subst h
      exact ⟨d0, rfl, hd, rfl⟩

theorem recordAt_base_le (dec : Decoder) (base : Nat) :
    ∀ (k : Nat) (d : BSONObj), recordAt dec base k = some d → base ≤ d.objdata := by
  intro k
  induction k with
  | zero =>
    intro d h
    unfold recordAt at h
    cases hd : dec base with
    | none => simp [hd] at h
    | some n => simp [hd] at h; subst h; exact le_refl _
  | succ k ih =>
    intro d h
    obtain ⟨d0, h0, _, he⟩ := recordAt_succ_inv dec base k d h
    have := ih d0 h0
    omega

theorem recordAt_mono (dec : Decoder) (base : Nat) :
    ∀ (i : Nat) (d : BSONObj), recordAt dec base i = some d →
      ∀ k, k ≤ i → ∃ d1, recordAt dec base k = some d1 ∧ d1.objdata ≤ d.objdata := by
  intro i
  induction i with
  | zero =>
    intro d h k hk
    have : k = 0 := by omega
    subst this
    exact ⟨d, h, le_refl _⟩
  | succ i ih =>
    intro d h k hk
    by_cases hki : k = i + 1
    · subst hki; exact ⟨d, h, le_refl _⟩
    · obtain ⟨d0, h0, _, he⟩ := recordAt_succ_inv dec base i d h
      obtain ⟨d1, h1, hle⟩ := ih d0 h0 k (by omega)
      exact ⟨d1, h1, by omega⟩

namespace BSONCache

theorem loadNext_ok (dec : Decoder) (c : BSONCache) (hc : c.complete = false) (last : BSONObj)
    (n : Nat) (hl : c.docs.getLast? = some last)
    (hd : dec (last.objdata + last.objsize) = some n) :
    c._loadNext dec =
      { cache :=
          { c with
            docs := c.docs ++ [{ objdata := last.objdata + last.objsize, objsize := n }]
            complete := decide (c.end_ ≤ last.objdata + last.objsize + n) }
        fault := none } := by
  rcases loadNext_cases dec c with
    ⟨h1, _⟩ | ⟨_, _, f, hf⟩ | ⟨_, last2, n2, hl2, hd2, h2⟩
  · rw [hc] at h1; cases h1
  · exfalso
    simp [_loadNext, isComplete, hc, _getNextBase, _getLast, hl, hd] at hf
    by_cases h : c.end_ ≤ last.objdata + last.objsize + n
    · simp [h] at hf
    · simp [h] at hf
  · rw [hl] at hl2
    cases hl2
    rw [hd] at hd2
    cases hd2
    exact h2

end BSONCache

theorem CacheInv.objdata_eq {dec : Decoder} {base end_ : Nat} {c : BSONCache}
    (h : CacheInv dec base end_ c) :
    ∀ (i : Nat) (d : BSONObj), c.docs[i]? = some d →
      d.objdata = base + ((c.docs.take i).map BSONObj.objsize).sum := by
  intro i
  induction i with
  | zero =>
    intro d hd
    have hlen : 0 < c.docs.length := List.length_pos.mpr h.nonempty
    have := h.records 0 hlen
    rw [hd] at this
    unfold recordAt at this
    cases hb : dec base with
    | none => simp [hb] at this
    | some n => simp [hb] at this; subst this; simp
  | succ i ih =>
    intro d hd
    have hlt : i + 1 < c.docs.length := by
      by_contra hcon
      rw [List.getElem?_eq_none (by omega)] at hd
      cases hd
    have hr := h.records (i + 1) hlt
    rw [hd] at hr
    obtain ⟨d0, h0, _, he⟩ := recordAt_succ_inv dec base i d hr
    rw [h.records i (by omega)] at h0
    have e0 := ih d0 h0
    have ht : c.docs.take (i + 1) = c.docs.take i ++ [d0] := by
      rw [List.take_succ, h0]; rfl
    rw [ht, he, e0]
    simp [Nat.add_assoc]

/-- What `_loadTo(i)` does when the file has more than `i` records. -/
theorem CacheInv.loadTo_spec {dec : Decoder} {base end_ : Nat} (i : Nat) (d : BSONObj)
    (hrec : recordAt dec base i = some d) (hlt : d.objdata < end_) :
    ∀ (fuel : Nat) (c : BSONCache), CacheInv dec base end_ c →
      i + 1 ≤ fuel + c.docs.length →
      ∃ c1, BSONCache._loadTo dec fuel i c = some { cache := c1, fault := none } ∧
        c1.docs[i]? = some d ∧ c.docs <+: c1.docs ∧ (i < c.docs.length → c1 = c) ∧
        CacheInv dec base end_ c1 := by
  intro fuel
  induction fuel with
  | zero =>
    intro c h hf
    have hi : i < c.docs.length := by omega
    refine ⟨c, ?_, ?_, List.prefix_refl _, fun _ => rfl, h⟩
    · unfold BSONCache._loadTo; simp [hi]
    · rw [← h.records i hi]; exact hrec
  | succ fuel ih =>
    intro c h hf
    by_cases hi : i < c.docs.length
    · refine ⟨c, ?_, ?_, List.prefix_refl _, fun _ => rfl, h⟩
      · unfold BSONCache._loadTo; simp [hi]
      · rw [← h.records i hi]; exact hrec
    · have hlen : 0 < c.docs.length := List.length_pos.mpr h.nonempty
      obtain ⟨d1, hd1, hle⟩ := recordAt_mono dec base i d hrec c.docs.length (by omega)
      have hsucc : c.docs.length = (c.docs.length - 1) + 1 := by omega
      rw [hsucc] at hd1
      obtain ⟨last, hlast, hdec, he⟩ := recordAt_succ_inv dec base _ d1 hd1
      rw [h.records _ (by omega), ← List.getLast?_eq_getElem?] at hlast
      have hnc : c.complete = false := by
        cases hc : c.complete with
        | false => rfl
        | true =>
          have := h.done hc last hlast
          omega
      have hnext := BSONCache.loadNext_ok dec c hnc last d1.objsize hlast hdec
      have hinv := h.append hlast hdec
      obtain ⟨c1, hc1, hget, hpre, _, hinv1⟩ := ih _ hinv (by simp; omega)
      refine ⟨c1, ?_, hget, ?_, fun hcon => absurd hcon hi, hinv1⟩
      · unfold BSONCache._loadTo
        have hge : i ≥ c.docs.length := by omega
        simp only [hge, if_true, hnext]
        exact hc1
      · exact List.IsPrefix.trans (List.prefix_append _ _) hpre

namespace BSONCache

theorem Grows.refl (c : BSONCache) : Grows c c :=
  ⟨rfl, List.prefix_refl _, fun nb h => ⟨nb, h, le_refl _⟩⟩

theorem Grows.trans {a b c : BSONCache} (h1 : Grows a b) (h2 : Grows b c) : Grows a c := by
  refine ⟨h2.1.trans h1.1, List.IsPrefix.trans h1.2.1 h2.2.1, ?_⟩
  intro nb h
  obtain ⟨nb1, e1, l1⟩ := h1.2.2 nb h
  obtain ⟨nb2, e2, l2⟩ := h2.2.2 nb1 e1
  exact ⟨nb2, e2, le_trans l1 l2⟩

theorem loadNext_grows (dec : Decoder) (c : BSONCache) : Grows c (c._loadNext dec).cache := by
  rcases loadNext_cases dec c with ⟨_, h1⟩ | ⟨_, h1, _⟩ | ⟨_, last, n, hl, _, h1⟩
  · rw [h1]; exact Grows.refl c
  · rw [h1]; exact Grows.refl c
  · rw [h1]
    refine ⟨rfl, List.prefix_append _ _, ?_⟩
    intro nb hnb
    have : nb = last.objdata + last.objsize := by
      simp [_getNextBase, _getLast, hl] at hnb; omega
    subst this
    refine ⟨last.objdata + last.objsize + n, ?_, by omega⟩
    simp [_getNextBase, _getLast]

theorem loadSomeLoop_grows (dec : Decoder) (k : Nat) :
    ∀ c : BSONCache, Grows c (loadSomeLoop dec k c).cache := by
  induction k with
  | zero => intro c; simpa [loadSomeLoop] using Grows.refl c
  | succ k ih =>
    intro c
    unfold loadSomeLoop
    by_cases hc : c.isComplete = true
    · simpa [hc] using Grows.refl c
    · simp only [hc]
      cases hf : (c._loadNext dec).fault with
      | some f => simpa using loadNext_grows dec c
      | none => simpa using (loadNext_grows dec c).trans (ih _)

theorem Grows.numDocs_le {c c1 : BSONCache} (h : Grows c c1) : c.numDocs ≤ c1.numDocs :=
  h.2.1.length_le

theorem Grows.seen_le {c c1 : BSONCache} (h : Grows c c1) :
    ∀ s, c.sizeOfFileSeen = some s → ∃ s1, c1.sizeOfFileSeen = some s1 ∧ s ≤ s1 := by
  intro s hs
  unfold sizeOfFileSeen at hs ⊢
  cases hn : c._getNextBase with
  | none => simp [hn] at hs
  | some nb =>
    obtain ⟨nb1, e1, l1⟩ := h.2.2 nb hn
    simp only [hn, Option.some.injEq] at hs
    refine ⟨nb1 - c1.base, by simp [e1], ?_⟩
    rw [← hs, h.1]
    omega

theorem loadSomeSeq_grows (dec : Decoder) (ns : List Nat) :
    ∀ c : BSONCache, Grows c (loadSomeSeq dec ns c) := by
  induction ns with
  | nil => intro c; exact Grows.refl c
  | cons n ns ih => intro c; exact (loadSomeLoop_grows dec n c).trans (ih _)

theorem loadSomeSeq_append (dec : Decoder) (ns ms : List Nat) :
    ∀ c : BSONCache,
      loadSomeSeq dec (ns ++ ms) c = loadSomeSeq dec ms (loadSomeSeq dec ns c) := by
  induction ns with
  | nil => intro c; rfl
  | cons n ns ih => intro c; exact ih _

end BSONCache

theorem sampleLoaded_reachable : Reachable sampleDec 1000 1016 sampleLoaded :=
  Reachable.loadSome _ 1 (Reachable.init (by decide))

/-! ## The cache: the claims -/

/-- C1 (record contiguity): in every cache state reachable from `init` by `loadSome`, `loadAll`
and `operator[]`, for every `i` with `i + 1 < numDocs()`, documents `i` and `i + 1` exist and
document `i + 1` starts at the byte right after document `i`. -/
theorem record_contiguity (dec : Decoder) (base end_ : Nat) (c : BSONCache)
    (h : Reachable dec base end_ c) (i : Nat) (hi : i + 1 < c.numDocs) :
    ∃ d0 d1, c.docs[i]? = some d0 ∧ c.docs[i + 1]? = some d1 ∧
      d1.objdata = d0.objdata + d0.objsize := by
  have inv := h.inv
  have hi1 : i + 1 < c.docs.length := hi
  have hr := inv.records (i + 1) hi1
  rw [List.getElem?_eq_getElem hi1] at hr
  obtain ⟨d0, h0, _, he⟩ := recordAt_succ_inv dec base i _ hr
  rw [inv.records i (by omega)] at h0
  exact ⟨d0, c.docs[i + 1], h0, List.getElem?_eq_getElem hi1, he⟩

/-- Witness for C1 on the two-record file. -/
theorem record_contiguity_witness :
    Reachable sampleDec 1000 1016 sampleLoaded ∧ 0 + 1 < sampleLoaded.numDocs ∧
      ∃ d0 d1, sampleLoaded.docs[0]? = some d0 ∧ sampleLoaded.docs[0 + 1]? = some d1 ∧
        d1.objdata = d0.objdata + d0.objsize :=
  ⟨sampleLoaded_reachable, by decide,
    record_contiguity sampleDec 1000 1016 sampleLoaded sampleLoaded_reachable 0 (by decide)⟩

/-- C2: on a file that holds exactly one record, `init` stores the record and leaves the cache
not complete although `base + docs[0].objsize ≥ end`; `init` never sets `_complete`. -/
theorem init_single_record_not_complete :
    BSONCache.init singleDec BSONCache.new 1000 1005 =
      { cache := { docs := [{ objdata := 1000, objsize := 5 }], base := 1000, end_ := 1005,
                   complete := false },
        fault := none } ∧
    1000 + 5 ≥ 1005 ∧
    ∀ (dec : Decoder) (c : BSONCache) (base end_ : Nat),
      (BSONCache.init dec c base end_).cache.isComplete = false := by
  refine ⟨by decide, by decide, ?_⟩
  intro dec c base end_
  unfold BSONCache.init
  cases dec base <;> rfl

/-- C3: in a reachable cache state, when the file holds more than `i` records (its `i`-th record
`d` exists and starts before `end`), `operator[](i)` returns, given fuel for the records still
to load, and yields `d`, which starts at `base` plus the sizes of records `0..i-1`; afterwards
`numDocs() > i`, the documents loaded before are still there, in place, and the cache is the
same when `i < numDocs()` held beforehand. -/
theorem index_returns_record (dec : Decoder) (base end_ : Nat) (c : BSONCache)
    (h : Reachable dec base end_ c) (i : Nat) (d : BSONObj)
    (hrec : recordAt dec base i = some d) (hlt : d.objdata < end_)
    (fuel : Nat) (hfuel : i + 1 ≤ fuel + c.numDocs) :
    ∃ c1, c.index dec fuel i = some ({ cache := c1, fault := none }, some d) ∧
      d.objdata = base + ((c1.docs.take i).map BSONObj.objsize).sum ∧
      i < c1.numDocs ∧ c.docs <+: c1.docs ∧ (i < c.numDocs → c1 = c) := by
  obtain ⟨c1, hc1, hget, hpre, hsame, hinv1⟩ :=
    CacheInv.loadTo_spec i d hrec hlt fuel c h.inv hfuel
  refine ⟨c1, ?_, hinv1.objdata_eq i d hget, ?_, hpre, hsame⟩
  · unfold BSONCache.index
    simp [hc1, hget]
  · by_contra hcon
    have hge : c1.docs.length ≤ i := Nat.le_of_not_lt hcon
    rw [List.getElem?_eq_none hge] at hget
    cases hget

/-- Witness for C3: `operator[](1)` right after `init` on the two-record file. -/
theorem index_returns_record_witness :
    ∃ c1, sampleInit.index sampleDec 1 1 =
        some ({ cache := c1, fault := none }, some { objdata := 1008, objsize := 8 }) ∧
      1008 = 1000 + ((c1.docs.take 1).map BSONObj.objsize).sum ∧
      1 < c1.numDocs ∧ sampleInit.docs <+: c1.docs ∧
      (1 < sampleInit.numDocs → c1 = sampleInit) :=
  index_returns_record sampleDec 1000 1016 sampleInit (Reachable.init (by decide)) 1
    { objdata := 1008, objsize := 8 } (by decide) (by decide) 1 (by decide)

/-- C4, as stated, fails: after `init` and `loadSome(1)` on the truncated file the cache is
complete, yet `sizeOfFileSeen()` is 16 and `sizeOfFile()` is 15. -/
theorem complete_seen_exceeds_file :
    Reachable truncatedDec 1000 1015 truncatedLoaded ∧ truncatedLoaded.isComplete = true ∧
      truncatedLoaded.sizeOfFileSeen = some 16 ∧ truncatedLoaded.sizeOfFile = 15 ∧
      truncatedLoaded.sizeOfFileSeen ≠ some truncatedLoaded.sizeOfFile :=
  ⟨Reachable.loadSome _ 1 (Reachable.init (by decide)), by decide, by decide, by decide,
    by decide⟩

/-- C4, amended: in every reachable cache state, `isComplete()` implies that
`sizeOfFileSeen()` is defined and at least `sizeOfFile()`, and equal to it when the last loaded
record ends at or before `end`. -/
theorem complete_seen_ge_file (dec : Decoder) (base end_ : Nat) (c : BSONCache)
    (h : Reachable dec base end_ c) (hc : c.isComplete = true) :
    ∃ seen, c.sizeOfFileSeen = some seen ∧ c.sizeOfFile ≤ seen ∧
      (∀ last, c.docs.getLast? = some last → last.objdata + last.objsize ≤ end_ →
        seen = c.sizeOfFile) := by
  have inv := h.inv
  cases hl : c.docs.getLast? with
  | none => exact absurd (List.getLast?_eq_none_iff.mp hl) inv.nonempty
  | some last =>
    have hge := inv.done hc last hl
    refine ⟨last.objdata + last.objsize - c.base, ?_, ?_, ?_⟩
    · simp [BSONCache.sizeOfFileSeen, BSONCache._getNextBase, BSONCache._getLast, hl]
    · unfold BSONCache.sizeOfFile; rw [inv.hend]; omega
    · intro last2 h2 hle
      cases h2
      unfold BSONCache.sizeOfFile; rw [inv.hend]; omega

/-- Witness for the amended C4 on the two-record file, whose last record ends at `end`. -/
theorem complete_seen_ge_file_witness :
    sampleLoaded.isComplete = true ∧
    ∃ seen, sampleLoaded.sizeOfFileSeen = some seen ∧ sampleLoaded.sizeOfFile ≤ seen ∧
      (∀ last, sampleLoaded.docs.getLast? = some last →
        last.objdata + last.objsize ≤ 1016 → seen = sampleLoaded.sizeOfFile) :=
  ⟨by decide,
    complete_seen_ge_file sampleDec 1000 1016 sampleLoaded sampleLoaded_reachable (by decide)⟩

/-- C5, as stated, fails: right after `init` on the file whose only record announces 8 bytes
where the file has 5, the next base is 1008, beyond `end` = 1005. -/
theorem next_base_beyond_end :
    Reachable overlongDec 1000 1005 (BSONCache.init overlongDec BSONCache.new 1000 1005).cache ∧
      (BSONCache.init overlongDec BSONCache.new 1000 1005).cache._getNextBase = some 1008 ∧
      ¬ (1008 ≤ 1005) ∧
      (BSONCache.init overlongDec BSONCache.new 1000 1005).cache.sizeOfFileSeen = some 8 ∧
      (BSONCache.init overlongDec BSONCache.new 1000 1005).cache.sizeOfFile = 5 :=
  ⟨Reachable.init (by decide), by decide, by decide, by decide, by decide⟩

/-- C5, amended: in every reachable cache state the next base is defined and `base ≤ next_base`;
`next_base < end` while the cache is not complete and holds at least two documents, and
`end ≤ next_base` once it is complete. -/
theorem next_base_bounds (dec : Decoder) (base end_ : Nat) (c : BSONCache)
    (h : Reachable dec base end_ c) :
    ∃ nb, c._getNextBase = some nb ∧ base ≤ nb ∧
      (c.isComplete = false → 2 ≤ c.numDocs → nb < end_) ∧
      (c.isComplete = true → end_ ≤ nb) := by
  have inv := h.inv
  cases hl : c.docs.getLast? with
  | none => exact absurd (List.getLast?_eq_none_iff.mp hl) inv.nonempty
  | some last =>
    have hlen : 0 < c.docs.length := List.length_pos.mpr inv.nonempty
    have hrec : recordAt dec base (c.docs.length - 1) = some last := by
      rw [inv.records _ (by omega), ← List.getLast?_eq_getElem?]; exact hl
    have hb := recordAt_base_le dec base _ last hrec
    refine ⟨last.objdata + last.objsize, ?_, by omega, ?_, ?_⟩
    · simp [BSONCache._getNextBase, BSONCache._getLast, hl]
    · intro hc h2; exact inv.pending hc h2 last hl
    · intro hc; exact inv.done hc last hl

/-- Witness for the amended C5 on the two-record file. -/
theorem next_base_bounds_witness :
    ∃ nb, sampleLoaded._getNextBase = some nb ∧ 1000 ≤ nb ∧
      (sampleLoaded.isComplete = false → 2 ≤ sampleLoaded.numDocs → nb < 1016) ∧
      (sampleLoaded.isComplete = true → 1016 ≤ nb) :=
  next_base_bounds sampleDec 1000 1016 sampleLoaded sampleLoaded_reachable

/-- C6 (cache monotonicity): for every cache state and every budget `n`, `loadSome(n)` does not
decrease `numDocs()` and does not decrease `sizeOfFileSeen()` (nor the next base, whatever the
fault it may end in); hence both are non-decreasing along any sequence of `loadSome` calls. -/
theorem loadSome_monotone (dec : Decoder) (c : BSONCache) :
    (∀ n, c.numDocs ≤ (c.loadSome dec n).cache.numDocs ∧
      (∀ s, c.sizeOfFileSeen = some s →
        ∃ s1, (c.loadSome dec n).cache.sizeOfFileSeen = some s1 ∧ s ≤ s1) ∧
      (∀ nb, c._getNextBase = some nb →
        ∃ nb1, (c.loadSome dec n).cache._getNextBase = some nb1 ∧ nb ≤ nb1)) ∧
    (∀ ns ms : List Nat,
      (loadSomeSeq dec ns c).numDocs ≤ (loadSomeSeq dec (ns ++ ms) c).numDocs ∧
      (∀ s, (loadSomeSeq dec ns c).sizeOfFileSeen = some s →
        ∃ s1, (loadSomeSeq dec (ns ++ ms) c).sizeOfFileSeen = some s1 ∧ s ≤ s1)) := by
  refine ⟨fun n => ?_, fun ns ms => ?_⟩
  · have g := BSONCache.loadSomeLoop_grows dec n c
    exact ⟨g.numDocs_le, g.seen_le, g.2.2⟩
  · rw [BSONCache.loadSomeSeq_append]
    have g := BSONCache.loadSomeSeq_grows dec ms (loadSomeSeq dec ns c)
    exact ⟨g.numDocs_le, g.seen_le⟩

/-- C7: once `isComplete()` is true, `loadSome(n)` for every `n` and `loadAll(cb)` for every
callback return at once and leave the whole cache as it was (the documents, their number and
`isComplete()`); `loadAll` does not call its callback. -/
theorem complete_frozen {W : Type} (dec : Decoder) (c : BSONCache) (hc : c.isComplete = true)
    (n fuel : Nat) (cb : W → W) (w : W) :
    c.loadSome dec n = { cache := c, fault := none } ∧
      c.loadAll dec cb fuel w = some ({ cache := c, fault := none }, w) := by
  constructor
  · unfold BSONCache.loadSome
    cases n with
    | zero => rfl
    | succ k => unfold BSONCache.loadSomeLoop; simp [hc]
  · unfold BSONCache.loadAll
    cases fuel with
    | zero => unfold BSONCache.loadAllLoop; simp [hc]
    | succ k => unfold BSONCache.loadAllLoop; simp [hc]

/-- Witness for C7 on the complete cache of the two-record file. -/
theorem complete_frozen_witness :
    sampleLoaded.isComplete = true ∧
      sampleLoaded.loadSome sampleDec 100 = { cache := sampleLoaded, fault := none } ∧
      sampleLoaded.loadAll sampleDec (fun k : Nat => k + 1) 0 0 =
        some ({ cache := sampleLoaded, fault := none }, 0) :=
  ⟨by decide, complete_frozen sampleDec sampleLoaded (by decide) 100 0 (fun k : Nat => k + 1) 0⟩

namespace BSONCache

theorem loadSomeLoop_succ_of_ok (dec : Decoder) (k : Nat) (c : BSONCache)
    (hc : c.isComplete = false) (hf : (c._loadNext dec).fault = none) :
    loadSomeLoop dec (k + 1) c = loadSomeLoop dec k (c._loadNext dec).cache := by
  conv => lhs; unfold loadSomeLoop
  simp [hc, hf]

theorem loadNext_length (dec : Decoder) (c : BSONCache) (hc : c.isComplete = false)
    (hf : (c._loadNext dec).fault = none) :
    (c._loadNext dec).cache.docs.length = c.docs.length + 1 := by
  rcases loadNext_cases dec c with ⟨h1, _⟩ | ⟨_, _, f, hf2⟩ | ⟨_, last, n, _, _, h1⟩
  · rw [isComplete] at hc; rw [hc] at h1; cases h1
  · rw [hf] at hf2; cases hf2
  · rw [h1]; simp

theorem loadSomeLoop_count (dec : Decoder) (budget : Nat) :
    ∀ c : BSONCache, ∃ j, j ≤ budget ∧
      (loadSomeLoop dec budget c).cache.docs.length = c.docs.length + j ∧
      ((loadSomeLoop dec budget c).fault = none →
        (j = budget ∨ (loadSomeLoop dec budget c).cache.isComplete = true) ∧
        ∀ m, m < j → (loadSomeLoop dec m c).fault = none ∧
          (loadSomeLoop dec m c).cache.isComplete = false ∧
          (loadSomeLoop dec m c).cache.docs.length = c.docs.length + m) := by
  induction budget with
  | zero =>
    intro c
    exact ⟨0, le_refl _, by simp [loadSomeLoop],
      fun _ => ⟨Or.inl rfl, fun m hm => by omega⟩⟩
  | succ k ih =>
    intro c
    cases hc : c.isComplete with
    | true =>
      have e : loadSomeLoop dec (k + 1) c = { cache := c, fault := none } := by
        unfold loadSomeLoop; simp [hc]
      rw [e]
      exact ⟨0, by omega, by simp, fun _ => ⟨Or.inr hc, fun m hm => by omega⟩⟩
    | false =>
      cases hf : (c._loadNext dec).fault with
      | some f =>
        have e : loadSomeLoop dec (k + 1) c =
            { cache := (c._loadNext dec).cache, fault := some f } := by
          conv => lhs; unfold loadSomeLoop
          simp [hc, hf]
        have hsame : (c._loadNext dec).cache = c := by
          rcases loadNext_cases dec c with ⟨_, h1⟩ | ⟨_, h1, _⟩ | ⟨_, last, n, _, _, h1⟩
          · rw [h1]
          · exact h1
          · rw [h1] at hf; cases hf
        rw [e, hsame]
        exact ⟨0, by omega, by simp, fun h => by cases h⟩
      | none =>
        rw [loadSomeLoop_succ_of_ok dec k c hc hf]
        obtain ⟨j, hj, hlen, hrest⟩ := ih (c._loadNext dec).cache
        have hl1 := loadNext_length dec c hc hf
        refine ⟨j + 1, by omega, by omega, ?_⟩
        intro hok
        obtain ⟨h1, h2⟩ := hrest hok
        refine ⟨?_, ?_⟩
        · rcases h1 with h1 | h1
          · left; omega
          · right; exact h1
        · intro m hm
          cases m with
          | zero => exact ⟨rfl, hc, rfl⟩
          | succ m =>
            rw [loadSomeLoop_succ_of_ok dec m c hc hf]
            obtain ⟨a, b, e⟩ := h2 m (by omega)
            exact ⟨a, b, by omega⟩

end BSONCache

/-- C8: `loadSome(budget)` appends `j ≤ budget` records after the ones already loaded, and
`loadSome(0)` changes nothing.  When it returns, `j` is the number of loads it takes for the
cache to become complete or `budget`, whichever is fewer: either `j = budget` or the cache is
complete, and after any smaller number `m < j` of loads the cache holds `m` more records and is
not yet complete. -/
theorem loadSome_budget (dec : Decoder) (c : BSONCache) (budget : Nat) :
    c.loadSome dec 0 = { cache := c, fault := none } ∧
    c.docs <+: (c.loadSome dec budget).cache.docs ∧
    ∃ j, j ≤ budget ∧ (c.loadSome dec budget).cache.numDocs = c.numDocs + j ∧
      ((c.loadSome dec budget).fault = none →
        (j = budget ∨ (c.loadSome dec budget).cache.isComplete = true) ∧
        ∀ m, m < j → (c.loadSome dec m).fault = none ∧
          (c.loadSome dec m).cache.isComplete = false ∧
          (c.loadSome dec m).cache.numDocs = c.numDocs + m) :=
  ⟨rfl, (BSONCache.loadSomeLoop_grows dec budget c).2.1,
    BSONCache.loadSomeLoop_count dec budget c⟩

/-! ## The viewport: the claims -/

/-- C9: on the complete two-record file in a window of 9 rows, the keys `2` (pretty mode) and
`L` (cursor to the bottom) give a frame of 6 rows with the cursor on row 5, which satisfies
`0 ≤ cursor_line ≤ last_displayed_line ≤ main_lines - 1`; the key `1` (one-line mode) then
leaves a frame of 2 rows, `last_displayed_line = 1`, with `cursor_line` still 5, below the last
displayed line. -/
theorem render_mode_change_strands_cursor :
    ∃ v v1,
      (BSONCacheView.updateDimensions sampleEnv 9 80 (BSONCacheView.new sampleLoaded)).bind
          (runOps sampleEnv
            [ViewOp.setDocumentRenderMode DocumentRenderMode.kJSONPretty, ViewOp.cursorBottom])
        = Res.ok v ∧
      v.cache.numDocs = 2 ∧ v.mainLines = 9 ∧ v.docLines = [3, 3] ∧
      (0 ≤ v.cursorLine ∧ v.cursorLine ≤ v.lastDisplayedLine ∧
        v.lastDisplayedLine ≤ v.mainLines - 1) ∧
      (ViewOp.setDocumentRenderMode DocumentRenderMode.kJSONOneline).run sampleEnv v = Res.ok v1 ∧
      v1.docLines = [1, 1] ∧ v1.lastDisplayedLine = 1 ∧ v1.cursorLine = 5 ∧
      ¬ (v1.cursorLine ≤ v1.lastDisplayedLine) :=
  ⟨_, _, rfl, by decide, by decide, by decide, by decide, rfl, by decide, by decide, by decide,
    by decide⟩

/-- C10: on the complete six-record file of one-line documents, `pageDown` from the first frame
of a window of 2 rows leaves `start_doc = 1` with `start_line = 1 = doc_lines[0]`, and
`jumpDown` from the first frame of a window of 4 rows leaves `start_doc = 3` with
`start_line = 1 = doc_lines[0]`: in both frames the start document has no sub-line on screen. -/
theorem paging_start_line_reaches_doc_lines :
    (∃ v v1,
      BSONCacheView.updateDimensions sixEnv 2 80 (BSONCacheView.new sixLoaded) = Res.ok v ∧
      v.startLine = 0 ∧ v.docLines = [1, 1] ∧
      ViewOp.pageDown.run sixEnv v = Res.ok v1 ∧
      v1.startDoc = 1 ∧ v1.startLine = 1 ∧ v1.docLines = [1, 1, 1] ∧
      v1.lastDisplayedDoc = 3 ∧ v1.cursorDoc = 2) ∧
    (∃ v v1,
      BSONCacheView.updateDimensions sixEnv 4 80 (BSONCacheView.new sixLoaded) = Res.ok v ∧
      v.startLine = 0 ∧ v.docLines = [1, 1, 1, 1] ∧
      ViewOp.jumpDown.run sixEnv v = Res.ok v1 ∧
      v1.startDoc = 3 ∧ v1.startLine = 1 ∧ v1.docLines = [1, 1, 1] ∧
      v1.lastDisplayedDoc = 5) :=
  ⟨⟨_, _, rfl, by decide, by decide, rfl, by decide, by decide, by decide, by decide,
      by decide⟩,
    ⟨_, _, rfl, by decide, by decide, rfl, by decide, by decide, by decide, by decide⟩⟩

/-! ## The viewport: how `computeVisible` depends on the view -/

namespace BSONCache

theorem loadTo_docs_grow (dec : Decoder) (fuel : Nat) :
    ∀ (i : Nat) (c : BSONCache) (r : Run), _loadTo dec fuel i c = some r →
      c.docs <+: r.cache.docs ∧ (r.fault = none → i < r.cache.docs.length) := by
  induction fuel with
  | zero =>
    intro i c r h
    unfold _loadTo at h
    by_cases hi : i ≥ c.docs.length
    · simp [hi] at h
    · simp [hi] at h
      subst h
      exact ⟨List.prefix_refl _, fun _ => by simpa using hi⟩
  | succ fuel ih =>
    intro i c r h
    unfold _loadTo at h
    by_cases hi : i ≥ c.docs.length
    · simp only [hi, if_true] at h
      cases hf : (c._loadNext dec).fault with
      | some f =>
        simp [hf] at h
        subst h
        exact ⟨(loadNext_grows dec c).2.1, fun hcon => by simp at hcon⟩
      | none =>
        simp only [hf] at h
        obtain ⟨h1, h2⟩ := ih i _ r h
        exact ⟨List.IsPrefix.trans (loadNext_grows dec c).2.1 h1, h2⟩
    · simp [hi] at h
      subst h
      exact ⟨List.prefix_refl _, fun _ => by simpa using hi⟩

theorem loadTo_of_lt (dec : Decoder) (fuel i : Nat) (c : BSONCache) (hi : i < c.docs.length) :
    _loadTo dec fuel i c = some { cache := c, fault := none } := by
  cases fuel with
  | zero => unfold _loadTo; simp [hi]
  | succ k => unfold _loadTo; simp [hi]

theorem index_of_lt (dec : Decoder) (fuel i : Nat) (c : BSONCache) (hi : i < c.docs.length) :
    c.index dec fuel i = some ({ cache := c, fault := none }, c.docs.get? i) := by
  unfold index
  rw [loadTo_of_lt dec fuel i c hi]

theorem index_ok (dec : Decoder) (fuel i : Nat) (c : BSONCache) (r : Run) (d : BSONObj)
    (h : c.index dec fuel i = some (r, some d)) :
    r.fault = none ∧ c.docs <+: r.cache.docs ∧ r.cache.docs[i]? = some d := by
  unfold index at h
  cases hl : _loadTo dec fuel i c with
  | none => simp [hl] at h
  | some r1 =>
    simp only [hl] at h
    cases hf : r1.fault with
    | some f => simp [hf] at h
    | none =>
      simp [hf] at h
      obtain ⟨h1, h2⟩ := h
      subst h1
      exact ⟨hf, (loadTo_docs_grow dec fuel i c r1 hl).1, h2⟩

end BSONCache

namespace BSONCacheView

theorem renderDoc_ok (E : Env) (v : BSONCacheView) (doc : Nat) (str : List Char)
    (v1 : BSONCacheView) (h : renderDoc E v doc = Res.ok (str, v1)) :
    ∃ r d, v.cache.index E.dec E.fuel doc = some (r, some d) ∧
      str = E.render v.documentRenderMode v.extendedJSONMode d ∧
      v1 = { v with cache := r.cache } := by
  unfold renderDoc at h
  cases hi : v.cache.index E.dec E.fuel doc with
  | none => simp [hi] at h
  | some p =>
    obtain ⟨r, od⟩ := p
    simp only [hi] at h
    cases hf : r.fault with
    | some f => simp [hf] at h
    | none =>
      cases od with
      | none => simp [hf] at h
      | some d =>
        simp [hf] at h
        exact ⟨r, d, rfl, h.1.symm, h.2.symm⟩

end BSONCacheView

namespace BSONCache

theorem loadNext_same_or_longer (dec : Decoder) (c : BSONCache) :
    (c._loadNext dec).cache.docs.length ≤ c.docs.length → (c._loadNext dec).cache = c := by
  rcases loadNext_cases dec c with ⟨_, h1⟩ | ⟨_, h1, _⟩ | ⟨_, last, n, _, _, h1⟩
  · intro _; rw [h1]
  · intro _; exact h1
  · rw [h1]; intro h; simp at h

theorem loadTo_same_or_longer (dec : Decoder) (fuel : Nat) :
    ∀ (i : Nat) (c : BSONCache) (r : Run), _loadTo dec fuel i c = some r →
      r.cache.docs.length ≤ c.docs.length → r.cache = c := by
  induction fuel with
  | zero =>
    intro i c r h _
    unfold _loadTo at h
    by_cases hi : i ≥ c.docs.length
    · simp [hi] at h
    · simp [hi] at h; subst h; rfl
  | succ fuel ih =>
    intro i c r h hle
    unfold _loadTo at h
    by_cases hi : i ≥ c.docs.length
    · simp only [hi, if_true] at h
      have hg := (loadNext_grows dec c).2.1.length_le
      cases hf : (c._loadNext dec).fault with
      | some f =>
        simp [hf] at h
        subst h
        exact loadNext_same_or_longer dec c hle
      | none =>
        simp only [hf] at h
        have hp := (loadTo_docs_grow dec fuel i _ r h).1.length_le
        have e1 := ih i _ r h (by omega)
        rw [e1] at hle ⊢
        exact loadNext_same_or_longer dec c hle
    · simp [hi] at h; subst h; rfl

theorem index_same_or_longer (dec : Decoder) (fuel i : Nat) (c : BSONCache) (r : Run)
    (od : Option BSONObj) (h : c.index dec fuel i = some (r, od)) :
    c.docs <+: r.cache.docs ∧ (r.cache.docs.length ≤ c.docs.length → r.cache = c) := by
  unfold index at h
  cases hl : _loadTo dec fuel i c with
  | none => simp [hl] at h
  | some r1 =>
    simp only [hl] at h
    have hr : r1 = r := by
      cases hf : r1.fault with
      | some f => simp [hf] at h; exact h.1
      | none => simp [hf] at h; exact h.1
    subst hr
    exact ⟨(loadTo_docs_grow dec fuel i c r1 hl).1, loadTo_same_or_longer dec fuel i c r1 hl⟩

end BSONCache

theorem prefix_getElem? {α : Type} {l1 l2 : List α} (h : l1 <+: l2) (i : Nat) (a : α)
    (hi : l1[i]? = some a) : l2[i]? = some a := by
  obtain ⟨t, rfl⟩ := h
  have hlt : i < l1.length := by
    by_contra hcon
    rw [List.getElem?_eq_none (by omega)] at hi
    cases hi
  rw [List.getElem?_append_left hlt]
  exact hi

theorem getElem?_lt {α : Type} {l : List α} {i : Nat} {a : α} (hi : l[i]? = some a) :
    i < l.length := by
  by_contra hcon
  rw [List.getElem?_eq_none (by omega)] at hi
  cases hi

/-- The inner loop of `computeVisible` reads `_cursorLine` and `_cursorDoc` only to update
`_cursorDoc`: two runs that differ in them agree on everything else, and with the same cursor
line either both set `_cursorDoc` to the document or both leave it alone. -/
theorem subLineLoop_congr (m clv clw : Int) (doc : Nat) :
    ∀ (lens : List Nat) (sv sw : Scan), sw.line = sv.line → sw.longestLine = sv.longestLine →
      sw.skipLines = sv.skipLines → sw.thisDocLines = sv.thisDocLines →
      (subLineLoop m clw doc lens sw).line = (subLineLoop m clv doc lens sv).line ∧
      (subLineLoop m clw doc lens sw).longestLine = (subLineLoop m clv doc lens sv).longestLine ∧
      (subLineLoop m clw doc lens sw).skipLines = (subLineLoop m clv doc lens sv).skipLines ∧
      (subLineLoop m clw doc lens sw).thisDocLines
        = (subLineLoop m clv doc lens sv).thisDocLines ∧
      (clw = clv →
        ((subLineLoop m clw doc lens sw).cursorDoc = (subLineLoop m clv doc lens sv).cursorDoc ∨
          ((subLineLoop m clw doc lens sw).cursorDoc = sw.cursorDoc ∧
            (subLineLoop m clv doc lens sv).cursorDoc = sv.cursorDoc))) := by
  intro lens
  induction lens with
  | nil =>
    intro sv sw h1 h2 h3 h4
    simp only [subLineLoop]
    exact ⟨h1, h2, h3, h4, fun _ => Or.inr ⟨trivial, trivial⟩⟩
  | cons len rest ih =>
    intro sv sw h1 h2 h3 h4
    obtain ⟨l, g, s, t, cdv⟩ := sv
    obtain ⟨l1, g1, s1, t1, cdw⟩ := sw
    simp only at h1 h2 h3 h4
    subst h1 h2 h3 h4
    unfold subLineLoop
    by_cases hl : l1 < m
    · by_cases hs : s1 > 0
      · cases rest with
        | nil => simp [hl, hs]
        | cons r rs =>
          simp only [hl, hs, if_true]
          exact ih _ _ rfl rfl rfl rfl
      · cases rest with
        | nil =>
          simp only [hl, hs, if_true, if_false, true_and]
          intro hcl
          subst hcl
          by_cases hc : l1 = clw
          · left; simp [hc]
          · right; simp [hc]
        | cons r rs =>
          simp only [hl, hs, if_true, if_false]
          obtain ⟨a1, a2, a3, a4, a5⟩ := ih
            { line := l1 + 1, longestLine := if g1 < (len : Int) then (len : Int) else g1,
              skipLines := s1, thisDocLines := t1 + 1,
              cursorDoc := if l1 = clv then doc else cdv }
            { line := l1 + 1, longestLine := if g1 < (len : Int) then (len : Int) else g1,
              skipLines := s1, thisDocLines := t1 + 1,
              cursorDoc := if l1 = clw then doc else cdw }
            rfl rfl rfl rfl
          refine ⟨a1, a2, a3, a4, ?_⟩
          intro hcl
          subst hcl
          rcases a5 rfl with h | ⟨h, h'⟩
          · left; exact h
          · by_cases hc : l1 = clw
            · left; rw [h, h']; simp [hc]
            · right; rw [h, h']; simp [hc]
    · simp [hl]

namespace BSONCacheView

theorem computeVisibleLoop_of_not (E : Env) (n : Nat) (v : BSONCacheView) (doc : Nat)
    (line lg skip : Int)
    (h : ¬ (line < v.mainLines ∧ (v.cache.isComplete = false ∨ doc < v.cache.numDocs))) :
    computeVisibleLoop E n v doc line lg skip = Res.ok (v, line, lg) := by
  cases n with
  | zero => unfold computeVisibleLoop; rw [if_neg h]
  | succ k => unfold computeVisibleLoop; rw [if_neg h]

theorem computeVisibleLoop_succ (E : Env) (k : Nat) (v : BSONCacheView) (doc : Nat)
    (line lg skip : Int) (str : List Char) (v1 : BSONCacheView)
    (h : line < v.mainLines ∧ (v.cache.isComplete = false ∨ doc < v.cache.numDocs))
    (hr : renderDoc E v doc = Res.ok (str, v1)) :
    computeVisibleLoop E (k + 1) v doc line lg skip =
      computeVisibleLoop E k
        { v1 with
          cursorDoc := (subLineLoop v1.mainLines v1.cursorLine doc (subLineLens str)
            { line := line, longestLine := lg, skipLines := skip, thisDocLines := 0,
              cursorDoc := v1.cursorDoc }).cursorDoc
          docLines := v1.docLines ++ [(subLineLoop v1.mainLines v1.cursorLine doc
            (subLineLens str)
            { line := line, longestLine := lg, skipLines := skip, thisDocLines := 0,
              cursorDoc := v1.cursorDoc }).thisDocLines]
          lastDisplayedDoc := doc }
        (uadd1 doc)
        (subLineLoop v1.mainLines v1.cursorLine doc (subLineLens str)
          { line := line, longestLine := lg, skipLines := skip, thisDocLines := 0,
            cursorDoc := v1.cursorDoc }).line
        (subLineLoop v1.mainLines v1.cursorLine doc (subLineLens str)
          { line := line, longestLine := lg, skipLines := skip, thisDocLines := 0,
            cursorDoc := v1.cursorDoc }).longestLine
        (subLineLoop v1.mainLines v1.cursorLine doc (subLineLens str)
          { line := line, longestLine := lg, skipLines := skip, thisDocLines := 0,
            cursorDoc := v1.cursorDoc }).skipLines := by
  conv => lhs; unfold computeVisibleLoop
  rw [if_pos h, hr]

/-- The two ways the outer loop of `computeVisible` returns: its test fails at once, or it
renders one document and the rest of the loop returns. -/
theorem computeVisibleLoop_ok_cases (E : Env) (n : Nat) (v : BSONCacheView) (doc : Nat)
    (line lg skip : Int) (v' : BSONCacheView) (l' g' : Int)
    (h : computeVisibleLoop E n v doc line lg skip = Res.ok (v', l', g')) :
    (¬ (line < v.mainLines ∧ (v.cache.isComplete = false ∨ doc < v.cache.numDocs)) ∧
      v' = v ∧ l' = line ∧ g' = lg) ∨
    (∃ k str v1, n = k + 1 ∧
      (line < v.mainLines ∧ (v.cache.isComplete = false ∨ doc < v.cache.numDocs)) ∧
      renderDoc E v doc = Res.ok (str, v1) ∧
      computeVisibleLoop E (k + 1) v doc line lg skip = Res.ok (v', l', g')) := by
  by_cases hc : line < v.mainLines ∧ (v.cache.isComplete = false ∨ doc < v.cache.numDocs)
  · right
    cases n with
    | zero => unfold computeVisibleLoop at h; rw [if_pos hc] at h; cases h
    | succ k =>
      have h0 := h
      unfold computeVisibleLoop at h
      rw [if_pos hc] at h
      cases hr : renderDoc E v doc with
      | outOfFuel => rw [hr] at h; cases h
      | fault f => rw [hr] at h; cases h
      | ok p =>
        obtain ⟨str, v1⟩ := p
        exact ⟨k, str, v1, rfl, hc, rfl, h0⟩
  · left
    rw [computeVisibleLoop_of_not E n v doc line lg skip hc] at h
    cases h
    exact ⟨hc, rfl, rfl, rfl⟩

theorem view_ext (a b : BSONCacheView) (h1 : a.cache = b.cache)
    (h2 : a.documentRenderMode = b.documentRenderMode) (h3 : a.startCol = b.startCol)
    (h4 : a.longestLineStartCol = b.longestLineStartCol) (h5 : a.startDoc = b.startDoc)
    (h6 : a.startLine = b.startLine) (h7 : a.lastDisplayedDoc = b.lastDisplayedDoc)
    (h8 : a.lastDisplayedLine = b.lastDisplayedLine) (h9 : a.docLines = b.docLines)
    (h10 : a.cursorLine = b.cursorLine) (h11 : a.cursorDoc = b.cursorDoc)
    (h12 : a.mainLines = b.mainLines) (h13 : a.mainCols = b.mainCols)
    (h14 : a.extendedJSONMode = b.extendedJSONMode)
    (h15 : a.jumpToEndAfterLoadingComplete = b.jumpToEndAfterLoadingComplete) : a = b := by
  cases a
  cases b
  simp only at h1 h2 h3 h4 h5 h6 h7 h8 h9 h10 h11 h12 h13 h14 h15
  subst h1 h2 h3 h4 h5 h6 h7 h8 h9 h10 h11 h12 h13 h14 h15
  rfl

theorem SameCtl.same_again (v : BSONCacheView) : SameCtl v v :=
  ⟨rfl, rfl, rfl, rfl, rfl, rfl, rfl, rfl, rfl⟩

theorem SameCtl.chain {a b c : BSONCacheView} (h1 : SameCtl a b) (h2 : SameCtl b c) :
    SameCtl a c :=
  ⟨h2.1.trans h1.1, h2.2.trans h1.2, h2.3.trans h1.3, h2.4.trans h1.4, h2.5.trans h1.5,
    h2.6.trans h1.6, h2.7.trans h1.7, h2.8.trans h1.8, h2.9.trans h1.9⟩

theorem computeVisibleLoop_ctl (E : Env) (n : Nat) :
    ∀ (v : BSONCacheView) (doc : Nat) (line lg skip : Int) (v' : BSONCacheView) (l' g' : Int),
      computeVisibleLoop E n v doc line lg skip = Res.ok (v', l', g') →
      (SameCtl v v' ∧ v'.lastDisplayedLine = v.lastDisplayedLine ∧
        v'.longestLineStartCol = v.longestLineStartCol) ∧
      v.cache.docs <+: v'.cache.docs ∧
      (v'.cache.docs.length ≤ v.cache.docs.length → v'.cache = v.cache) := by
  induction n with
  | zero =>
    intro v doc line lg skip v' l' g' h
    rcases computeVisibleLoop_ok_cases E 0 v doc line lg skip v' l' g' h with
      ⟨_, rfl, _, _⟩ | ⟨k, _, _, hk, _⟩
    · exact ⟨⟨SameCtl.same_again _, rfl, rfl⟩, List.prefix_refl _, fun _ => rfl⟩
    · omega
  | succ n ih =>
    intro v doc line lg skip v' l' g' h
    rcases computeVisibleLoop_ok_cases E (n + 1) v doc line lg skip v' l' g' h with
      ⟨_, rfl, _, _⟩ | ⟨k, str, v1, hk, hc, hr, _⟩
    · exact ⟨⟨SameCtl.same_again _, rfl, rfl⟩, List.prefix_refl _, fun _ => rfl⟩
    · rw [computeVisibleLoop_succ E n v doc line lg skip str v1 hc hr] at h
      obtain ⟨r, d, hi, _, hv1⟩ := renderDoc_ok E v doc str v1 hr
      obtain ⟨⟨e1, e1a, e1b⟩, e2, e3⟩ := ih _ _ _ _ _ _ _ _ h
      subst hv1
      have hp := BSONCache.index_same_or_longer E.dec E.fuel doc v.cache r (some d) hi
      simp only at e2 e3 e1a e1b
      refine ⟨⟨?_, e1a, e1b⟩, List.IsPrefix.trans hp.1 e2, ?_⟩
      · exact ⟨e1.1, e1.2, e1.3, e1.4, e1.5, e1.6, e1.7, e1.8, e1.9⟩
      · intro hle
        have h1 := hp.1.length_le
        have h2 := e2.length_le
        have e4 := e3 (by omega)
        rw [e4]
        exact hp.2 (by rw [e4] at hle; exact hle)

theorem renderDoc_of_index (E : Env) (v : BSONCacheView) (doc : Nat) (r : Run) (d : BSONObj)
    (h : v.cache.index E.dec E.fuel doc = some (r, some d)) :
    renderDoc E v doc =
      Res.ok (E.render v.documentRenderMode v.extendedJSONMode d, { v with cache := r.cache }) := by
  have hf := (BSONCache.index_ok E.dec E.fuel doc v.cache r d h).1
  unfold renderDoc
  rw [h]
  simp [hf]

theorem computeVisibleLoop_step (E : Env) (k : Nat) (v : BSONCacheView) (doc : Nat)
    (line lg skip : Int) (r : Run) (d : BSONObj)
    (hc : line < v.mainLines ∧ (v.cache.isComplete = false ∨ doc < v.cache.numDocs))
    (hi : v.cache.index E.dec E.fuel doc = some (r, some d)) :
    computeVisibleLoop E (k + 1) v doc line lg skip =
      computeVisibleLoop E k
        (stepView v r.cache doc
          (scanOf v doc (E.render v.documentRenderMode v.extendedJSONMode d) line lg skip))
        (uadd1 doc)
        (scanOf v doc (E.render v.documentRenderMode v.extendedJSONMode d) line lg skip).line
        (scanOf v doc (E.render v.documentRenderMode v.extendedJSONMode d) line lg
          skip).longestLine
        (scanOf v doc (E.render v.documentRenderMode v.extendedJSONMode d) line lg
          skip).skipLines := by
  rw [computeVisibleLoop_succ E k v doc line lg skip _ _ hc (renderDoc_of_index E v doc r d hi)]
  rfl

theorem scanOf_congr (v w : BSONCacheView) (doc : Nat) (str : List Char) (line lg skip : Int)
    (hm : w.mainLines = v.mainLines) :
    (scanOf w doc str line lg skip).line = (scanOf v doc str line lg skip).line ∧
    (scanOf w doc str line lg skip).longestLine = (scanOf v doc str line lg skip).longestLine ∧
    (scanOf w doc str line lg skip).skipLines = (scanOf v doc str line lg skip).skipLines ∧
    (scanOf w doc str line lg skip).thisDocLines
      = (scanOf v doc str line lg skip).thisDocLines ∧
    (w.cursorLine = v.cursorLine →
      ((scanOf w doc str line lg skip).cursorDoc = (scanOf v doc str line lg skip).cursorDoc ∨
        ((scanOf w doc str line lg skip).cursorDoc = w.cursorDoc ∧
          (scanOf v doc str line lg skip).cursorDoc = v.cursorDoc))) := by
  unfold scanOf
  rw [hm]
  exact subLineLoop_congr v.mainLines v.cursorLine w.cursorLine doc (subLineLens str) _ _
    rfl rfl rfl rfl

theorem computeVisibleLoop_congr_stop (E : Env) (n : Nat) (v w : BSONCacheView) (doc : Nat)
    (line lg skip : Int)
    (hn : ¬ (line < v.mainLines ∧ (v.cache.isComplete = false ∨ doc < v.cache.numDocs)))
    (hm : w.mainLines = v.mainLines)
    (hC : w.cache = v.cache ∨
      (v.cache.docs <+: w.cache.docs ∧ (v.cache.complete = true → w.cache = v.cache))) :
    computeVisibleLoop E n w doc line lg skip = Res.ok (w, line, lg) := by
  apply computeVisibleLoop_of_not
  intro hcw
  apply hn
  rw [hm] at hcw
  refine ⟨hcw.1, ?_⟩
  by_cases hcomp : v.cache.complete = true
  · have hw : w.cache = v.cache := by
      rcases hC with h1 | ⟨_, h2⟩
      · exact h1
      · exact h2 hcomp
    rw [hw] at hcw
    exact hcw.2
  · left
    simpa [BSONCache.isComplete] using hcomp

/-- The outer loop of `computeVisible` run from a view `w` that has the window height, render
mode and flavor of `v`, on the same cache or on one that already holds every document the run
from `v` ends with: it returns the same `line` and `longestLine`, appends the same line counts,
and sets `_lastDisplayedDoc` and (for the same cursor line) `_cursorDoc` alike. -/
theorem computeVisibleLoop_congr (E : Env) (n : Nat) :
    ∀ (v w : BSONCacheView) (doc : Nat) (line lg skip : Int) (v' : BSONCacheView) (l' g' : Int),
      computeVisibleLoop E n v doc line lg skip = Res.ok (v', l', g') →
      w.mainLines = v.mainLines → w.documentRenderMode = v.documentRenderMode →
      w.extendedJSONMode = v.extendedJSONMode →
      (w.cache = v.cache ∨
        (v'.cache.docs <+: w.cache.docs ∧ (v'.cache.complete = true → w.cache = v'.cache))) →
      ∃ w', computeVisibleLoop E n w doc line lg skip = Res.ok (w', l', g') ∧
        (w.cache = v.cache → w'.cache = v'.cache) ∧
        (w.cache ≠ v.cache → w'.cache = w.cache) ∧
        (∃ dl, v'.docLines = v.docLines ++ dl ∧ w'.docLines = w.docLines ++ dl) ∧
        (w'.lastDisplayedDoc = v'.lastDisplayedDoc ∨
          (w'.lastDisplayedDoc = w.lastDisplayedDoc ∧
            v'.lastDisplayedDoc = v.lastDisplayedDoc)) ∧
        (w.cursorLine = v.cursorLine →
          (w'.cursorDoc = v'.cursorDoc ∨
            (w'.cursorDoc = w.cursorDoc ∧ v'.cursorDoc = v.cursorDoc))) := by
  induction n with
  | zero =>
    intro v w doc line lg skip v' l' g' h hm _ _ hC
    rcases computeVisibleLoop_ok_cases E 0 v doc line lg skip v' l' g' h with
      ⟨hn, rfl, rfl, rfl⟩ | ⟨k, _, _, hk, _⟩
    · exact ⟨w, computeVisibleLoop_congr_stop E 0 v' w doc l' g' skip hn hm hC, fun h => h,
        fun _ => rfl, ⟨[], by simp, by simp⟩, Or.inr ⟨rfl, rfl⟩, fun _ => Or.inr ⟨rfl, rfl⟩⟩
    · omega
  | succ n ih =>
    intro v w doc line lg skip v' l' g' h hm hmode hfmt hC
    rcases computeVisibleLoop_ok_cases E (n + 1) v doc line lg skip v' l' g' h with
      ⟨hn, rfl, rfl, rfl⟩ | ⟨k, str, v1, _, hc, hr, _⟩
    · exact ⟨w, computeVisibleLoop_congr_stop E (n + 1) v' w doc l' g' skip hn hm hC,
        fun h => h, fun _ => rfl, ⟨[], by simp, by simp⟩, Or.inr ⟨rfl, rfl⟩,
        fun _ => Or.inr ⟨rfl, rfl⟩⟩
    · obtain ⟨r, d, hi, _, _⟩ := renderDoc_ok E v doc str v1 hr
      rw [computeVisibleLoop_step E n v doc line lg skip r d hc hi] at h
      obtain ⟨_, hvp, hvs⟩ := computeVisibleLoop_ctl E n _ _ _ _ _ _ _ _ h
      obtain ⟨_, hrp, hrd⟩ := BSONCache.index_ok E.dec E.fuel doc v.cache r d hi
      simp only [stepView] at hvp hvs
      have hdoc : doc < r.cache.docs.length := getElem?_lt hrd
      -- what `cache()[doc]` does on the cache of `w`
      have hw : ∃ r2, w.cache.index E.dec E.fuel doc = some (r2, some d) ∧
          (w.cache = v.cache → r2.cache = r.cache) ∧
          (w.cache ≠ v.cache → r2.cache = w.cache ∧ v'.cache.docs <+: w.cache.docs ∧
            (v'.cache.complete = true → w.cache = v'.cache)) ∧
          (line < w.mainLines ∧ (w.cache.isComplete = false ∨ doc < w.cache.numDocs)) := by
        by_cases hcache : w.cache = v.cache
        · refine ⟨r, by rw [hcache]; exact hi, fun _ => rfl, fun hne => absurd hcache hne, ?_⟩
          rw [hm, hcache]; exact hc
        · rcases hC with h1 | ⟨hpre, hcomp⟩
          · exact absurd h1 hcache
          · have hlen : doc < w.cache.docs.length := by
              have := hvp.length_le
              have := hpre.length_le
              omega
            have hget : w.cache.docs[doc]? = some d :=
              prefix_getElem? hpre doc d (prefix_getElem? hvp doc d hrd)
            refine ⟨{ cache := w.cache, fault := none }, ?_, fun h => absurd h hcache,
              fun _ => ⟨rfl, hpre, hcomp⟩, ?_⟩
            · rw [BSONCache.index_of_lt E.dec E.fuel doc w.cache hlen, List.get?_eq_getElem?,
                hget]
            · rw [hm]; exact ⟨hc.1, Or.inr hlen⟩
      obtain ⟨r2, hi2, hsame, hdiff, hcw⟩ := hw
      have hsc := scanOf_congr v w doc (E.render v.documentRenderMode v.extendedJSONMode d)
        line lg skip hm
      obtain ⟨s1, s2, s3, s4, s5⟩ := hsc
      have hC2 : (stepView w r2.cache doc
            (scanOf w doc (E.render v.documentRenderMode v.extendedJSONMode d) line lg
              skip)).cache =
          (stepView v r.cache doc
            (scanOf v doc (E.render v.documentRenderMode v.extendedJSONMode d) line lg
              skip)).cache ∨
          (v'.cache.docs <+: (stepView w r2.cache doc
            (scanOf w doc (E.render v.documentRenderMode v.extendedJSONMode d) line lg
              skip)).cache.docs ∧
            (v'.cache.complete = true → (stepView w r2.cache doc
              (scanOf w doc (E.render v.documentRenderMode v.extendedJSONMode d) line lg
                skip)).cache = v'.cache)) := by
        simp only [stepView]
        by_cases hcache : w.cache = v.cache
        · left; exact hsame hcache
        · right
          obtain ⟨e, hpre, hcomp⟩ := hdiff hcache
          rw [e]; exact ⟨hpre, hcomp⟩
      obtain ⟨w', hw', c1, c2, ⟨dl, d1, d2⟩, c4, c5⟩ := ih _
        (stepView w r2.cache doc
          (scanOf w doc (E.render v.documentRenderMode v.extendedJSONMode d) line lg skip))
        _ _ _ _ _ _ _ h (by simpa [stepView] using hm) (by simpa [stepView] using hmode)
        (by simpa [stepView] using hfmt) hC2
      refine ⟨w', ?_, ?_, ?_, ?_, ?_, ?_⟩
      · rw [computeVisibleLoop_step E n w doc line lg skip r2 d hcw hi2, hmode, hfmt, s1, s2, s3]
        exact hw'
      · intro hcache
        apply c1
        simp only [stepView]
        exact hsame hcache
      · intro hcache
        obtain ⟨e, hpre, _⟩ := hdiff hcache
        by_cases h2 : r2.cache = r.cache
        · have e1 : w'.cache = v'.cache := c1 (by simpa [stepView] using h2)
          have hle : v'.cache.docs.length ≤ r.cache.docs.length := by
            have := hpre.length_le
            rw [← h2, e]
            exact this
          rw [e1, hvs hle, ← h2, e]
        · have e1 : w'.cache = r2.cache := c2 (by simpa [stepView] using h2)
          rw [e1, e]
      · refine ⟨(scanOf v doc (E.render v.documentRenderMode v.extendedJSONMode d) line lg
          skip).thisDocLines :: dl, ?_, ?_⟩
        · rw [d1]; simp [stepView]
        · rw [d2]; simp [stepView, s4]
      · left
        rcases c4 with h4 | ⟨h4, h4'⟩
        · exact h4
        · rw [h4, h4']; rfl
      · intro hcl
        rcases c5 (by simpa [stepView] using hcl) with h5 | ⟨h5, h5'⟩
        · left; exact h5
        · simp only [stepView] at h5 h5'
          rcases s5 hcl with h6 | ⟨h6, h6'⟩
          · left; rw [h5, h5', h6]
          · right; rw [h5, h5']; exact ⟨h6, h6'⟩

theorem computeVisible_ok (E : Env) (v v' : BSONCacheView)
    (h : computeVisible E v = Res.ok v') :
    ∃ v1 l g, computeVisibleLoop E E.fuel { v with docLines := [] } v.startDoc 0 0 v.startLine
        = Res.ok (v1, l, g) ∧
      v' = { v1 with lastDisplayedLine := l - 1, longestLineStartCol := g - v1.mainCols } := by
  unfold computeVisible at h
  cases hl : computeVisibleLoop E E.fuel { v with docLines := [] } v.startDoc 0 0 v.startLine with
  | outOfFuel => rw [hl] at h; cases h
  | fault f => rw [hl] at h; cases h
  | ok p =>
    obtain ⟨v1, l, g⟩ := p
    rw [hl] at h
    simp only [Res.ok.injEq] at h
    exact ⟨v1, l, g, rfl, h.symm⟩

theorem computeVisible_of_loop (E : Env) (v v1 : BSONCacheView) (l g : Int)
    (h : computeVisibleLoop E E.fuel { v with docLines := [] } v.startDoc 0 0 v.startLine
        = Res.ok (v1, l, g)) :
    computeVisible E v =
      Res.ok { v1 with lastDisplayedLine := l - 1, longestLineStartCol := g - v1.mainCols } := by
  unfold computeVisible
  rw [h]

/-- What `computeVisible` leaves alone: every member but the cache, which it can only extend,
and the members it derives. -/
theorem computeVisible_ctl (E : Env) (v v' : BSONCacheView)
    (h : computeVisible E v = Res.ok v') :
    SameCtl v v' ∧ v.cache.docs <+: v'.cache.docs := by
  obtain ⟨v1, l, g, hl, rfl⟩ := computeVisible_ok E v v' h
  obtain ⟨⟨e, _, _⟩, hp, _⟩ := computeVisibleLoop_ctl E E.fuel _ _ _ _ _ _ _ _ hl
  exact ⟨⟨e.1, e.2, e.3, e.4, e.5, e.6, e.7, e.8, e.9⟩, hp⟩

/-- The frame that `computeVisible` derives depends on the window, the render mode and flavor,
the start document and the start line only: from a view `w` that agrees with `v` on these, on
the same cache or on one that already holds every document the run from `v` ends with, it
returns with the same line counts, last displayed line and longest line. -/
theorem computeVisible_congr (E : Env) (v v' w : BSONCacheView)
    (h : computeVisible E v = Res.ok v')
    (hm : w.mainLines = v.mainLines) (hcols : w.mainCols = v.mainCols)
    (hmode : w.documentRenderMode = v.documentRenderMode)
    (hfmt : w.extendedJSONMode = v.extendedJSONMode)
    (hsd : w.startDoc = v.startDoc) (hsl : w.startLine = v.startLine)
    (hC : w.cache = v.cache ∨
      (v'.cache.docs <+: w.cache.docs ∧ (v'.cache.complete = true → w.cache = v'.cache))) :
    ∃ w', computeVisible E w = Res.ok w' ∧
      w'.docLines = v'.docLines ∧ w'.lastDisplayedLine = v'.lastDisplayedLine ∧
      w'.longestLineStartCol = v'.longestLineStartCol ∧
      (w.cache = v.cache → w'.cache = v'.cache) ∧
      (w.cache ≠ v.cache → w'.cache = w.cache) ∧
      (w'.lastDisplayedDoc = v'.lastDisplayedDoc ∨
        (w'.lastDisplayedDoc = w.lastDisplayedDoc ∧
          v'.lastDisplayedDoc = v.lastDisplayedDoc)) ∧
      (w.cursorLine = v.cursorLine →
        (w'.cursorDoc = v'.cursorDoc ∨
          (w'.cursorDoc = w.cursorDoc ∧ v'.cursorDoc = v.cursorDoc))) := by
  obtain ⟨v1, l, g, hl, rfl⟩ := computeVisible_ok E v v' h
  obtain ⟨w1, hw1, c1, c2, ⟨dl, d1, d2⟩, c4, c5⟩ :=
    computeVisibleLoop_congr E E.fuel _ { w with docLines := [] } _ _ _ _ _ _ _ hl
      (by simpa using hm) (by simpa using hmode) (by simpa using hfmt) (by simpa using hC)
  obtain ⟨⟨e, _, _⟩, _, _⟩ := computeVisibleLoop_ctl E E.fuel _ _ _ _ _ _ _ _ hw1
  obtain ⟨⟨ev, _, _⟩, _, _⟩ := computeVisibleLoop_ctl E E.fuel _ _ _ _ _ _ _ _ hl
  rw [← hsd, ← hsl] at hw1
  refine ⟨_, computeVisible_of_loop E w w1 l g hw1, ?_, rfl, ?_, by simpa using c1,
    by simpa using c2, by simpa using c4, by simpa using c5⟩
  · simp only; rw [d1, d2]
  · have h1 := e.mainCols
    have h2 := ev.mainCols
    simp only at h1 h2 ⊢
    rw [h1, h2, hcols]

end BSONCacheView

theorem Res.bind_ok {α β : Type} (x : Res α) (f : α → Res β) (b : β)
    (h : x.bind f = Res.ok b) : ∃ a, x = Res.ok a ∧ f a = Res.ok b := by
  cases x with
  | ok a => exact ⟨a, rfl, h⟩
  | fault f => cases h
  | outOfFuel => cases h

namespace BSONCacheView

/-- Recomputing a frame that `computeVisible` has just computed changes nothing. -/
theorem computeVisible_fresh (E : Env) (v v' : BSONCacheView)
    (h : computeVisible E v = Res.ok v') : Fresh E v' := by
  obtain ⟨hc, _⟩ := computeVisible_ctl E v v' h
  obtain ⟨w', hw', e1, e2, e3, c1, c2, c4, c5⟩ :=
    computeVisible_congr E v v' v' h hc.mainLines hc.mainCols hc.documentRenderMode
      hc.extendedJSONMode hc.startDoc hc.startLine
      (Or.inr ⟨List.prefix_refl _, fun _ => rfl⟩)
  obtain ⟨hc', _⟩ := computeVisible_ctl E v' w' hw'
  have hcache : w'.cache = v'.cache := by
    by_cases hcv : v'.cache = v.cache
    · exact c1 hcv
    · exact c2 hcv
  have hldd : w'.lastDisplayedDoc = v'.lastDisplayedDoc := by
    rcases c4 with h4 | ⟨h4, _⟩
    · exact h4
    · exact h4
  have hcd : w'.cursorDoc = v'.cursorDoc := by
    rcases c5 hc.cursorLine with h5 | ⟨h5, _⟩
    · exact h5
    · exact h5
  have : w' = v' := view_ext w' v' hcache hc'.documentRenderMode hc'.startCol e3 hc'.startDoc
    hc'.startLine hldd e2 e1 hc'.cursorLine hcd hc'.mainLines hc'.mainCols
    hc'.extendedJSONMode hc'.jumpToEndAfterLoadingComplete
  unfold Fresh
  rw [hw', this]

end BSONCacheView

/-- On a view that differs from a fresh one in the cursor, the horizontal scroll, the deferred
jump flag, or a cache that was extended, `computeVisible` returns and changes at most
`_cursorDoc`. -/
theorem Fresh.update {E : Env} {v : BSONCacheView} (hv : Fresh E v) (w : BSONCacheView)
    (hm : w.mainLines = v.mainLines) (hcols : w.mainCols = v.mainCols)
    (hmode : w.documentRenderMode = v.documentRenderMode)
    (hfmt : w.extendedJSONMode = v.extendedJSONMode)
    (hsd : w.startDoc = v.startDoc) (hsl : w.startLine = v.startLine)
    (hdl : w.docLines = v.docLines) (hll : w.lastDisplayedLine = v.lastDisplayedLine)
    (hL : w.longestLineStartCol = v.longestLineStartCol)
    (hldd : w.lastDisplayedDoc = v.lastDisplayedDoc)
    (hC : w.cache = v.cache ∨
      (v.cache.docs <+: w.cache.docs ∧ (v.cache.complete = true → w.cache = v.cache))) :
    ∃ cd, BSONCacheView.computeVisible E w = Res.ok { w with cursorDoc := cd } ∧
      (w.cursorLine = v.cursorLine → w.cursorDoc = v.cursorDoc → cd = w.cursorDoc) := by
  obtain ⟨w', hw', e1, e2, e3, c1, c2, c4, c5⟩ :=
    BSONCacheView.computeVisible_congr E v v w hv hm hcols hmode hfmt hsd hsl hC
  obtain ⟨hc', _⟩ := BSONCacheView.computeVisible_ctl E w w' hw'
  have hcache : w'.cache = w.cache := by
    by_cases hcv : w.cache = v.cache
    · rw [c1 hcv, hcv]
    · exact c2 hcv
  have hldd' : w'.lastDisplayedDoc = w.lastDisplayedDoc := by
    rcases c4 with h4 | ⟨h4, _⟩
    · rw [h4, hldd]
    · exact h4
  refine ⟨w'.cursorDoc, ?_, ?_⟩
  · rw [hw']
    congr 1
    exact BSONCacheView.view_ext _ _ hcache hc'.documentRenderMode hc'.startCol (by rw [e3, hL])
      hc'.startDoc hc'.startLine hldd' (by rw [e2, hll]) (by rw [e1, hdl]) hc'.cursorLine rfl
      hc'.mainLines hc'.mainCols hc'.extendedJSONMode hc'.jumpToEndAfterLoadingComplete
  · intro hcl hcd
    rcases c5 hcl with h5 | ⟨h5, _⟩
    · rw [h5, hcd]
    · exact h5

theorem Fresh.of_same_cursor {E : Env} {v : BSONCacheView} (hv : Fresh E v) (w : BSONCacheView)
    (hm : w.mainLines = v.mainLines) (hcols : w.mainCols = v.mainCols)
    (hmode : w.documentRenderMode = v.documentRenderMode)
    (hfmt : w.extendedJSONMode = v.extendedJSONMode)
    (hsd : w.startDoc = v.startDoc) (hsl : w.startLine = v.startLine)
    (hdl : w.docLines = v.docLines) (hll : w.lastDisplayedLine = v.lastDisplayedLine)
    (hL : w.longestLineStartCol = v.longestLineStartCol)
    (hldd : w.lastDisplayedDoc = v.lastDisplayedDoc)
    (hcl : w.cursorLine = v.cursorLine) (hcd : w.cursorDoc = v.cursorDoc)
    (hC : w.cache = v.cache ∨
      (v.cache.docs <+: w.cache.docs ∧ (v.cache.complete = true → w.cache = v.cache))) :
    Fresh E w := by
  obtain ⟨cd, h1, h2⟩ := hv.update w hm hcols hmode hfmt hsd hsl hdl hll hL hldd hC
  unfold Fresh
  rw [h1, h2 hcl hcd]

theorem Fresh.startCol {E : Env} {v : BSONCacheView} (hv : Fresh E v) (x : Int) :
    Fresh E { v with startCol := x } :=
  hv.of_same_cursor _ rfl rfl rfl rfl rfl rfl rfl rfl rfl rfl rfl rfl (Or.inl rfl)

theorem Fresh.flag {E : Env} {v : BSONCacheView} (hv : Fresh E v) (b : Bool) :
    Fresh E { v with jumpToEndAfterLoadingComplete := b } :=
  hv.of_same_cursor _ rfl rfl rfl rfl rfl rfl rfl rfl rfl rfl rfl rfl (Or.inl rfl)

theorem Fresh.cache {E : Env} {v : BSONCacheView} (hv : Fresh E v) (d : BSONCache)
    (hp : v.cache.docs <+: d.docs) (hc : v.cache.complete = true → d = v.cache) :
    Fresh E { v with cache := d } :=
  hv.of_same_cursor _ rfl rfl rfl rfl rfl rfl rfl rfl rfl rfl rfl rfl (Or.inr ⟨hp, hc⟩)

theorem Fresh.cursorLine {E : Env} {v : BSONCacheView} (hv : Fresh E v) (t : Int) :
    ∃ cd, BSONCacheView.computeVisible E { v with cursorLine := t } =
      Res.ok { v with cursorLine := t, cursorDoc := cd } := by
  obtain ⟨cd, h1, _⟩ := hv.update { v with cursorLine := t } rfl rfl rfl rfl rfl rfl rfl rfl rfl
    rfl (Or.inl rfl)
  exact ⟨cd, h1⟩

namespace BSONCacheView

theorem cv_keeps (E : Env) (w v1 : BSONCacheView) (h : computeVisible E w = Res.ok v1) :
    Fresh E v1 ∧ v1.startCol = w.startCol :=
  ⟨computeVisible_fresh E w v1 h, (computeVisible_ctl E w v1 h).1.startCol⟩

theorem keeps_bind {E : Env} {f g : BSONCacheView → Res BSONCacheView} (hf : Keeps E f)
    (hg : Keeps E g) : Keeps E (fun v => (f v).bind g) := by
  intro v v1 h
  obtain ⟨a, h1, h2⟩ := Res.bind_ok _ _ _ h
  obtain ⟨f1, s1⟩ := hf v a h1
  obtain ⟨f2, s2⟩ := hg a v1 h2
  exact ⟨fun hv => f2 (f1 hv), s2.trans s1⟩

theorem setCursor_keeps (E : Env) (t : Int) (v v1 : BSONCacheView)
    (h : (if v.cursorLine ≠ t then computeVisible E { v with cursorLine := t } else Res.ok v)
      = Res.ok v1) :
    (Fresh E v → Fresh E v1) ∧ v1.startCol = v.startCol := by
  split at h
  · obtain ⟨hf, hs⟩ := cv_keeps E _ _ h; exact ⟨fun _ => hf, hs⟩
  · cases h; exact ⟨id, rfl⟩

theorem cursorTop_keeps (E : Env) : Keeps E (cursorTop E) := by
  intro v v1 h
  exact setCursor_keeps E _ v v1 h

theorem cursorMiddle_keeps (E : Env) : Keeps E (cursorMiddle E) := by
  intro v v1 h
  exact setCursor_keeps E _ v v1 h

theorem cursorBottom_keeps (E : Env) : Keeps E (cursorBottom E) := by
  intro v v1 h
  exact setCursor_keeps E _ v v1 h

theorem cursorUp_keeps (E : Env) : Keeps E (cursorUp E) := by
  intro v v1 h
  unfold cursorUp at h
  split at h
  · obtain ⟨hf, hs⟩ := cv_keeps E _ _ h; exact ⟨fun _ => hf, hs⟩
  · cases h; exact ⟨id, rfl⟩

theorem cursorDown_keeps (E : Env) : Keeps E (cursorDown E) := by
  intro v v1 h
  unfold cursorDown at h
  split at h
  · obtain ⟨hf, hs⟩ := cv_keeps E _ _ h; exact ⟨fun _ => hf, hs⟩
  · cases h; exact ⟨id, rfl⟩

theorem nextDoc_cases (v : BSONCacheView) :
    ((nextDoc v).2 = true ∧ (nextDoc v).1 = { v with startDoc := uadd1 v.startDoc, startLine := 0 }) ∨
    ((nextDoc v).2 = false ∧ (nextDoc v).1 = v) := by
  unfold nextDoc
  split
  · left; exact ⟨rfl, rfl⟩
  · right; exact ⟨rfl, rfl⟩

theorem prevDoc_cases (v : BSONCacheView) :
    ((prevDoc v).2 = true ∧ (prevDoc v).1 = { v with startDoc := usub1 v.startDoc, startLine := 0 }) ∨
    ((prevDoc v).2 = false ∧ (prevDoc v).1 = v) := by
  unfold prevDoc
  split
  · left; exact ⟨rfl, rfl⟩
  · right; exact ⟨rfl, rfl⟩

theorem moveNextDoc_keeps (E : Env) : Keeps E (moveNextDoc E) := by
  intro v v1 h
  unfold moveNextDoc at h
  simp only at h
  rcases nextDoc_cases v with ⟨h2, h1⟩ | ⟨h2, h1⟩
  · rw [h2, h1] at h
    obtain ⟨hf, hs⟩ := cv_keeps E _ _ h; exact ⟨fun _ => hf, hs⟩
  · rw [h2, h1] at h
    simp only [Bool.false_eq_true, if_false, Res.ok.injEq] at h
    subst h; exact ⟨id, rfl⟩

theorem movePrevDoc_keeps (E : Env) : Keeps E (movePrevDoc E) := by
  intro v v1 h
  unfold movePrevDoc at h
  simp only at h
  rcases prevDoc_cases v with ⟨h2, h1⟩ | ⟨h2, h1⟩
  · rw [h2, h1] at h
    obtain ⟨hf, hs⟩ := cv_keeps E _ _ h; exact ⟨fun _ => hf, hs⟩
  · rw [h2, h1] at h
    simp only [Bool.false_eq_true, if_false, Res.ok.injEq] at h
    subst h; exact ⟨id, rfl⟩

/-- Whatever view it starts from, `moveDown` returns a fresh one. -/
theorem moveDown_fresh (E : Env) (v v1 : BSONCacheView) (h : moveDown E v = Res.ok v1) :
    Fresh E v1 ∧ v1.startCol = v.startCol := by
  unfold moveDown at h
  obtain ⟨a, ha, h⟩ := Res.bind_ok _ _ _ h
  obtain ⟨fa, sa⟩ := cv_keeps E _ _ ha
  cases hdl : a.docLines with
  | nil => rw [hdl] at h; cases h
  | cons l0 rest =>
    rw [hdl] at h
    simp only at h
    split at h
    · rcases nextDoc_cases a with ⟨h2, h1⟩ | ⟨h2, h1⟩
      · rw [h2, h1] at h
        simp only [if_true] at h
        obtain ⟨b, hb, h⟩ := Res.bind_ok _ _ _ h
        obtain ⟨fb, sb⟩ := cv_keeps E _ _ hb
        obtain ⟨fc, sc⟩ := cursorUp_keeps E b v1 h
        exact ⟨fc fb, by rw [sc, sb]; exact sa⟩
      · rw [h2, h1] at h
        simp only [Bool.false_eq_true, if_false, Res.ok.injEq] at h
        subst h; exact ⟨fa, sa⟩
    · obtain ⟨b, hb, h⟩ := Res.bind_ok _ _ _ h
      obtain ⟨fb, sb⟩ := cv_keeps E _ _ hb
      obtain ⟨fc, sc⟩ := cursorUp_keeps E b v1 h
      exact ⟨fc fb, by rw [sc, sb]; exact sa⟩

/-- Whatever view it starts from, `moveUp` returns a fresh one. -/
theorem moveUp_fresh (E : Env) (v v1 : BSONCacheView) (h : moveUp E v = Res.ok v1) :
    Fresh E v1 ∧ v1.startCol = v.startCol := by
  unfold moveUp at h
  obtain ⟨a, ha, h⟩ := Res.bind_ok _ _ _ h
  obtain ⟨fa, sa⟩ := cv_keeps E _ _ ha
  simp only at h
  split at h
  · rcases prevDoc_cases a with ⟨h2, h1⟩ | ⟨h2, h1⟩
    · rw [h2, h1] at h
      simp only [if_true] at h
      cases hdl : a.docLines with
      | nil => rw [hdl] at h; cases h
      | cons l0 rest =>
        rw [hdl] at h
        simp only at h
        obtain ⟨b, hb, h⟩ := Res.bind_ok _ _ _ h
        obtain ⟨fb, sb⟩ := cv_keeps E _ _ hb
        obtain ⟨fc, sc⟩ := cursorDown_keeps E b v1 h
        exact ⟨fc fb, by rw [sc, sb]; exact sa⟩
    · rw [h2, h1] at h
      simp only [Bool.false_eq_true, if_false, Res.ok.injEq] at h
      subst h; exact ⟨fa, sa⟩
  · obtain ⟨b, hb, h⟩ := Res.bind_ok _ _ _ h
    obtain ⟨fb, sb⟩ := cv_keeps E _ _ hb
    obtain ⟨fc, sc⟩ := cursorDown_keeps E b v1 h
    exact ⟨fc fb, by rw [sc, sb]; exact sa⟩

theorem keeps_of_fresh {E : Env} {f : BSONCacheView → Res BSONCacheView}
    (h : ∀ v v1, f v = Res.ok v1 → Fresh E v1 ∧ v1.startCol = v.startCol) : Keeps E f :=
  fun v v1 hv => ⟨fun _ => (h v v1 hv).1, (h v v1 hv).2⟩

theorem keeps_ok (E : Env) : Keeps E Res.ok := by
  intro v v1 h
  cases h
  exact ⟨id, rfl⟩

theorem moveCursorUp_keeps (E : Env) : Keeps E (moveCursorUp E) := by
  intro v v1 h
  unfold moveCursorUp at h
  obtain ⟨a, ha, h⟩ := Res.bind_ok _ _ _ h
  obtain ⟨fc, sc⟩ := cursorUp_keeps E a v1 h
  split at ha
  · obtain ⟨fa, sa⟩ := moveUp_fresh E v a ha
    exact ⟨fun _ => fc fa, sc.trans sa⟩
  · cases ha; exact ⟨fc, sc⟩

theorem moveCursorDown_keeps (E : Env) : Keeps E (moveCursorDown E) := by
  intro v v1 h
  unfold moveCursorDown at h
  obtain ⟨a, ha, h⟩ := Res.bind_ok _ _ _ h
  obtain ⟨fc, sc⟩ := cursorDown_keeps E a v1 h
  split at ha
  · obtain ⟨fa, sa⟩ := moveDown_fresh E v a ha
    exact ⟨fun _ => fc fa, sc.trans sa⟩
  · cases ha; exact ⟨fc, sc⟩

theorem jumpUp_keeps (E : Env) : Keeps E (jumpUp E) := by
  intro v v1 h
  unfold jumpUp at h
  obtain ⟨a, ha, h⟩ := Res.bind_ok _ _ _ h
  obtain ⟨fc, sc⟩ := cursorTop_keeps E a v1 h
  split at ha
  · obtain ⟨fa, sa⟩ := cv_keeps E _ _ ha
    exact ⟨fun _ => fc fa, sc.trans sa⟩
  · cases ha; exact ⟨fc, sc⟩

theorem jumpDownLoop_keeps (E : Env) (n : Nat) : Keeps E (jumpDownLoop E n) := by
  induction n with
  | zero =>
    intro v v1 h
    unfold jumpDownLoop at h
    split at h
    · cases h
    · cases h; exact ⟨id, rfl⟩
  | succ n ih =>
    intro v v1 h
    unfold jumpDownLoop at h
    split at h
    · obtain ⟨a, ha, h⟩ := Res.bind_ok _ _ _ h
      obtain ⟨fa, sa⟩ := cv_keeps E _ _ ha
      obtain ⟨fb, sb⟩ := ih a v1 h
      exact ⟨fun _ => fb fa, sb.trans sa⟩
    · cases h; exact ⟨id, rfl⟩

theorem jumpDown_keeps (E : Env) : Keeps E (jumpDown E) := by
  intro v v1 h
  unfold jumpDown at h
  split at h
  · cases h
    exact ⟨fun hv => hv.flag true, rfl⟩
  · simp only at h
    obtain ⟨a, ha, h⟩ := Res.bind_ok _ _ _ h
    obtain ⟨_, sa⟩ := cv_keeps E _ _ ha
    obtain ⟨b, hb, h⟩ := Res.bind_ok _ _ _ h
    obtain ⟨_, sb⟩ := jumpDownLoop_keeps E _ a b hb
    obtain ⟨c, hc, h⟩ := Res.bind_ok _ _ _ h
    obtain ⟨fc, sc⟩ := cv_keeps E _ _ hc
    obtain ⟨d, hd, h⟩ := Res.bind_ok _ _ _ h
    obtain ⟨fd, sd⟩ := cursorBottom_keeps E c d hd
    cases h
    exact ⟨fun _ => (fd fc).flag false, by
      show d.startCol = v.startCol
      rw [sd, sc]; show b.startCol = v.startCol; rw [sb, sa]⟩

theorem pageUpLoop_keeps (E : Env) (old : Nat) (n : Nat) :
    ∀ (v : BSONCacheView) (p : BSONCacheView × Bool), pageUpLoop E old n v = Res.ok p →
      (Fresh E v → Fresh E p.1) ∧ p.1.startCol = v.startCol := by
  induction n with
  | zero =>
    intro v p h
    unfold pageUpLoop at h
    split at h
    · split at h
      · cases h; exact ⟨id, rfl⟩
      · cases h
    · cases h; exact ⟨id, rfl⟩
  | succ n ih =>
    intro v p h
    unfold pageUpLoop at h
    split at h
    · split at h
      · cases h; exact ⟨id, rfl⟩
      · obtain ⟨a, ha, h⟩ := Res.bind_ok _ _ _ h
        obtain ⟨fa, sa⟩ := cv_keeps E _ _ ha
        obtain ⟨fb, sb⟩ := ih a p h
        exact ⟨fun _ => fb fa, sb.trans sa⟩
    · cases h; exact ⟨id, rfl⟩

theorem pageUp_keeps (E : Env) : Keeps E (pageUp E) := by
  intro v v1 h
  unfold pageUp at h
  split at h
  · exact cursorTop_keeps E v v1 h
  · simp only at h
    obtain ⟨p, hp, h⟩ := Res.bind_ok _ _ _ h
    obtain ⟨_, sp⟩ := pageUpLoop_keeps E _ _ v p hp
    split at h
    · obtain ⟨fa, sa⟩ := cv_keeps E _ _ h
      exact ⟨fun _ => fa, sa.trans sp⟩
    · cases hb : p.1.docLines.getLast? with
      | none => rw [hb] at h; cases h
      | some back =>
        rw [hb] at h
        simp only at h
        obtain ⟨b, _, h⟩ := Res.bind_ok _ _ _ h
        obtain ⟨fa, sa⟩ := cv_keeps E _ _ h
        rename_i hb2
        obtain ⟨_, sb⟩ := cursorBottom_keeps E _ b hb2
        exact ⟨fun _ => fa, by rw [sa, sb]; exact sp⟩

theorem pageDown_keeps (E : Env) : Keeps E (pageDown E) := by
  intro v v1 h
  unfold pageDown at h
  split at h
  · exact cursorBottom_keeps E v v1 h
  · cases hb : v.docLines.getLast? with
    | none => rw [hb] at h; cases h
    | some back =>
      rw [hb] at h
      simp only at h
      obtain ⟨a, ha, h⟩ := Res.bind_ok _ _ _ h
      obtain ⟨_, sa⟩ := cursorTop_keeps E _ a ha
      obtain ⟨b, hb2, h⟩ := Res.bind_ok _ _ _ h
      obtain ⟨_, sb⟩ := cv_keeps E _ _ hb2
      obtain ⟨c, hc, h⟩ := Res.bind_ok _ _ _ h
      obtain ⟨fd, sd⟩ := cv_keeps E _ _ h
      refine ⟨fun _ => fd, ?_⟩
      have hcs : c.startCol = b.startCol := by
        split at hc
        · obtain ⟨d, hd, hc⟩ := Res.bind_ok _ _ _ hc
          obtain ⟨_, s⟩ := jumpDown_keeps E b d hd
          cases hc
          exact s
        · cases hc; rfl
      rw [sd, hcs, sb, sa]

theorem setExtendedJSONMode_keeps (E : Env) (f : JsonStringFormat) :
    Keeps E (setExtendedJSONMode E f) := by
  intro v v1 h
  unfold setExtendedJSONMode at h
  obtain ⟨fa, sa⟩ := cv_keeps E _ _ h
  exact ⟨fun _ => fa, sa⟩

theorem toggleExtendedJSONMode_keeps (E : Env) : Keeps E (toggleExtendedJSONMode E) := by
  intro v v1 h
  unfold toggleExtendedJSONMode at h
  split at h
  · exact setExtendedJSONMode_keeps E _ v v1 h
  · exact setExtendedJSONMode_keeps E _ v v1 h

theorem moveUpTimes_keeps (E : Env) (k : Nat) : Keeps E (moveUpTimes E k) := by
  induction k with
  | zero => intro v v1 h; unfold moveUpTimes at h; cases h; exact ⟨id, rfl⟩
  | succ k ih =>
    intro v v1 h
    unfold moveUpTimes at h
    obtain ⟨a, ha, h⟩ := Res.bind_ok _ _ _ h
    obtain ⟨fa, sa⟩ := moveUp_fresh E v a ha
    obtain ⟨fb, sb⟩ := ih a v1 h
    exact ⟨fun _ => fb fa, sb.trans sa⟩

theorem jumpToDocOffscreen_fresh (E : Env) (doc : Nat) (v v1 : BSONCacheView)
    (h : _jumpToDocOffscreen E doc v = Res.ok v1) :
    Fresh E v1 ∧ v1.startCol = v.startCol := by
  unfold _jumpToDocOffscreen at h
  simp only at h
  split at h
  · rename_i hpos
    cases hk : (Int.tdiv v.mainLines 4).toNat with
    | zero =>
      exfalso
      have : (Int.tdiv v.mainLines 4).toNat = 0 := hk
      omega
    | succ k =>
      rw [hk] at h
      unfold moveUpTimes at h
      obtain ⟨a, ha, h⟩ := Res.bind_ok _ _ _ h
      obtain ⟨fa, sa⟩ := moveUp_fresh E _ a ha
      obtain ⟨fb, sb⟩ := moveUpTimes_keeps E k a v1 h
      exact ⟨fb fa, sb.trans sa⟩
  · obtain ⟨fa, sa⟩ := cv_keeps E _ _ h
    exact ⟨fa, sa⟩

theorem jumpToDoc_keeps (E : Env) (doc : Nat) : Keeps E (jumpToDoc E doc) := by
  intro v v1 h
  unfold jumpToDoc at h
  split at h
  · obtain ⟨fa, sa⟩ := jumpToDocOffscreen_fresh E doc v v1 h
    exact ⟨fun _ => fa, sa⟩
  · split at h
    · obtain ⟨fa, sa⟩ := jumpToDocOffscreen_fresh E doc v v1 h
      exact ⟨fun _ => fa, sa⟩
    · unfold _jumpToDocOnscreen at h
      split at h
      · cases h
      · obtain ⟨fa, sa⟩ := cv_keeps E _ _ h
        exact ⟨fun _ => fa, sa⟩

theorem updateDimensions_fresh (E : Env) (lines cols : Int) (v v1 : BSONCacheView)
    (h : updateDimensions E lines cols v = Res.ok v1) :
    ((lines ≠ v.mainLines ∨ cols ≠ v.mainCols) ∨ Fresh E v → Fresh E v1) ∧
      v1.startCol = v.startCol := by
  unfold updateDimensions at h
  simp only at h
  split at h
  · obtain ⟨fa, sa⟩ := cv_keeps E _ _ h
    exact ⟨fun _ => fa, sa⟩
  · rename_i hne
    cases h
    refine ⟨?_, rfl⟩
    intro hor
    rcases hor with h1 | h1
    · exact absurd h1 hne
    · have e1 : lines = v.mainLines := by
        by_contra hcon; exact hne (Or.inl hcon)
      have e2 : cols = v.mainCols := by
        by_contra hcon; exact hne (Or.inr hcon)
      subst e1 e2
      exact h1

/-- Every viewport command but the four horizontal ones and `setDocumentRenderMode` leaves
`_startCol` alone, and every command leaves a fresh view when run on a fresh view. -/
theorem viewOp_keeps (E : Env) (o : ViewOp) (ho : o.horizontal = false)
    (hm : ∀ m, o ≠ ViewOp.setDocumentRenderMode m) : Keeps E (o.run E) := by
  cases o with
  | moveLeft => cases ho
  | moveRight => cases ho
  | jumpLeft => cases ho
  | jumpRight => cases ho
  | cursorTop => exact cursorTop_keeps E
  | cursorMiddle => exact cursorMiddle_keeps E
  | cursorBottom => exact cursorBottom_keeps E
  | cursorUp => exact cursorUp_keeps E
  | cursorDown => exact cursorDown_keeps E
  | moveCursorUp => exact moveCursorUp_keeps E
  | moveCursorDown => exact moveCursorDown_keeps E
  | moveNextDoc => exact moveNextDoc_keeps E
  | movePrevDoc => exact movePrevDoc_keeps E
  | moveDown => exact keeps_of_fresh (moveDown_fresh E)
  | moveUp => exact keeps_of_fresh (moveUp_fresh E)
  | jumpUp => exact jumpUp_keeps E
  | jumpDown => exact jumpDown_keeps E
  | pageUp => exact pageUp_keeps E
  | pageDown => exact pageDown_keeps E
  | setDocumentRenderMode m => exact absurd rfl (hm m)
  | toggleExtendedJSONMode => exact toggleExtendedJSONMode_keeps E
  | jumpToDoc doc => exact jumpToDoc_keeps E doc

end BSONCacheView

namespace BSONCache

theorem loadSomeLoop_of_complete (dec : Decoder) (n : Nat) (c : BSONCache)
    (hc : c.complete = true) : (loadSomeLoop dec n c).cache = c := by
  cases n with
  | zero => rfl
  | succ k => unfold loadSomeLoop; simp [isComplete, hc]

end BSONCache

namespace BSONCacheView

/-- The four horizontal commands on a fresh view change `_startCol` and nothing else, and keep
it between 0 and the longest line start column (or 0 when that is negative). -/
theorem horizontal_spec (E : Env) (v v1 : BSONCacheView) (hv : Fresh E v) (o : ViewOp)
    (ho : o.horizontal = true) (h : o.run E v = Res.ok v1) :
    v1 = { v with startCol := v1.startCol } ∧
    (0 ≤ v.startCol → 0 ≤ v1.startCol) ∧
    (v.startCol ≤ max 0 v.longestLineStartCol → v1.startCol ≤ max 0 v.longestLineStartCol) ∧
    (o = ViewOp.jumpLeft → v1.startCol = 0) ∧
    (o = ViewOp.jumpRight → v1.startCol = max 0 v.longestLineStartCol) := by
  have key : ∀ (x : Int) (c : Prop) [Decidable c],
      (if c then computeVisible E { v with startCol := x } else Res.ok v) = Res.ok v1 →
      v1 = { v with startCol := v1.startCol } ∧ ((c ∧ v1.startCol = x) ∨ (¬ c ∧ v1 = v)) := by
    intro x c _ hx
    by_cases hc : c
    · rw [if_pos hc, hv.startCol x] at hx
      cases hx
      exact ⟨rfl, Or.inl ⟨hc, rfl⟩⟩
    · rw [if_neg hc] at hx
      cases hx
      exact ⟨rfl, Or.inr ⟨hc, rfl⟩⟩
  cases o with
  | moveLeft =>
    obtain ⟨e1, e2⟩ := key _ _ h
    refine ⟨e1, ?_, ?_, ?_, ?_⟩
    rotate_left 2
    · intro hc; cases hc
    · intro hc; cases hc
    · intro h0
      rcases e2 with ⟨hc, e⟩ | ⟨_, e⟩
      · rw [e]; omega
      · rw [e]; exact h0
    · intro h0
      rcases e2 with ⟨hc, e⟩ | ⟨_, e⟩
      · rw [e]; omega
      · rw [e]; exact h0
  | moveRight =>
    obtain ⟨e1, e2⟩ := key _ _ h
    refine ⟨e1, ?_, ?_, ?_, ?_⟩
    rotate_left 2
    · intro hc; cases hc
    · intro hc; cases hc
    · intro h0
      rcases e2 with ⟨hc, e⟩ | ⟨_, e⟩
      · rw [e]; omega
      · rw [e]; exact h0
    · intro h0
      rcases e2 with ⟨hc, e⟩ | ⟨_, e⟩
      · rw [e]
        have := le_max_right 0 v.longestLineStartCol
        omega
      · rw [e]; exact h0
  | jumpLeft =>
    obtain ⟨e1, e2⟩ := key _ _ h
    have e0 : v1.startCol = 0 := by
      rcases e2 with ⟨_, e⟩ | ⟨hc, e⟩
      · exact e
      · rw [e]; simpa using hc
    refine ⟨e1, ?_, ?_, ?_, ?_⟩
    · intro _; rw [e0]
    · intro _; rw [e0]; exact le_max_left _ _
    · intro _; exact e0
    · intro hc; cases hc
  | jumpRight =>
    obtain ⟨e1, e2⟩ := key _ _ h
    have e0 : v1.startCol = max 0 v.longestLineStartCol := by
      have ht : (if v.longestLineStartCol > 0 then v.longestLineStartCol else 0)
          = max 0 v.longestLineStartCol := by
        split
        · rw [max_eq_right]; omega
        · rw [max_eq_left]; omega
      rcases e2 with ⟨_, e⟩ | ⟨hc, e⟩
      · rw [e]; exact ht
      · rw [e, ← ht]; simpa using hc
    refine ⟨e1, ?_, ?_, ?_, ?_⟩
    · intro _; rw [e0]; exact le_max_left _ _
    · intro _; rw [e0]
    · intro hc; cases hc
    · intro _; exact e0
  | cursorTop => cases ho
  | cursorMiddle => cases ho
  | cursorBottom => cases ho
  | cursorUp => cases ho
  | cursorDown => cases ho
  | moveCursorUp => cases ho
  | moveCursorDown => cases ho
  | moveNextDoc => cases ho
  | movePrevDoc => cases ho
  | moveDown => cases ho
  | moveUp => cases ho
  | jumpUp => cases ho
  | jumpDown => cases ho
  | pageUp => cases ho
  | pageDown => cases ho
  | setDocumentRenderMode m => cases ho
  | toggleExtendedJSONMode => cases ho
  | jumpToDoc doc => cases ho

end BSONCacheView

/-- Every state of the viewport that the program reaches is fresh, with a horizontal scroll that
is not negative. -/
theorem ViewReachable.fresh_frame {E : Env} {v : BSONCacheView} (h : ViewReachable E v) :
    Fresh E v ∧ 0 ≤ v.startCol := by
  induction h with
  | start c lines cols v hne hrun =>
    obtain ⟨f, s⟩ := BSONCacheView.updateDimensions_fresh E lines cols _ v hrun
    refine ⟨f (Or.inl ?_), ?_⟩
    · simpa [BSONCacheView.new] using hne
    · rw [s]; simp [BSONCacheView.new]
  | op v v1 o _ hrun ih =>
    obtain ⟨hf, hs⟩ := ih
    cases hh : o.horizontal with
    | true =>
      obtain ⟨e1, m1, _, _, _⟩ := BSONCacheView.horizontal_spec E v v1 hf o hh hrun
      refine ⟨?_, m1 hs⟩
      rw [e1]; exact hf.startCol _
    | false =>
      by_cases hm : ∃ m, o = ViewOp.setDocumentRenderMode m
      · obtain ⟨m, rfl⟩ := hm
        obtain ⟨f, s⟩ := BSONCacheView.cv_keeps E _ _ hrun
        exact ⟨f, by rw [s]⟩
      · have hm2 : ∀ m, o ≠ ViewOp.setDocumentRenderMode m := fun m hc => hm ⟨m, hc⟩
        obtain ⟨f, s⟩ := BSONCacheView.viewOp_keeps E o hh hm2 v v1 hrun
        exact ⟨f hf, by rw [s]; exact hs⟩
  | resize v v1 lines cols _ hrun ih =>
    obtain ⟨f, s⟩ := BSONCacheView.updateDimensions_fresh E lines cols v v1 hrun
    exact ⟨f (Or.inr ih.1), by rw [s]; exact ih.2⟩
  | load v n _ ih =>
    refine ⟨ih.1.cache _ (BSONCache.loadSomeLoop_grows E.dec n v.cache).2.1 ?_, ih.2⟩
    intro hc
    exact BSONCache.loadSomeLoop_of_complete E.dec n v.cache hc

/-! ## The viewport: commands that repeat without effect -/

theorem Res.bind_fix {α : Type} (x : Res α) (f : α → Res α)
    (h : ∀ a, x = Res.ok a → f a = Res.ok a) : x.bind f = x := by
  cases x with
  | ok a => exact h a rfl
  | fault e => rfl
  | outOfFuel => rfl

namespace BSONCacheView

/-- What `cursorTop`, `cursorMiddle` and `cursorBottom` share: the cursor line is the target
when the call returns, and the start of the frame is untouched. -/
theorem setCursor_spec (E : Env) (t : Int) (v v1 : BSONCacheView)
    (h : (if v.cursorLine ≠ t then computeVisible E { v with cursorLine := t } else Res.ok v)
      = Res.ok v1) :
    v1.cursorLine = t ∧ v1.startDoc = v.startDoc ∧ v1.startLine = v.startLine := by
  by_cases hc : v.cursorLine ≠ t
  · rw [if_pos hc] at h
    obtain ⟨c, _⟩ := computeVisible_ctl E _ _ h
    exact ⟨c.cursorLine, c.startDoc, c.startLine⟩
  · rw [if_neg hc] at h
    cases h
    exact ⟨not_not.mp hc, rfl, rfl⟩

/-- On a fresh view, setting the cursor line changes `_cursorLine` and `_cursorDoc` only. -/
theorem setCursor_fresh (E : Env) (t : Int) (v v1 : BSONCacheView) (hv : Fresh E v)
    (h : (if v.cursorLine ≠ t then computeVisible E { v with cursorLine := t } else Res.ok v)
      = Res.ok v1) :
    v1.cursorLine = t ∧ v1.mainLines = v.mainLines ∧
      v1.lastDisplayedLine = v.lastDisplayedLine := by
  by_cases hc : v.cursorLine ≠ t
  · rw [if_pos hc] at h
    obtain ⟨cd, hcd⟩ := hv.cursorLine t
    rw [hcd] at h
    cases h
    exact ⟨rfl, rfl, rfl⟩
  · rw [if_neg hc] at h
    cases h
    exact ⟨not_not.mp hc, rfl, rfl⟩

theorem cursorTop_fix (E : Env) (v v1 : BSONCacheView) (h : cursorTop E v = Res.ok v1) :
    cursorTop E v1 = Res.ok v1 := by
  obtain ⟨e, _, _⟩ := setCursor_spec E 0 v v1 h
  unfold cursorTop
  simp [e]

theorem cursorMiddle_fix (E : Env) (v v1 : BSONCacheView) (hv : Fresh E v)
    (h : cursorMiddle E v = Res.ok v1) : cursorMiddle E v1 = Res.ok v1 := by
  obtain ⟨e, em, el⟩ := setCursor_fresh E _ v v1 hv h
  unfold cursorMiddle
  simp only [em, el]
  rw [if_neg (not_not.mpr e)]

theorem cursorBottom_fix (E : Env) (v v1 : BSONCacheView) (hv : Fresh E v)
    (h : cursorBottom E v = Res.ok v1) : cursorBottom E v1 = Res.ok v1 := by
  obtain ⟨e, em, el⟩ := setCursor_fresh E _ v v1 hv h
  unfold cursorBottom
  simp only [em, el]
  rw [if_neg (not_not.mpr e)]

theorem jumpUp_fix (E : Env) (v v2 : BSONCacheView) (h : jumpUp E v = Res.ok v2) :
    jumpUp E v2 = Res.ok v2 := by
  unfold jumpUp at h
  obtain ⟨v1, h1, h2⟩ := Res.bind_ok _ _ _ h
  have hs : v1.startDoc = 0 ∧ v1.startLine = 0 := by
    by_cases hc : v.startDoc ≠ 0 ∨ v.startLine ≠ 0
    · rw [if_pos hc] at h1
      obtain ⟨c, _⟩ := computeVisible_ctl E _ _ h1
      exact ⟨c.startDoc, c.startLine⟩
    · rw [if_neg hc] at h1
      cases h1
      simp only [not_or, not_not] at hc
      exact hc
  obtain ⟨_, e2, e3⟩ := setCursor_spec E 0 v1 v2 h2
  have hn : ¬ (v2.startDoc ≠ 0 ∨ v2.startLine ≠ 0) := by
    rw [e2, e3, hs.1, hs.2]
    simp
  unfold jumpUp
  rw [if_neg hn]
  exact cursorTop_fix E v1 v2 h2

theorem jumpLeft_fix (E : Env) (v v1 : BSONCacheView) (h : jumpLeft E v = Res.ok v1) :
    jumpLeft E v1 = Res.ok v1 := by
  have e : v1.startCol = 0 := by
    unfold jumpLeft at h
    by_cases hc : v.startCol ≠ 0
    · rw [if_pos hc] at h
      obtain ⟨c, _⟩ := computeVisible_ctl E _ _ h
      exact c.startCol
    · rw [if_neg hc] at h
      cases h
      exact not_not.mp hc
  unfold jumpLeft
  rw [if_neg (not_not.mpr e)]

theorem jumpRight_fix (E : Env) (v v1 : BSONCacheView) (hv : Fresh E v)
    (h : jumpRight E v = Res.ok v1) : jumpRight E v1 = Res.ok v1 := by
  obtain ⟨e1, _, _, _, e5⟩ := horizontal_spec E v v1 hv ViewOp.jumpRight rfl h
  have eL : v1.longestLineStartCol = v.longestLineStartCol := by rw [e1]
  have e : v1.startCol = if v1.longestLineStartCol > 0 then v1.longestLineStartCol else 0 := by
    rw [e5 rfl, eL]
    split
    · rw [max_eq_right]; omega
    · rw [max_eq_left]; omega
  unfold jumpRight
  simp only
  rw [if_neg (not_not.mpr e)]

end BSONCacheView

/-! ## The viewport: the horizontal scroll, jumps and paging -/

/-- C11, as stated, fails: in a window of one row and four columns on the complete mixed file
in one-line mode, `jumpRight` scrolls to column 10 (the line of the first document has 14
characters), and `moveDown` then shows the empty document, whose line has 2 characters: the
frame has `start_col = 10` and `longest_line_start_col = -2`. -/
theorem start_col_exceeds_longest_line :
    ∃ v v1 v2,
      BSONCacheView.updateDimensions mixedEnv 1 4 (BSONCacheView.new mixedLoaded) = Res.ok v ∧
      v.startCol = 0 ∧ v.longestLineStartCol = 10 ∧
      ViewOp.jumpRight.run mixedEnv v = Res.ok v1 ∧
      v1.startCol = 10 ∧ v1.longestLineStartCol = 10 ∧
      ViewOp.moveDown.run mixedEnv v1 = Res.ok v2 ∧
      v2.startDoc = 1 ∧ v2.startCol = 10 ∧ v2.longestLineStartCol = -2 ∧
      ¬ (v2.startCol ≤ v2.longestLineStartCol) :=
  ⟨_, _, _, rfl, by decide, by decide, rfl, by decide, by decide, rfl, by decide, by decide,
    by decide, by decide⟩

/-- C11, amended: in every reachable viewport state `start_col ≥ 0`, also after the next
command.  The four horizontal commands change no member but `start_col`, keep it at most
`max(0, longest_line_start_col)` if it was, `jumpLeft` gives 0 and `jumpRight` gives
`max(0, longest_line_start_col)`; `setDocumentRenderMode` gives 0; the cursor, scroll, paging
and jump commands leave `start_col` as it is. -/
theorem start_col_after_command (E : Env) (v v1 : BSONCacheView) (o : ViewOp)
    (hv : ViewReachable E v) (h : o.run E v = Res.ok v1) :
    0 ≤ v.startCol ∧ 0 ≤ v1.startCol ∧
    (o.horizontal = true →
      v1 = { v with startCol := v1.startCol } ∧
      (v.startCol ≤ max 0 v.longestLineStartCol →
        v1.startCol ≤ max 0 v.longestLineStartCol) ∧
      (o = ViewOp.jumpLeft → v1.startCol = 0) ∧
      (o = ViewOp.jumpRight → v1.startCol = max 0 v.longestLineStartCol)) ∧
    (∀ m, o = ViewOp.setDocumentRenderMode m → v1.startCol = 0) ∧
    (o.horizontal = false → (∀ m, o ≠ ViewOp.setDocumentRenderMode m) →
      o ≠ ViewOp.toggleExtendedJSONMode → v1.startCol = v.startCol) := by
  obtain ⟨hf, hs⟩ := hv.fresh_frame
  refine ⟨hs, (ViewReachable.op v v1 o hv h).fresh_frame.2, ?_, ?_, ?_⟩
  · intro hh
    obtain ⟨e1, _, e3, e4, e5⟩ := BSONCacheView.horizontal_spec E v v1 hf o hh h
    exact ⟨e1, e3, e4, e5⟩
  · intro m hm
    subst hm
    exact (BSONCacheView.computeVisible_ctl E _ _ h).1.startCol
  · intro hh hm _
    exact (BSONCacheView.viewOp_keeps E o hh hm v v1 h).2

/-- Witness for C11, amended: `jumpRight` on the first frame of the mixed file in a window of
one row and four columns. -/
theorem start_col_after_command_witness :
    ∃ v v1,
      BSONCacheView.updateDimensions mixedEnv 1 4 (BSONCacheView.new mixedLoaded) = Res.ok v ∧
      ViewOp.jumpRight.run mixedEnv v = Res.ok v1 ∧
      (0 ≤ v.startCol ∧ 0 ≤ v1.startCol ∧
      (ViewOp.jumpRight.horizontal = true →
        v1 = { v with startCol := v1.startCol } ∧
        (v.startCol ≤ max 0 v.longestLineStartCol →
          v1.startCol ≤ max 0 v.longestLineStartCol) ∧
        (ViewOp.jumpRight = ViewOp.jumpLeft → v1.startCol = 0) ∧
        (ViewOp.jumpRight = ViewOp.jumpRight → v1.startCol = max 0 v.longestLineStartCol)) ∧
      (∀ m, ViewOp.jumpRight = ViewOp.setDocumentRenderMode m → v1.startCol = 0) ∧
      (ViewOp.jumpRight.horizontal = false →
        (∀ m, ViewOp.jumpRight ≠ ViewOp.setDocumentRenderMode m) →
        ViewOp.jumpRight ≠ ViewOp.toggleExtendedJSONMode → v1.startCol = v.startCol)) :=
  ⟨_, _, rfl, rfl,
    start_col_after_command mixedEnv _ _ ViewOp.jumpRight
      (ViewReachable.start mixedLoaded 1 4 _ (Or.inl (by decide)) rfl) rfl⟩

/-- C12: on the complete two-record file whose last document has six lines in pretty mode, in a
window of 3 rows, `jumpDown` from the first frame leaves `start_doc = 1`, `start_line = 2` and
`last_displayed_line = 2`: the rows show the sub-lines 2, 3 and 4 of the last document and its
final sub-line, number 5, is below the window. -/
theorem jumpDown_hides_final_sub_line :
    ∃ v v1,
      (BSONCacheView.updateDimensions tallEnv 3 80 (BSONCacheView.new tallLoaded)).bind
          (runOps tallEnv [ViewOp.setDocumentRenderMode DocumentRenderMode.kJSONPretty])
        = Res.ok v ∧
      v.cache.isComplete = true ∧ v.cache.numDocs = 2 ∧ v.mainLines = 3 ∧
      (subLineLens (tallEnv.render v.documentRenderMode v.extendedJSONMode
        { objdata := 1008, objsize := 17 })).length = 6 ∧
      ViewOp.jumpDown.run tallEnv v = Res.ok v1 ∧
      v1.lastDisplayedDoc = 1 ∧ v1.startDoc = 1 ∧ v1.startLine = 2 ∧
      v1.lastDisplayedLine = 2 ∧ v1.cursorLine = 2 ∧
      ¬ (5 < v1.startLine + (v1.lastDisplayedLine + 1)) :=
  ⟨_, _, rfl, by decide, by decide, by decide, by decide, rfl, by decide, by decide, by decide,
    by decide, by decide, by decide⟩

/-- C13: when the cache is not complete, `jumpDown` returns, sets
`jumpToEndAfterLoadingComplete` and leaves every other member of the view, the cache included,
as it was. -/
theorem jumpDown_not_complete (E : Env) (v : BSONCacheView)
    (h : v.cache.isComplete = false) :
    BSONCacheView.jumpDown E v = Res.ok { v with jumpToEndAfterLoadingComplete := true } ∧
    ∃ v1, BSONCacheView.jumpDown E v = Res.ok v1 ∧ v1.jumpToEndAfterLoadingComplete = true ∧
      v1.startDoc = v.startDoc ∧ v1.startLine = v.startLine ∧ v1.cursorLine = v.cursorLine ∧
      v1.cursorDoc = v.cursorDoc ∧ v1.startCol = v.startCol ∧ v1.cache = v.cache := by
  have e : BSONCacheView.jumpDown E v =
      Res.ok { v with jumpToEndAfterLoadingComplete := true } := by
    unfold BSONCacheView.jumpDown
    rw [if_pos h]
  exact ⟨e, _, e, rfl, rfl, rfl, rfl, rfl, rfl, rfl⟩

/-- Witness for C13: `jumpDown` on the view of the two-record file right after `init`. -/
theorem jumpDown_not_complete_witness :
    sampleInit.isComplete = false ∧
    (BSONCacheView.jumpDown sampleEnv (BSONCacheView.new sampleInit) =
        Res.ok { BSONCacheView.new sampleInit with jumpToEndAfterLoadingComplete := true } ∧
      ∃ v1, BSONCacheView.jumpDown sampleEnv (BSONCacheView.new sampleInit) = Res.ok v1 ∧
        v1.jumpToEndAfterLoadingComplete = true ∧
        v1.startDoc = (BSONCacheView.new sampleInit).startDoc ∧
        v1.startLine = (BSONCacheView.new sampleInit).startLine ∧
        v1.cursorLine = (BSONCacheView.new sampleInit).cursorLine ∧
        v1.cursorDoc = (BSONCacheView.new sampleInit).cursorDoc ∧
        v1.startCol = (BSONCacheView.new sampleInit).startCol ∧
        v1.cache = (BSONCacheView.new sampleInit).cache) :=
  ⟨by decide, jumpDown_not_complete sampleEnv (BSONCacheView.new sampleInit) (by decide)⟩

/-- C14: on the complete mixed file in pretty mode, in a window of 4 rows, `jumpToDoc(3)` from
the first frame (documents 0 and 1 on screen) leaves the cursor on row 1 of a frame that starts
with the three lines of document 2: `cursor_doc = 2`, not 3. -/
theorem jumpToDoc_misses_target :
    ∃ v v1,
      (BSONCacheView.updateDimensions mixedEnv 4 80 (BSONCacheView.new mixedLoaded)).bind
          (runOps mixedEnv [ViewOp.setDocumentRenderMode DocumentRenderMode.kJSONPretty])
        = Res.ok v ∧
      v.cache.numDocs = 6 ∧ v.startDoc = 0 ∧ v.lastDisplayedDoc = 1 ∧
      (ViewOp.jumpToDoc 3).run mixedEnv v = Res.ok v1 ∧
      v1.startDoc = 2 ∧ v1.startLine = 0 ∧ v1.docLines = [3, 1] ∧ v1.cursorLine = 1 ∧
      v1.cursorDoc = 2 ∧ v1.cursorDoc ≠ 3 :=
  ⟨_, _, rfl, by decide, by decide, by decide, rfl, by decide, by decide, by decide, by decide,
    by decide, by decide⟩

/-- C15: on the complete mixed file in pretty mode, in a window of 4 rows, three `moveDown`
lead to `start_doc = 1`, `start_line = 0`, with `doc_lines = [1, 3]`; document 0 has three
sub-lines, and `moveUp` leaves `start_doc = 0` with `start_line = 0`, not 2: the view has
scrolled up by three sub-lines. -/
theorem moveUp_reads_stale_line_count :
    ∃ v v1,
      (BSONCacheView.updateDimensions mixedEnv 4 80 (BSONCacheView.new mixedLoaded)).bind
          (runOps mixedEnv [ViewOp.setDocumentRenderMode DocumentRenderMode.kJSONPretty,
            ViewOp.moveDown, ViewOp.moveDown, ViewOp.moveDown])
        = Res.ok v ∧
      v.startDoc = 1 ∧ v.startLine = 0 ∧ v.docLines = [1, 3] ∧
      (subLineLens (mixedEnv.render v.documentRenderMode v.extendedJSONMode
        { objdata := 1000, objsize := 8 })).length = 3 ∧
      ViewOp.moveUp.run mixedEnv v = Res.ok v1 ∧
      v1.startDoc = 0 ∧ v1.startLine = 0 ∧ v1.startLine ≠ 3 - 1 :=
  ⟨_, _, rfl, by decide, by decide, by decide, by decide, rfl, by decide, by decide,
    by decide⟩

/-- C16: on the complete six-record file in pretty mode (three sub-lines per document, 18 lines)
in a window of 2 rows, two `moveDown` lead to `start_doc = 0`, `start_line = 2`; a further
`moveDown` crosses to `start_doc = 1`, `start_line = 0`, and `moveUp` then leaves
`start_doc = 0`, `start_line = 1`, not 2. -/
theorem moveDown_moveUp_not_restored :
    ∃ v v1 v2,
      (BSONCacheView.updateDimensions sixEnv 2 80 (BSONCacheView.new sixLoaded)).bind
          (runOps sixEnv [ViewOp.setDocumentRenderMode DocumentRenderMode.kJSONPretty,
            ViewOp.moveDown, ViewOp.moveDown])
        = Res.ok v ∧
      v.cache.numDocs = 6 ∧ v.startDoc = 0 ∧ v.startLine = 2 ∧ v.docLines = [3, 1] ∧
      v.lastDisplayedDoc = 1 ∧
      ViewOp.moveDown.run sixEnv v = Res.ok v1 ∧
      v1.startDoc = 1 ∧ v1.startLine = 0 ∧ v1.docLines = [2] ∧
      ViewOp.moveUp.run sixEnv v1 = Res.ok v2 ∧
      v2.startDoc = 0 ∧ v2.startLine = 1 ∧
      (v2.startDoc, v2.startLine) ≠ (v.startDoc, v.startLine) :=
  ⟨_, _, _, rfl, by decide, by decide, by decide, by decide, by decide, rfl, by decide,
    by decide, by decide, rfl, by decide, by decide, by decide⟩

/-- C17: `pageDown` from a full screen (`last_displayed_line ≥ main_lines - 1`) whose scrolled
frame does not show the last loaded document returns that frame, and its `start_doc` is the
`last_displayed_doc` of the frame before. -/
theorem pageDown_starts_at_last_displayed (E : Env) (v v3 : BSONCacheView)
    (hfull : v.mainLines - 1 ≤ v.lastDisplayedLine)
    (h : BSONCacheView.pageDownScroll E v = Res.ok v3)
    (hend : v3.lastDisplayedDoc ≠ usub1 v3.cache.numDocs) :
    BSONCacheView.pageDown E v = Res.ok v3 ∧ v3.startDoc = v.lastDisplayedDoc := by
  unfold BSONCacheView.pageDownScroll at h
  unfold BSONCacheView.pageDown
  rw [if_neg (by omega)]
  cases hb : v.docLines.getLast? with
  | none => rw [hb] at h; cases h
  | some back =>
    rw [hb] at h
    simp only at h ⊢
    obtain ⟨v2, h2, h3⟩ := Res.bind_ok _ _ _ h
    obtain ⟨_, e2, _⟩ := BSONCacheView.setCursor_spec E 0 _ v2 h2
    have hfresh : BSONCacheView.computeVisible E v3 = Res.ok v3 :=
      BSONCacheView.computeVisible_fresh E v2 v3 h3
    refine ⟨?_, ?_⟩
    · rw [h2]
      simp only [Res.bind]
      rw [h3]
      simp only [Res.bind]
      rw [if_neg hend]
      exact hfresh
    · rw [(BSONCacheView.computeVisible_ctl E v2 v3 h3).1.startDoc, e2]

/-- Witness for C17: `pageDown` from the first frame of the six-record file of one-line
documents in a window of 2 rows. -/
theorem pageDown_starts_at_last_displayed_witness :
    ∃ v v3,
      BSONCacheView.updateDimensions sixEnv 2 80 (BSONCacheView.new sixLoaded) = Res.ok v ∧
      v.lastDisplayedLine = v.mainLines - 1 ∧ v.lastDisplayedDoc = 1 ∧
      BSONCacheView.pageDownScroll sixEnv v = Res.ok v3 ∧
      v3.lastDisplayedDoc ≠ usub1 v3.cache.numDocs ∧
      (BSONCacheView.pageDown sixEnv v = Res.ok v3 ∧ v3.startDoc = v.lastDisplayedDoc) :=
  ⟨_, _, rfl, by decide, by decide, rfl, by decide,
    pageDown_starts_at_last_displayed sixEnv _ _ (by decide) rfl (by decide)⟩

/-- C18: on the complete six-record file of one-line documents in a window of 2 rows, two
`pageDown` from the first frame lead to `start_doc = 4`, `start_line = 2`; `pageUp` scans back
to `start_doc = 1` (not document 0) and leaves `last_displayed_doc = 5`, not 4. -/
theorem pageUp_misses_previous_start_doc :
    ∃ v v1 p,
      (BSONCacheView.updateDimensions sixEnv 2 80 (BSONCacheView.new sixLoaded)).bind
          (runOps sixEnv [ViewOp.pageDown, ViewOp.pageDown])
        = Res.ok v ∧
      v.startDoc = 4 ∧ v.startLine = 2 ∧
      BSONCacheView.pageUpLoop sixEnv v.startDoc sixEnv.fuel v = Res.ok p ∧
      p.1.startDoc = 1 ∧ p.2 = false ∧
      ViewOp.pageUp.run sixEnv v = Res.ok v1 ∧
      v1.startDoc = 1 ∧ v1.startLine = 3 ∧ v1.lastDisplayedDoc = 5 ∧
      v1.lastDisplayedDoc ≠ v.startDoc :=
  ⟨_, _, _, rfl, by decide, by decide, rfl, by decide, by decide, rfl, by decide, by decide,
    by decide, by decide⟩

/-- C19: in every reachable viewport state, each of `jumpUp`, `jumpLeft`, `jumpRight`,
`cursorTop`, `cursorMiddle` and `cursorBottom` run twice in a row gives what it gives run
once: the same view when the first call returns, the same outcome otherwise. -/
theorem jump_and_cursor_commands_idempotent (E : Env) (v : BSONCacheView) (o : ViewOp)
    (hv : ViewReachable E v)
    (ho : o ∈ [ViewOp.jumpUp, ViewOp.jumpLeft, ViewOp.jumpRight, ViewOp.cursorTop,
      ViewOp.cursorMiddle, ViewOp.cursorBottom]) :
    (o.run E v).bind (o.run E) = o.run E v ∧
    ∀ v1, o.run E v = Res.ok v1 → runOps E [o, o] v = Res.ok v1 ∧ o.run E v1 = Res.ok v1 := by
  obtain ⟨hf, _⟩ := hv.fresh_frame
  have fix : ∀ v1, o.run E v = Res.ok v1 → o.run E v1 = Res.ok v1 := by
    intro v1 h
    simp only [List.mem_cons, List.mem_singleton, List.not_mem_nil, or_false] at ho
    rcases ho with rfl | rfl | rfl | rfl | rfl | rfl
    · exact BSONCacheView.jumpUp_fix E v v1 h
    · exact BSONCacheView.jumpLeft_fix E v v1 h
    · exact BSONCacheView.jumpRight_fix E v v1 hf h
    · exact BSONCacheView.cursorTop_fix E v v1 h
    · exact BSONCacheView.cursorMiddle_fix E v v1 hf h
    · exact BSONCacheView.cursorBottom_fix E v v1 hf h
  refine ⟨Res.bind_fix _ _ fix, fun v1 h => ⟨?_, fix v1 h⟩⟩
  simp only [runOps, h, Res.bind, fix v1 h]

/-- Witness for C19: `cursorBottom` twice on the first frame of the six-record file in a window
of 2 rows. -/
theorem jump_and_cursor_commands_idempotent_witness :
    ∃ v,
      BSONCacheView.updateDimensions sixEnv 2 80 (BSONCacheView.new sixLoaded) = Res.ok v ∧
      ((ViewOp.cursorBottom.run sixEnv v).bind (ViewOp.cursorBottom.run sixEnv)
        = ViewOp.cursorBottom.run sixEnv v ∧
      ∀ v1, ViewOp.cursorBottom.run sixEnv v = Res.ok v1 →
        runOps sixEnv [ViewOp.cursorBottom, ViewOp.cursorBottom] v = Res.ok v1 ∧
        ViewOp.cursorBottom.run sixEnv v1 = Res.ok v1) :=
  ⟨_, rfl,
    jump_and_cursor_commands_idempotent sixEnv _ ViewOp.cursorBottom
      (ViewReachable.start sixLoaded 2 80 _ (Or.inl (by decide)) rfl) (by decide)⟩

/-- C20: on the complete six-record file of one-line documents in a window of 4 rows,
`jumpDown` from the first frame leaves `start_doc = 3`, `start_line = 1`,
`doc_lines = [1, 1, 1]`, and a second `jumpDown` leaves `start_doc = 2`, `start_line = 2`,
`doc_lines = [1, 1, 1, 1]`. -/
theorem jumpDown_twice_differs :
    ∃ v v1 v2,
      BSONCacheView.updateDimensions sixEnv 4 80 (BSONCacheView.new sixLoaded) = Res.ok v ∧
      v.cache.isComplete = true ∧
      ViewOp.jumpDown.run sixEnv v = Res.ok v1 ∧
      v1.startDoc = 3 ∧ v1.startLine = 1 ∧ v1.docLines = [1, 1, 1] ∧
      ViewOp.jumpDown.run sixEnv v1 = Res.ok v2 ∧
      v2.startDoc = 2 ∧ v2.startLine = 2 ∧ v2.docLines = [1, 1, 1, 1] ∧
      (v2.startDoc, v2.startLine, v2.docLines) ≠ (v1.startDoc, v1.startLine, v1.docLines) :=
  ⟨_, _, _, rfl, by decide, rfl, by decide, by decide, by decide, rfl, by decide, by decide,
    by decide, by decide⟩

/-! ## The mark set -/

theorem mem_setInsert (x y : Nat) : ∀ s : List Nat, y ∈ setInsert x s ↔ y = x ∨ y ∈ s := by
  intro s
  induction s with
  | nil => simp [setInsert]
  | cons a t ih =>
    unfold setInsert
    by_cases h1 : x < a
    · simp [h1]
    · by_cases h2 : x = a
      · subst h2
        simp
      · simp only [h1, h2, if_false, List.mem_cons, ih]
        tauto

theorem mem_setErase (x y : Nat) (s : List Nat) : y ∈ setErase x s ↔ y ∈ s ∧ y ≠ x := by
  simp [setErase]

theorem sorted_setInsert (x : Nat) :
    ∀ s : List Nat, s.Sorted (· < ·) → (setInsert x s).Sorted (· < ·) := by
  intro s
  induction s with
  | nil => intro _; simp [setInsert]
  | cons a t ih =>
    intro hs
    have ha := List.rel_of_sorted_cons hs
    have ht := List.Sorted.of_cons hs
    unfold setInsert
    by_cases h1 : x < a
    · rw [if_pos h1]
      refine List.sorted_cons.mpr ⟨?_, hs⟩
      intro b hb
      rcases List.mem_cons.mp hb with rfl | hb
      · exact h1
      · exact lt_trans h1 (ha b hb)
    · rw [if_neg h1]
      by_cases h2 : x = a
      · rw [if_pos h2]; exact hs
      · rw [if_neg h2]
        refine List.sorted_cons.mpr ⟨?_, ih ht⟩
        intro b hb
        rcases (mem_setInsert x b t).mp hb with rfl | hb
        · omega
        · exact ha b hb

theorem sorted_setErase (x : Nat) (s : List Nat) (hs : s.Sorted (· < ·)) :
    (setErase x s).Sorted (· < ·) :=
  List.Pairwise.filter _ hs

theorem setErase_of_not_mem (x : Nat) (s : List Nat) (h : x ∉ s) : setErase x s = s := by
  unfold setErase
  rw [List.filter_eq_self]
  intro a ha
  simp only [ne_eq, decide_eq_true_eq]
  intro hc
  exact h (hc ▸ ha)

theorem setErase_setInsert (x : Nat) :
    ∀ s : List Nat, s.Sorted (· < ·) → x ∉ s → setErase x (setInsert x s) = s := by
  intro s
  induction s with
  | nil => intro _ _; simp [setInsert, setErase]
  | cons a t ih =>
    intro hs hx
    have hxa : x ≠ a := fun h => hx (h ▸ List.mem_cons_self _ _)
    have hxt : x ∉ t := fun h => hx (List.mem_cons_of_mem _ h)
    unfold setInsert
    by_cases h1 : x < a
    · rw [if_pos h1]
      have : setErase x (x :: a :: t) = setErase x (a :: t) := by simp [setErase]
      rw [this]
      exact setErase_of_not_mem x _ hx
    · rw [if_neg h1, if_neg hxa]
      have : setErase x (a :: setInsert x t) = a :: setErase x (setInsert x t) := by
        simp [setErase, Ne.symm hxa]
      rw [this, ih (List.Sorted.of_cons hs) hxt]

theorem setInsert_setErase (x : Nat) :
    ∀ s : List Nat, s.Sorted (· < ·) → x ∈ s → setInsert x (setErase x s) = s := by
  intro s
  induction s with
  | nil => intro _ hx; cases hx
  | cons a t ih =>
    intro hs hx
    have ha := List.rel_of_sorted_cons hs
    have ht := List.Sorted.of_cons hs
    by_cases hxa : x = a
    · subst hxa
      have hxt : x ∉ t := fun h => lt_irrefl x (ha x h)
      have : setErase x (x :: t) = setErase x t := by simp [setErase]
      rw [this, setErase_of_not_mem x t hxt]
      cases t with
      | nil => simp [setInsert]
      | cons b u =>
        have hb : x < b := ha b (List.mem_cons_self _ _)
        simp [setInsert, hb]
    · have hxt : x ∈ t := by
        rcases List.mem_cons.mp hx with h | h
        · exact absurd h hxa
        · exact h
      have hlt : a < x := ha x hxt
      have : setErase x (a :: t) = a :: setErase x t := by
        simp [setErase, Ne.symm hxa]
      rw [this]
      unfold setInsert
      rw [if_neg (by omega), if_neg hxa, ih ht hxt]

theorem setInsert_setInsert (x : Nat) :
    ∀ s : List Nat, setInsert x (setInsert x s) = setInsert x s := by
  intro s
  induction s with
  | nil => simp [setInsert]
  | cons a t ih =>
    by_cases h1 : x < a
    · simp [setInsert, h1]
    · by_cases h2 : x = a
      · simp [setInsert, h2]
      · simp [setInsert, h1, h2, ih]

theorem setErase_setErase (x : Nat) (s : List Nat) :
    setErase x (setErase x s) = setErase x s := by
  simp [setErase, List.filter_filter]

theorem upperBound_cons (x a : Nat) (t : List Nat) :
    upperBound x (a :: t) = if a ≤ x then upperBound x t + 1 else 0 := by
  unfold upperBound
  by_cases h : a ≤ x
  · simp [List.takeWhile, h]
  · simp [List.takeWhile, h]

theorem lowerBound_cons (x a : Nat) (t : List Nat) :
    lowerBound x (a :: t) = if a < x then lowerBound x t + 1 else 0 := by
  unfold lowerBound
  by_cases h : a < x
  · simp [List.takeWhile, h]
  · simp [List.takeWhile, h]

theorem upperBound_le (x : Nat) (s : List Nat) : upperBound x s ≤ s.length := by
  unfold upperBound
  exact (List.takeWhile_sublist _).length_le

/-- On an ascending list, `upper_bound(x)` is `end()` when no element is greater than `x`, and
otherwise points at the smallest element greater than `x`. -/
theorem upperBound_spec (x : Nat) :
    ∀ s : List Nat, s.Sorted (· < ·) →
      (upperBound x s = s.length → ∀ z ∈ s, z ≤ x) ∧
      (upperBound x s ≠ s.length →
        ∃ y, s.get? (upperBound x s) = some y ∧ y ∈ s ∧ x < y ∧ ∀ z ∈ s, x < z → y ≤ z) := by
  intro s
  induction s with
  | nil => intro _; simp [upperBound]
  | cons a t ih =>
    intro hs
    have ha := List.rel_of_sorted_cons hs
    obtain ⟨ih1, ih2⟩ := ih (List.Sorted.of_cons hs)
    rw [upperBound_cons]
    by_cases h : a ≤ x
    · rw [if_pos h]
      constructor
      · intro he z hz
        rcases List.mem_cons.mp hz with rfl | hz
        · exact h
        · exact ih1 (by simpa using he) z hz
      · intro hne
        obtain ⟨y, hy, hmem, hlt, hmin⟩ := ih2 (by simpa using hne)
        refine ⟨y, by simpa using hy, List.mem_cons_of_mem _ hmem, hlt, ?_⟩
        intro z hz hxz
        rcases List.mem_cons.mp hz with rfl | hz
        · omega
        · exact hmin z hz hxz
    · rw [if_neg h]
      constructor
      · intro he; simp at he
      · intro _
        refine ⟨a, by simp, List.mem_cons_self _ _, by omega, ?_⟩
        intro z hz _
        rcases List.mem_cons.mp hz with rfl | hz
        · exact le_refl _
        · exact le_of_lt (ha z hz)

/-- On an ascending list, `lower_bound(x)` is `begin()` when no element is less than `x`, and
otherwise the element before it is the largest element less than `x`. -/
theorem lowerBound_spec (x : Nat) :
    ∀ s : List Nat, s.Sorted (· < ·) →
      (lowerBound x s = 0 → ∀ z ∈ s, x ≤ z) ∧
      (lowerBound x s ≠ 0 →
        ∃ y, s.get? (lowerBound x s - 1) = some y ∧ y ∈ s ∧ y < x ∧ ∀ z ∈ s, z < x → z ≤ y) := by
  intro s
  induction s with
  | nil => intro _; simp [lowerBound]
  | cons a t ih =>
    intro hs
    have ha := List.rel_of_sorted_cons hs
    obtain ⟨ih1, ih2⟩ := ih (List.Sorted.of_cons hs)
    rw [lowerBound_cons]
    by_cases h : a < x
    · rw [if_pos h]
      constructor
      · intro he; simp at he
      · intro _
        by_cases h0 : lowerBound x t = 0
        · refine ⟨a, by simp [h0], List.mem_cons_self _ _, h, ?_⟩
          intro z hz hzx
          rcases List.mem_cons.mp hz with rfl | hz
          · exact le_refl _
          · have := ih1 h0 z hz
            omega
        · obtain ⟨y, hy, hmem, hlt, hmax⟩ := ih2 h0
          have e : lowerBound x t + 1 - 1 = (lowerBound x t - 1) + 1 := by omega
          refine ⟨y, by rw [e]; simpa using hy, List.mem_cons_of_mem _ hmem, hlt, ?_⟩
          intro z hz hzx
          rcases List.mem_cons.mp hz with rfl | hz
          · exact le_of_lt (ha y hmem)
          · exact hmax z hz hzx
    · rw [if_neg h]
      constructor
      · intro _ z hz
        rcases List.mem_cons.mp hz with rfl | hz
        · omega
        · have := ha z hz
          omega
      · intro hne; exact absurd rfl hne

theorem sorted_head_le (a : Nat) (t : List Nat) (hs : (a :: t).Sorted (· < ·)) :
    ∀ z ∈ a :: t, a ≤ z := by
  intro z hz
  rcases List.mem_cons.mp hz with rfl | hz
  · exact le_refl _
  · exact le_of_lt (List.rel_of_sorted_cons hs z hz)

theorem sorted_le_getLast :
    ∀ s : List Nat, s.Sorted (· < ·) → s ≠ [] →
      ∃ l, s.getLast? = some l ∧ l ∈ s ∧ ∀ z ∈ s, z ≤ l := by
  intro s
  induction s with
  | nil => intro _ h; exact absurd rfl h
  | cons a t ih =>
    intro hs _
    have ha := List.rel_of_sorted_cons hs
    cases t with
    | nil =>
      refine ⟨a, by simp, List.mem_cons_self _ _, ?_⟩
      intro z hz
      simp at hz
      omega
    | cons b u =>
      obtain ⟨l, hl, hmem, hmax⟩ := ih (List.Sorted.of_cons hs) (by simp)
      refine ⟨l, ?_, List.mem_cons_of_mem _ hmem, ?_⟩
      · rw [List.getLast?_cons_cons]; exact hl
      · intro z hz
        rcases List.mem_cons.mp hz with rfl | hz
        · exact le_of_lt (ha l hmem)
        · exact hmax z hz

namespace Marks

/-- On an ascending non-empty mark set `nextMarkedDoc` returns a document, and it is the one the
spec names. -/
theorem nextMarkedDoc_spec (m : Marks) (x : Nat) (hs : m.markedDocs.Sorted (· < ·))
    (hne : m.markedDocs ≠ []) :
    ∃ y, m.nextMarkedDoc x = some y ∧ IsNextMarked m.markedDocs x y := by
  obtain ⟨h1, h2⟩ := upperBound_spec x m.markedDocs hs
  have hlen : ¬ m.markedDocs.length = 0 := by
    intro h; exact hne (List.length_eq_zero.mp h)
  unfold nextMarkedDoc
  rw [if_neg hlen]
  simp only
  by_cases hu : upperBound x m.markedDocs ≠ m.markedDocs.length
  · rw [if_pos hu]
    obtain ⟨y, hy, hmem, hlt, hmin⟩ := h2 hu
    exact ⟨y, hy, hmem, Or.inl ⟨hlt, hmin⟩⟩
  · rw [if_neg hu]
    cases hm : m.markedDocs with
    | nil => exact absurd hm hne
    | cons a t =>
      refine ⟨a, rfl, List.mem_cons_self _ _, Or.inr ⟨?_, ?_⟩⟩
      · rw [← hm]; exact h1 (not_not.mp hu)
      · exact sorted_head_le a t (hm ▸ hs)

/-- On an ascending non-empty mark set `prevMarkedDoc` returns a document, and it is the one the
spec names. -/
theorem prevMarkedDoc_spec (m : Marks) (x : Nat) (hs : m.markedDocs.Sorted (· < ·))
    (hne : m.markedDocs ≠ []) :
    ∃ y, m.prevMarkedDoc x = some y ∧ IsPrevMarked m.markedDocs x y := by
  obtain ⟨h1, h2⟩ := lowerBound_spec x m.markedDocs hs
  have hlen : ¬ m.markedDocs.length = 0 := by
    intro h; exact hne (List.length_eq_zero.mp h)
  unfold prevMarkedDoc
  rw [if_neg hlen]
  simp only
  by_cases hl : lowerBound x m.markedDocs = 0
  · rw [if_pos hl]
    obtain ⟨l, hlast, hmem, hmax⟩ := sorted_le_getLast m.markedDocs hs hne
    exact ⟨l, hlast, hmem, Or.inr ⟨h1 hl, hmax⟩⟩
  · rw [if_neg hl]
    obtain ⟨y, hy, hmem, hlt, hmax⟩ := h2 hl
    exact ⟨y, hy, hmem, Or.inl ⟨hlt, hmax⟩⟩

end Marks

theorem IsNextMarked.unique {s : List Nat} {x y y1 : Nat} (h : IsNextMarked s x y)
    (h1 : IsNextMarked s x y1) : y = y1 := by
  obtain ⟨hm, hc⟩ := h
  obtain ⟨hm1, hc1⟩ := h1
  rcases hc with ⟨a, b⟩ | ⟨a, b⟩ <;> rcases hc1 with ⟨a1, b1⟩ | ⟨a1, b1⟩
  · exact le_antisymm (b y1 hm1 a1) (b1 y hm a)
  · have := a1 y hm; omega
  · have := a y1 hm1; omega
  · exact le_antisymm (b y1 hm1) (b1 y hm)

/-- The document after the one before a marked document is that document. -/
theorem IsNextMarked.of_prev_of_mem {s : List Nat} {d p : Nat} (hp : IsPrevMarked s d p)
    (hd : d ∈ s) : IsNextMarked s p d := by
  obtain ⟨_, hc⟩ := hp
  refine ⟨hd, ?_⟩
  rcases hc with ⟨a, b⟩ | ⟨a, b⟩
  · left
    refine ⟨a, ?_⟩
    intro z hz hpz
    by_contra hcon
    have := b z hz (by omega)
    omega
  · right
    exact ⟨b, a⟩

/-- The document after the one before an unmarked document is the document after it. -/
theorem IsNextMarked.of_prev_of_not_mem {s : List Nat} {d p y : Nat} (hp : IsPrevMarked s d p)
    (hd : d ∉ s) (hy : IsNextMarked s d y) : IsNextMarked s p y := by
  obtain ⟨hpm, hc⟩ := hp
  obtain ⟨hym, hyc⟩ := hy
  have hne : ∀ z ∈ s, z ≠ d := fun z hz he => hd (he ▸ hz)
  refine ⟨hym, ?_⟩
  rcases hc with ⟨a, b⟩ | ⟨a, b⟩
  · rcases hyc with ⟨a1, b1⟩ | ⟨a1, b1⟩
    · left
      refine ⟨by omega, ?_⟩
      intro z hz hpz
      apply b1 z hz
      by_contra hcon
      have h1 := b z hz (by have := hne z hz; omega)
      omega
    · right
      refine ⟨?_, b1⟩
      intro z hz
      exact b z hz (by have := a1 z hz; have := hne z hz; omega)
  · rcases hyc with ⟨a1, b1⟩ | ⟨a1, b1⟩
    · right
      refine ⟨b, ?_⟩
      intro z hz
      exact b1 z hz (by have := a z hz; have := hne z hz; omega)
    · right
      exact ⟨b, b1⟩

namespace Marks

theorem isMarkedDoc_eq (m : Marks) (x : Nat) :
    m.isMarkedDoc x =
      match m.dragMarked with
      | some b =>
        if min m.dragFirst m.dragLast ≤ x ∧ x ≤ max m.dragFirst m.dragLast then b
        else decide (x ∈ m.markedDocs)
      | none => decide (x ∈ m.markedDocs) := by
  unfold isMarkedDoc
  cases m.dragMarked with
  | none => rfl
  | some b =>
    simp only
    have e : ((m.dragFirst ≤ m.dragLast ∧ m.dragFirst ≤ x ∧ x ≤ m.dragLast) ∨
        (m.dragFirst > m.dragLast ∧ m.dragLast ≤ x ∧ x ≤ m.dragFirst)) ↔
        (min m.dragFirst m.dragLast ≤ x ∧ x ≤ max m.dragFirst m.dragLast) := by omega
    by_cases h : min m.dragFirst m.dragLast ≤ x ∧ x ≤ max m.dragFirst m.dragLast
    · rw [if_pos (e.mpr h), if_pos h]
    · rw [if_neg (fun hc => h (e.mp hc)), if_neg h]

/-- Outside an active drag range `isMarkedDoc` is membership in the stored set. -/
theorem isMarkedDoc_stored (m : Marks) (x : Nat)
    (h : m.dragMarked = none ∨
      ¬ (min m.dragFirst m.dragLast ≤ x ∧ x ≤ max m.dragFirst m.dragLast)) :
    m.isMarkedDoc x = decide (x ∈ m.markedDocs) := by
  rw [isMarkedDoc_eq]
  cases hd : m.dragMarked with
  | none => rfl
  | some b =>
    rcases h with h | h
    · rw [hd] at h; cases h
    · simp only
      rw [if_neg h]

/-- Inside an active drag range `isMarkedDoc` is the polarity of the drag. -/
theorem isMarkedDoc_drag (m : Marks) (x : Nat) (b : Bool) (hd : m.dragMarked = some b)
    (h : min m.dragFirst m.dragLast ≤ x ∧ x ≤ max m.dragFirst m.dragLast) :
    m.isMarkedDoc x = b := by
  rw [isMarkedDoc_eq, hd]
  simp only
  rw [if_pos h]

theorem toggleMarkDoc_drag (m : Marks) (d : Nat) :
    (m.toggleMarkDoc d).dragMarked = m.dragMarked ∧
    (m.toggleMarkDoc d).dragFirst = m.dragFirst ∧
    (m.toggleMarkDoc d).dragLast = m.dragLast := by
  unfold toggleMarkDoc
  split <;> exact ⟨rfl, rfl, rfl⟩

theorem toggleMarkDoc_of_marked (m : Marks) (d : Nat) (h : m.isMarkedDoc d = true) :
    m.toggleMarkDoc d = m.unmarkDoc d := by
  unfold toggleMarkDoc
  rw [if_pos h]

theorem toggleMarkDoc_of_unmarked (m : Marks) (d : Nat) (h : m.isMarkedDoc d = false) :
    m.toggleMarkDoc d = m.markDoc d := by
  unfold toggleMarkDoc
  rw [if_neg (by rw [h]; simp)]

theorem mem_toggleMarkDoc_stored (m : Marks) (d : Nat)
    (h : m.dragMarked = none ∨
      ¬ (min m.dragFirst m.dragLast ≤ d ∧ d ≤ max m.dragFirst m.dragLast)) :
    (d ∈ (m.toggleMarkDoc d).markedDocs ↔ d ∉ m.markedDocs) := by
  unfold toggleMarkDoc
  rw [isMarkedDoc_stored m d h]
  by_cases hm : d ∈ m.markedDocs
  · simp [hm, unmarkDoc, mem_setErase]
  · simp [hm, markDoc, mem_setInsert]

theorem toggleMarkDoc_twice_stored (m : Marks) (d : Nat) (hs : m.markedDocs.Sorted (· < ·))
    (h : m.dragMarked = none ∨
      ¬ (min m.dragFirst m.dragLast ≤ d ∧ d ≤ max m.dragFirst m.dragLast)) :
    (m.toggleMarkDoc d).toggleMarkDoc d = m := by
  obtain ⟨e1, e2, e3⟩ := toggleMarkDoc_drag m d
  have h1 : (m.toggleMarkDoc d).dragMarked = none ∨
      ¬ (min (m.toggleMarkDoc d).dragFirst (m.toggleMarkDoc d).dragLast ≤ d ∧
        d ≤ max (m.toggleMarkDoc d).dragFirst (m.toggleMarkDoc d).dragLast) := by
    rw [e1, e2, e3]; exact h
  have hmem := mem_toggleMarkDoc_stored m d h
  have hm1 : (m.toggleMarkDoc d).isMarkedDoc d = decide (d ∈ (m.toggleMarkDoc d).markedDocs) :=
    isMarkedDoc_stored _ d h1
  have hm0 := isMarkedDoc_stored m d h
  by_cases hm : d ∈ m.markedDocs
  · have t1 : m.toggleMarkDoc d = m.unmarkDoc d :=
      toggleMarkDoc_of_marked m d (by rw [hm0]; simp [hm])
    have hn : d ∉ (m.toggleMarkDoc d).markedDocs := fun hc => (hmem.mp hc) hm
    have t2 : (m.toggleMarkDoc d).toggleMarkDoc d = (m.toggleMarkDoc d).markDoc d :=
      toggleMarkDoc_of_unmarked _ d (by rw [hm1]; simp [hn])
    rw [t2, t1]
    unfold markDoc unmarkDoc
    simp only
    rw [setInsert_setErase d m.markedDocs hs hm]
  · have t1 : m.toggleMarkDoc d = m.markDoc d :=
      toggleMarkDoc_of_unmarked m d (by rw [hm0]; simp [hm])
    have hy : d ∈ (m.toggleMarkDoc d).markedDocs := hmem.mpr hm
    have t2 : (m.toggleMarkDoc d).toggleMarkDoc d = (m.toggleMarkDoc d).unmarkDoc d :=
      toggleMarkDoc_of_marked _ d (by rw [hm1]; simp [hy])
    rw [t2, t1]
    unfold markDoc unmarkDoc
    simp only
    rw [setErase_setInsert d m.markedDocs hs hm]

theorem foldl_dragUpdate (us : List Nat) :
    ∀ m : Marks, (us.foldl dragUpdate m).markedDocs = m.markedDocs ∧
      (us.foldl dragUpdate m).dragMarked = m.dragMarked ∧
      (us.foldl dragUpdate m).dragFirst = m.dragFirst := by
  induction us with
  | nil => intro m; exact ⟨rfl, rfl, rfl⟩
  | cons u rest ih =>
    intro m
    obtain ⟨a, b, c⟩ := ih (m.dragUpdate u)
    exact ⟨a, b, c⟩

/-- The loop of `dragEnd`, started at `doc` with fuel for the documents up to `_dragLast`,
returns and has applied the polarity to the documents from `doc` to `_dragLast`. -/
theorem dragEndLoop_spec (b : Bool) :
    ∀ (fuel doc : Nat) (m : Marks), m.dragMarked = some b → m.dragLast < 2 ^ 64 - 1 →
      doc ≤ m.dragLast + 1 → m.dragLast + 1 - doc ≤ fuel →
      ∃ m1, dragEndLoop fuel doc m = Res.ok m1 ∧ m1.dragMarked = some b ∧
        m1.dragFirst = m.dragFirst ∧ m1.dragLast = m.dragLast ∧
        (∀ z, z ∈ m1.markedDocs ↔
          ((doc ≤ z ∧ z ≤ m.dragLast) ∧ b = true) ∨
          (¬ (doc ≤ z ∧ z ≤ m.dragLast) ∧ z ∈ m.markedDocs)) ∧
        (m.markedDocs.Sorted (· < ·) → m1.markedDocs.Sorted (· < ·)) := by
  intro fuel
  induction fuel with
  | zero =>
    intro doc m hb _ h1 h2
    have hn : ¬ doc ≤ m.dragLast := by omega
    refine ⟨m, ?_, hb, rfl, rfl, ?_, id⟩
    · unfold dragEndLoop; rw [if_neg hn]
    · intro z
      constructor
      · intro hz; exact Or.inr ⟨by omega, hz⟩
      · rintro (⟨h, _⟩ | ⟨_, h⟩)
        · omega
        · exact h
  | succ k ih =>
    intro doc m hb hl h1 h2
    by_cases hc : doc ≤ m.dragLast
    · have hu : uadd1 doc = doc + 1 := by
        unfold uadd1
        exact Nat.mod_eq_of_lt (by omega)
      have hstep : dragEndLoop (k + 1) doc m =
          dragEndLoop k (doc + 1) (if b then m.markDoc doc else m.unmarkDoc doc) := by
        conv => lhs; unfold dragEndLoop
        rw [if_pos hc, hb, hu]
      cases b with
      | true =>
        obtain ⟨m1, r1, r2, r3, r4, r5, r6⟩ := ih (doc + 1) (m.markDoc doc) hb hl
          (by show doc + 1 ≤ m.dragLast + 1; omega) (by show m.dragLast + 1 - (doc + 1) ≤ k; omega)
        refine ⟨m1, ?_, r2, r3, r4, ?_, ?_⟩
        · rw [hstep]; exact r1
        · intro z
          rw [r5 z]
          have hm : z ∈ (m.markDoc doc).markedDocs ↔ z = doc ∨ z ∈ m.markedDocs :=
            mem_setInsert doc z m.markedDocs
          have hl2 : (m.markDoc doc).dragLast = m.dragLast := rfl
          rw [hm, hl2]
          constructor
          · rintro (⟨h, _⟩ | ⟨h, rfl | h2⟩)
            · exact Or.inl ⟨by omega, rfl⟩
            · exact Or.inl ⟨by omega, rfl⟩
            · by_cases hz : doc ≤ z ∧ z ≤ m.dragLast
              · exact Or.inl ⟨hz, rfl⟩
              · exact Or.inr ⟨hz, h2⟩
          · rintro (⟨h, _⟩ | ⟨h, h2⟩)
            · by_cases hz : z = doc
              · exact Or.inr ⟨by omega, Or.inl hz⟩
              · exact Or.inl ⟨by omega, rfl⟩
            · exact Or.inr ⟨by omega, Or.inr h2⟩
        · intro hs
          exact r6 (sorted_setInsert doc _ hs)
      | false =>
        obtain ⟨m1, r1, r2, r3, r4, r5, r6⟩ := ih (doc + 1) (m.unmarkDoc doc) hb hl
          (by show doc + 1 ≤ m.dragLast + 1; omega) (by show m.dragLast + 1 - (doc + 1) ≤ k; omega)
        refine ⟨m1, ?_, r2, r3, r4, ?_, ?_⟩
        · rw [hstep]; exact r1
        · intro z
          rw [r5 z]
          have hm : z ∈ (m.unmarkDoc doc).markedDocs ↔ z ∈ m.markedDocs ∧ z ≠ doc :=
            mem_setErase doc z m.markedDocs
          have hl2 : (m.unmarkDoc doc).dragLast = m.dragLast := rfl
          rw [hm, hl2]
          constructor
          · rintro (⟨_, h⟩ | ⟨h, h2, h3⟩)
            · cases h
            · exact Or.inr ⟨by omega, h2⟩
          · rintro (⟨_, h⟩ | ⟨h, h2⟩)
            · cases h
            · exact Or.inr ⟨by omega, h2, by omega⟩
        · intro hs
          exact r6 (sorted_setErase doc _ hs)
    · refine ⟨m, ?_, hb, rfl, rfl, ?_, id⟩
      · unfold dragEndLoop; rw [if_neg hc]
      · intro z
        constructor
        · intro hz; exact Or.inr ⟨by omega, hz⟩
        · rintro (⟨h, _⟩ | ⟨_, h⟩)
          · omega
          · exact h

end Marks

/-- The stored mark set starts empty, and marking, unmarking and toggling keep it an ascending
list; so does `dragEnd`, whose loop marks or unmarks. -/
theorem Marks.sorted_kept (m : Marks) (d : Nat) (hs : m.markedDocs.Sorted (· < ·)) :
    ({} : Marks).markedDocs.Sorted (· < ·) ∧ (m.markDoc d).markedDocs.Sorted (· < ·) ∧
    (m.unmarkDoc d).markedDocs.Sorted (· < ·) ∧ (m.toggleMarkDoc d).markedDocs.Sorted (· < ·) := by
  refine ⟨List.sorted_nil, sorted_setInsert d _ hs, sorted_setErase d _ hs, ?_⟩
  unfold Marks.toggleMarkDoc
  split
  · exact sorted_setErase d _ hs
  · exact sorted_setInsert d _ hs

/-- C25, as stated, fails during a drag: with document 3 marked, a drag that started on the
unmarked document 2 and reached document 4 has polarity `true`; `toggleMarkDoc(3)` twice finds
document 3 marked both times and erases it, so the stored mark set changes from `[3]` to `[]`
(while `isMarkedDoc(3)` stays true). -/
theorem toggle_twice_erases_mark_during_drag :
    ∃ m m2,
      ((({} : Marks).markDoc 3).dragStart 2).dragUpdate 4 = m ∧
      m.markedDocs = [3] ∧ m.dragMarked = some true ∧ m.dragFirst = 2 ∧ m.dragLast = 4 ∧
      (m.toggleMarkDoc 3).toggleMarkDoc 3 = m2 ∧
      m2.markedDocs = [] ∧ m2.markedDocs ≠ m.markedDocs ∧
      m.isMarkedDoc 3 = true ∧ m2.isMarkedDoc 3 = true :=
  ⟨_, _, rfl, by decide, by decide, by decide, by decide, rfl, by decide, by decide, by decide,
    by decide⟩

/-- C25, amended: in every state, with or without an active drag, `toggleMarkDoc(d)` twice
leaves `isMarkedDoc(d)` as it was; when no drag is active, or `d` lies outside the drag range,
it leaves the whole state, the stored mark set included, as it was. -/
theorem toggle_twice_keeps_mark (m : Marks) (d : Nat) (hs : m.markedDocs.Sorted (· < ·)) :
    ((m.toggleMarkDoc d).toggleMarkDoc d).isMarkedDoc d = m.isMarkedDoc d ∧
    (m.dragMarked = none ∨
        ¬ (min m.dragFirst m.dragLast ≤ d ∧ d ≤ max m.dragFirst m.dragLast) →
      (m.toggleMarkDoc d).toggleMarkDoc d = m ∧
      ((m.toggleMarkDoc d).toggleMarkDoc d).markedDocs = m.markedDocs) := by
  constructor
  · by_cases h : m.dragMarked = none ∨
        ¬ (min m.dragFirst m.dragLast ≤ d ∧ d ≤ max m.dragFirst m.dragLast)
    · rw [Marks.toggleMarkDoc_twice_stored m d hs h]
    · have hd : ∃ b, m.dragMarked = some b := by
        cases hb : m.dragMarked with
        | none => exact absurd (Or.inl hb) h
        | some b => exact ⟨b, rfl⟩
      obtain ⟨b, hb⟩ := hd
      have hr : min m.dragFirst m.dragLast ≤ d ∧ d ≤ max m.dragFirst m.dragLast := by
        by_contra hc
        exact h (Or.inr hc)
      obtain ⟨e1, e2, e3⟩ := Marks.toggleMarkDoc_drag m d
      obtain ⟨f1, f2, f3⟩ := Marks.toggleMarkDoc_drag (m.toggleMarkDoc d) d
      rw [Marks.isMarkedDoc_drag m d b hb hr]
      exact Marks.isMarkedDoc_drag _ d b (by rw [f1, e1, hb]) (by rw [f2, f3, e2, e3]; exact hr)
  · intro h
    have e := Marks.toggleMarkDoc_twice_stored m d hs h
    exact ⟨e, by rw [e]⟩

/-- Witness for C25, amended: `toggleMarkDoc(3)` twice on the mark set `[3]` with no drag. -/
theorem toggle_twice_keeps_mark_witness :
    (({} : Marks).markDoc 3).markedDocs.Sorted (· < ·) ∧
    (((({} : Marks).markDoc 3).toggleMarkDoc 3).toggleMarkDoc 3).isMarkedDoc 3 =
        (({} : Marks).markDoc 3).isMarkedDoc 3 ∧
    ((({} : Marks).markDoc 3).dragMarked = none ∨
        ¬ (min (({} : Marks).markDoc 3).dragFirst (({} : Marks).markDoc 3).dragLast ≤ 3 ∧
          3 ≤ max (({} : Marks).markDoc 3).dragFirst (({} : Marks).markDoc 3).dragLast) →
      ((({} : Marks).markDoc 3).toggleMarkDoc 3).toggleMarkDoc 3 = ({} : Marks).markDoc 3 ∧
      (((({} : Marks).markDoc 3).toggleMarkDoc 3).toggleMarkDoc 3).markedDocs =
        (({} : Marks).markDoc 3).markedDocs) :=
  ⟨by decide, toggle_twice_keeps_mark (({} : Marks).markDoc 3) 3 (by decide)⟩

/-- C26, as stated, fails for an unmarked document: with the documents 2 and 7 marked,
`prevMarkedDoc(5)` is 2 and `nextMarkedDoc(2)` is 7, not 5. -/
theorem next_of_prev_of_unmarked :
    ∃ m,
      (({} : Marks).markDoc 2).markDoc 7 = m ∧ m.markedDocs = [2, 7] ∧
      m.prevMarkedDoc 5 = some 2 ∧ m.nextMarkedDoc 2 = some 7 ∧
      (m.prevMarkedDoc 5).bind m.nextMarkedDoc ≠ some 5 :=
  ⟨_, rfl, by decide, by decide, by decide, by decide⟩

/-- C26, amended: on a non-empty mark set, `nextMarkedDoc(prevMarkedDoc(d))` is `d` for every
marked document `d`, and is `nextMarkedDoc(d)` for every unmarked one. -/
theorem next_of_prev_marked (m : Marks) (d : Nat) (hs : m.markedDocs.Sorted (· < ·))
    (hne : m.markedDocs ≠ []) :
    (d ∈ m.markedDocs → (m.prevMarkedDoc d).bind m.nextMarkedDoc = some d) ∧
    (d ∉ m.markedDocs → (m.prevMarkedDoc d).bind m.nextMarkedDoc = m.nextMarkedDoc d) := by
  obtain ⟨p, hp, hpp⟩ := Marks.prevMarkedDoc_spec m d hs hne
  obtain ⟨y, hy, hyy⟩ := Marks.nextMarkedDoc_spec m p hs hne
  rw [hp]
  simp only [Option.bind]
  rw [hy]
  constructor
  · intro hd
    rw [hyy.unique (IsNextMarked.of_prev_of_mem hpp hd)]
  · intro hd
    obtain ⟨y1, hy1, hyy1⟩ := Marks.nextMarkedDoc_spec m d hs hne
    rw [hy1, hyy.unique (IsNextMarked.of_prev_of_not_mem hpp hd hyy1)]

/-- Witness for C26, amended: the marked document 7 in the mark set `[2, 7]`. -/
theorem next_of_prev_marked_witness :
    ((({} : Marks).markDoc 2).markDoc 7).markedDocs.Sorted (· < ·) ∧
    ((({} : Marks).markDoc 2).markDoc 7).markedDocs ≠ [] ∧
    ((7 ∈ ((({} : Marks).markDoc 2).markDoc 7).markedDocs →
        (((({} : Marks).markDoc 2).markDoc 7).prevMarkedDoc 7).bind
          ((({} : Marks).markDoc 2).markDoc 7).nextMarkedDoc = some 7) ∧
      (7 ∉ ((({} : Marks).markDoc 2).markDoc 7).markedDocs →
        (((({} : Marks).markDoc 2).markDoc 7).prevMarkedDoc 7).bind
          ((({} : Marks).markDoc 2).markDoc 7).nextMarkedDoc =
          ((({} : Marks).markDoc 2).markDoc 7).nextMarkedDoc 7)) :=
  ⟨by decide, by decide,
    next_of_prev_marked ((({} : Marks).markDoc 2).markDoc 7) 7 (by decide) (by decide)⟩

/-- C27: `nextMarkedDoc(d)` is the smallest marked index greater than `d`, or the smallest
marked index when none is greater; `prevMarkedDoc(d)` is the largest marked index smaller than
`d`, or the largest marked index when none is smaller; each is absent exactly when the mark set
is empty. -/
theorem marked_neighbours (m : Marks) (d : Nat) (hs : m.markedDocs.Sorted (· < ·)) :
    (m.nextMarkedDoc d = none ↔ m.markedDocs = []) ∧
    (m.prevMarkedDoc d = none ↔ m.markedDocs = []) ∧
    (∀ y, m.nextMarkedDoc d = some y → IsNextMarked m.markedDocs d y) ∧
    (∀ y, m.prevMarkedDoc d = some y → IsPrevMarked m.markedDocs d y) ∧
    (m.markedDocs ≠ [] → ∃ y z, m.nextMarkedDoc d = some y ∧ m.prevMarkedDoc d = some z) := by
  by_cases hne : m.markedDocs = []
  · have e1 : m.nextMarkedDoc d = none := by unfold Marks.nextMarkedDoc; simp [hne]
    have e2 : m.prevMarkedDoc d = none := by unfold Marks.prevMarkedDoc; simp [hne]
    refine ⟨⟨fun _ => hne, fun _ => e1⟩, ⟨fun _ => hne, fun _ => e2⟩, ?_, ?_, ?_⟩
    · intro y hy; rw [e1] at hy; cases hy
    · intro y hy; rw [e2] at hy; cases hy
    · intro h; exact absurd hne h
  · obtain ⟨y, hy, hyy⟩ := Marks.nextMarkedDoc_spec m d hs hne
    obtain ⟨z, hz, hzz⟩ := Marks.prevMarkedDoc_spec m d hs hne
    refine ⟨⟨?_, fun h => absurd h hne⟩, ⟨?_, fun h => absurd h hne⟩, ?_, ?_, ?_⟩
    · intro h; rw [hy] at h; cases h
    · intro h; rw [hz] at h; cases h
    · intro y1 h1; rw [hy] at h1; cases h1; exact hyy
    · intro z1 h1; rw [hz] at h1; cases h1; exact hzz
    · intro _; exact ⟨y, z, hy, hz⟩

/-- Witness for C27: the neighbours of document 5 in the mark set `[2, 7]`. -/
theorem marked_neighbours_witness :
    ((({} : Marks).markDoc 2).markDoc 7).markedDocs.Sorted (· < ·) ∧
    ((({} : Marks).markDoc 2).markDoc 7).nextMarkedDoc 5 = some 7 ∧
    ((({} : Marks).markDoc 2).markDoc 7).prevMarkedDoc 5 = some 2 ∧
    IsNextMarked ((({} : Marks).markDoc 2).markDoc 7).markedDocs 5 7 ∧
    IsPrevMarked ((({} : Marks).markDoc 2).markDoc 7).markedDocs 5 2 :=
  ⟨by decide, by decide, by decide,
    (marked_neighbours ((({} : Marks).markDoc 2).markDoc 7) 5 (by decide)).2.2.1 7 (by decide),
    (marked_neighbours ((({} : Marks).markDoc 2).markDoc 7) 5 (by decide)).2.2.2.1 2
      (by decide)⟩

/-- C28: `dragStart(f)`, any number of `dragUpdate`, then `dragEnd(d)`, for document indices
below the largest `unsigned long` and fuel for the documents of the range: `dragEnd` returns,
the drag is cleared, every document between `f` and `d` (either way round) is in the stored
set exactly when the polarity fixed at the start, `!isMarkedDoc(f)`, is true, and every other
document is in the stored set exactly when it was before. -/
theorem drag_commits_range (E : Env) (m : Marks) (f d : Nat) (us : List Nat)
    (hf : f < 2 ^ 64 - 1) (hd : d < 2 ^ 64 - 1) (hfuel : max f d + 1 - min f d ≤ E.fuel) :
    ∃ m2, Marks.dragEnd E d (us.foldl Marks.dragUpdate (m.dragStart f)) = Res.ok m2 ∧
      m2.dragMarked = none ∧
      (∀ x, min f d ≤ x ∧ x ≤ max f d →
        (x ∈ m2.markedDocs ↔ m.isMarkedDoc f = false) ∧
        m2.isMarkedDoc x = !m.isMarkedDoc f) ∧
      (∀ x, ¬ (min f d ≤ x ∧ x ≤ max f d) →
        (x ∈ m2.markedDocs ↔ x ∈ m.markedDocs) ∧
        m2.isMarkedDoc x = decide (x ∈ m.markedDocs)) ∧
      (m.markedDocs.Sorted (· < ·) → m2.markedDocs.Sorted (· < ·)) := by
  obtain ⟨u1, u2, u3⟩ := Marks.foldl_dragUpdate us (m.dragStart f)
  have s1 : (m.dragStart f).markedDocs = m.markedDocs := rfl
  have s2 : (m.dragStart f).dragMarked = some (!m.isMarkedDoc f) := rfl
  have s3 : (m.dragStart f).dragFirst = f := rfl
  rw [s1] at u1
  rw [s2] at u2
  rw [s3] at u3
  generalize us.foldl Marks.dragUpdate (m.dragStart f) = m0 at u1 u2 u3
  have key : ∀ m2 : Marks, m2.dragMarked = some (!m.isMarkedDoc f) →
      m2.markedDocs = m0.markedDocs → m2.dragFirst = min f d → m2.dragLast = max f d →
      ∃ m3, (Marks.dragEndLoop E.fuel m2.dragFirst m2).bind
          (fun m3 => Res.ok { m3 with dragMarked := none }) = Res.ok m3 ∧
        m3.dragMarked = none ∧
        (∀ x, min f d ≤ x ∧ x ≤ max f d →
          (x ∈ m3.markedDocs ↔ m.isMarkedDoc f = false) ∧
          m3.isMarkedDoc x = !m.isMarkedDoc f) ∧
        (∀ x, ¬ (min f d ≤ x ∧ x ≤ max f d) →
          (x ∈ m3.markedDocs ↔ x ∈ m.markedDocs) ∧
          m3.isMarkedDoc x = decide (x ∈ m.markedDocs)) ∧
        (m.markedDocs.Sorted (· < ·) → m3.markedDocs.Sorted (· < ·)) := by
    intro m2 hb hmk hfi hla
    obtain ⟨m1, r1, r2, r3, r4, r5, r6⟩ := Marks.dragEndLoop_spec (!m.isMarkedDoc f) E.fuel
      m2.dragFirst m2 hb (by rw [hla]; omega) (by rw [hfi, hla]; omega)
      (by rw [hfi, hla]; exact hfuel)
    rw [hfi, hla, hmk, u1] at r5
    have hmem : ∀ x, x ∈ m1.markedDocs ↔
        ((min f d ≤ x ∧ x ≤ max f d) ∧ (!m.isMarkedDoc f) = true) ∨
        (¬ (min f d ≤ x ∧ x ≤ max f d) ∧ x ∈ m.markedDocs) := r5
    refine ⟨{ m1 with dragMarked := none }, ?_, rfl, ?_, ?_, ?_⟩
    · rw [r1]; rfl
    · intro x hx
      have e : x ∈ m1.markedDocs ↔ m.isMarkedDoc f = false := by
        rw [hmem x]
        constructor
        · rintro (⟨_, h⟩ | ⟨h, _⟩)
          · simpa using h
          · exact absurd hx h
        · intro h; exact Or.inl ⟨hx, by simp [h]⟩
      refine ⟨e, ?_⟩
      show Marks.isMarkedDoc { m1 with dragMarked := none } x = !m.isMarkedDoc f
      rw [Marks.isMarkedDoc_stored _ x (Or.inl rfl)]
      show decide (x ∈ m1.markedDocs) = !m.isMarkedDoc f
      cases hmf : m.isMarkedDoc f with
      | true => simp [e, hmf]
      | false => simp [e, hmf]
    · intro x hx
      have e : x ∈ m1.markedDocs ↔ x ∈ m.markedDocs := by
        rw [hmem x]
        constructor
        · rintro (⟨h, _⟩ | ⟨_, h⟩)
          · exact absurd h hx
          · exact h
        · intro h; exact Or.inr ⟨hx, h⟩
      refine ⟨e, ?_⟩
      show Marks.isMarkedDoc { m1 with dragMarked := none } x = decide (x ∈ m.markedDocs)
      rw [Marks.isMarkedDoc_stored _ x (Or.inl rfl)]
      show decide (x ∈ m1.markedDocs) = decide (x ∈ m.markedDocs)
      simp [e]
    · intro hs
      apply r6
      rw [hmk, u1]; exact hs
  unfold Marks.dragEnd
  simp only
  by_cases hgt : m0.dragFirst > d
  · rw [if_pos hgt]
    exact key _ u2 rfl (by show d = min f d; omega) (by show m0.dragFirst = max f d; omega)
  · rw [if_neg hgt]
    exact key _ u2 rfl (by show m0.dragFirst = min f d; omega) (by show d = max f d; omega)

/-- Witness for C28: with document 3 marked, a drag from document 4 through 6 that ends on
document 1. -/
theorem drag_commits_range_witness :
    ∃ m2, Marks.dragEnd sampleEnv 1
        ([6].foldl Marks.dragUpdate ((({} : Marks).markDoc 3).dragStart 4)) = Res.ok m2 ∧
      m2.dragMarked = none ∧
      (∀ x, min 4 1 ≤ x ∧ x ≤ max 4 1 →
        (x ∈ m2.markedDocs ↔ (({} : Marks).markDoc 3).isMarkedDoc 4 = false) ∧
        m2.isMarkedDoc x = !(({} : Marks).markDoc 3).isMarkedDoc 4) ∧
      (∀ x, ¬ (min 4 1 ≤ x ∧ x ≤ max 4 1) →
        (x ∈ m2.markedDocs ↔ x ∈ (({} : Marks).markDoc 3).markedDocs) ∧
        m2.isMarkedDoc x = decide (x ∈ (({} : Marks).markDoc 3).markedDocs)) ∧
      ((({} : Marks).markDoc 3).markedDocs.Sorted (· < ·) → m2.markedDocs.Sorted (· < ·)) :=
  drag_commits_range sampleEnv (({} : Marks).markDoc 3) 4 1 [6] (by decide) (by decide)
    (by decide)

/-- C30: while a drag is active `isMarkedDoc(x)` is the polarity for every `x` between
`_dragFirst` and `_dragLast` (either way round) and membership in the stored set for every
other `x`; `dragStart(doc)` sets the polarity to `!isMarkedDoc(doc)` and both ends to `doc`;
`dragUpdate(doc)` sets `_dragLast`; neither changes the stored set. -/
theorem drag_overlay (m : Marks) (doc x : Nat) (b : Bool) (hb : m.dragMarked = some b) :
    (min m.dragFirst m.dragLast ≤ x ∧ x ≤ max m.dragFirst m.dragLast → m.isMarkedDoc x = b) ∧
    (¬ (min m.dragFirst m.dragLast ≤ x ∧ x ≤ max m.dragFirst m.dragLast) →
      m.isMarkedDoc x = decide (x ∈ m.markedDocs)) ∧
    m.dragStart doc =
      { m with dragMarked := some (!m.isMarkedDoc doc), dragFirst := doc, dragLast := doc } ∧
    m.dragUpdate doc = { m with dragLast := doc } ∧
    (m.dragStart doc).markedDocs = m.markedDocs ∧
    (m.dragUpdate doc).markedDocs = m.markedDocs ∧
    ((m.dragStart doc).isMarkedDoc doc = !m.isMarkedDoc doc) := by
  refine ⟨Marks.isMarkedDoc_drag m x b hb, fun h => Marks.isMarkedDoc_stored m x (Or.inr h),
    rfl, rfl, rfl, rfl, ?_⟩
  exact Marks.isMarkedDoc_drag (m.dragStart doc) doc _ rfl
    (by show min doc doc ≤ doc ∧ doc ≤ max doc doc; omega)

/-- Witness for C30: document 3 marked, an upward drag from document 4 to document 1, seen at
document 2. -/
theorem drag_overlay_witness :
    ((({} : Marks).markDoc 3).dragStart 4).dragUpdate 1 =
        { markedDocs := [3], dragMarked := some true, dragFirst := 4, dragLast := 1 } ∧
    Marks.isMarkedDoc
        { markedDocs := [3], dragMarked := some true, dragFirst := 4, dragLast := 1 } 2 = true ∧
    Marks.isMarkedDoc
        { markedDocs := [3], dragMarked := some true, dragFirst := 4, dragLast := 1 } 5
      = false :=
  ⟨by decide,
    (drag_overlay { markedDocs := [3], dragMarked := some true, dragFirst := 4, dragLast := 1 }
      0 2 true rfl).1 (by decide),
    ((drag_overlay { markedDocs := [3], dragMarked := some true, dragFirst := 4, dragLast := 1 }
      0 5 true rfl).2.1 (by decide)).trans (by decide)⟩

/-! ## Search -/

/-- Method `find` of `std::string` finds the text exactly when the text is a contiguous part of
the string. -/
theorem strFind_isSome (t : List Char) :
    ∀ s : List Char, (strFind s t).isSome = true ↔ t <:+: s := by
  intro s
  induction s with
  | nil =>
    unfold strFind
    by_cases ht : t = []
    · simp [ht]
    · simp [ht]
  | cons c cs ih =>
    unfold strFind
    by_cases hp : t.isPrefixOf (c :: cs) = true
    · rw [if_pos hp]
      simp only [Option.isSome_some, true_iff]
      exact (List.isPrefixOf_iff_prefix.mp hp).isInfix
    · rw [if_neg hp]
      have hm : (Option.map (fun i => i + 1) (strFind cs t)).isSome = (strFind cs t).isSome := by
        cases strFind cs t <;> rfl
      rw [hm, ih, List.infix_cons_iff]
      constructor
      · intro h; exact Or.inr h
      · rintro (h | h)
        · exact absurd (List.isPrefixOf_iff_prefix.mpr h) hp
        · exact h

namespace Search

theorem matches_renderedText (E : Env) (text : List Char) (doc : Nat) (v : BSONCacheView) :
    (renderedText text).matches_ E doc v =
      if (renderedText text).isValid = false then Res.ok (false, v)
      else
        (BSONCacheView.renderDoc E v doc).bind fun p =>
          Res.ok ((strFind p.1 text).isSome, p.2) := rfl

/-- On a loaded document `matches` returns and leaves the view, the cache included, as it
was. -/
theorem matches_loaded (E : Env) (s : Search) (j : Nat) (v : BSONCacheView)
    (hj : j < v.cache.numDocs) : ∃ b, s.matches_ E j v = Res.ok (b, v) := by
  have hlen : j < v.cache.docs.length := hj
  have hi := BSONCache.index_of_lt E.dec E.fuel j v.cache hlen
  have hg : v.cache.docs.get? j = some (v.cache.docs.get ⟨j, hlen⟩) := List.get?_eq_get hlen
  rw [hg] at hi
  cases s with
  | renderedText text =>
    rw [matches_renderedText]
    by_cases hv : (renderedText text).isValid = false
    · exact ⟨false, by rw [if_pos hv]⟩
    · rw [if_neg hv, BSONCacheView.renderDoc_of_index E v j _ _ hi]
      exact ⟨_, rfl⟩
  | mql text matcher =>
    cases matcher with
    | none => exact ⟨false, rfl⟩
    | some f =>
      have e : (mql text (some f)).matches_ E j v =
          Res.ok (f (v.cache.docs.get ⟨j, hlen⟩), v) := by
        show (match v.cache.index E.dec E.fuel j with
          | none => Res.outOfFuel
          | some (r, od) =>
            match r.fault, od with
            | some f1, _ => Res.fault f1
            | none, none => Res.fault Fault.undefinedBehaviour
            | none, some d => Res.ok (f d, { v with cache := r.cache })) = _
        rw [hi]
      exact ⟨_, e⟩

end Search

namespace BSONCacheView

/-- The loop of `searchFor`, started at `curr` with fuel for the loaded documents from `curr`
on, returns the first of them that matches, or nothing when none does; the view is
untouched. -/
theorem searchForLoop_spec (E : Env) (s : Search) (v : BSONCacheView)
    (hn : v.cache.numDocs < 2 ^ 64) :
    ∀ (fuel curr : Nat), v.cache.numDocs - curr ≤ fuel →
      ∃ r, searchForLoop E s fuel curr v = Res.ok (r, v) ∧
        (∀ j, r = some j → curr ≤ j ∧ j < v.cache.numDocs ∧
          s.matches_ E j v = Res.ok (true, v) ∧
          ∀ k, curr ≤ k → k < j → s.matches_ E k v = Res.ok (false, v)) ∧
        (r = none → ∀ k, curr ≤ k → k < v.cache.numDocs →
          s.matches_ E k v = Res.ok (false, v)) := by
  intro fuel
  induction fuel with
  | zero =>
    intro curr hfuel
    have hc : ¬ curr < v.cache.numDocs := by omega
    refine ⟨none, ?_, ?_, ?_⟩
    · unfold searchForLoop; rw [if_neg hc]
    · intro j hj; cases hj
    · intro _ k h1 h2; omega
  | succ n ih =>
    intro curr hfuel
    by_cases hc : curr < v.cache.numDocs
    · obtain ⟨b, hb⟩ := Search.matches_loaded E s curr v hc
      have hu : uadd1 curr = curr + 1 := by
        unfold uadd1
        exact Nat.mod_eq_of_lt (by omega)
      cases b with
      | true =>
        refine ⟨some curr, ?_, ?_, ?_⟩
        · unfold searchForLoop
          rw [if_pos hc, hb]
          rfl
        · intro j hj
          cases hj
          exact ⟨le_refl _, hc, hb, fun k h1 h2 => by omega⟩
        · intro h; cases h
      | false =>
        obtain ⟨r, r1, r2, r3⟩ := ih (curr + 1) (by omega)
        refine ⟨r, ?_, ?_, ?_⟩
        · unfold searchForLoop
          rw [if_pos hc, hb]
          simp only [Res.bind, Bool.false_eq_true, if_false]
          rw [hu]
          exact r1
        · intro j hj
          obtain ⟨a1, a2, a3, a4⟩ := r2 j hj
          refine ⟨by omega, a2, a3, ?_⟩
          intro k h1 h2
          by_cases hk : k = curr
          · rw [hk]; exact hb
          · exact a4 k (by omega) h2
        · intro hr k h1 h2
          by_cases hk : k = curr
          · rw [hk]; exact hb
          · exact r3 hr k (by omega) h2
    · refine ⟨none, ?_, ?_, ?_⟩
      · unfold searchForLoop; rw [if_neg hc]
      · intro j hj; cases hj
      · intro _ k h1 h2; omega

end BSONCacheView

/-- C21: `searchFor` returns, leaves the view untouched, and gives the least index `j` with
`cursor_doc < j < numDocs()` that matches, every index between the cursor and `j` failing to
match; it gives nothing exactly when no index after the cursor matches. -/
theorem searchFor_first_match (E : Env) (s : Search) (v : BSONCacheView)
    (hc : v.cursorDoc < 2 ^ 64 - 1) (hn : v.cache.numDocs < 2 ^ 64)
    (hfuel : v.cache.numDocs - (v.cursorDoc + 1) ≤ E.fuel) :
    ∃ r, BSONCacheView.searchFor E s v = Res.ok (r, v) ∧
      (∀ j, r = some j → v.cursorDoc < j ∧ j < v.cache.numDocs ∧
        s.matches_ E j v = Res.ok (true, v) ∧
        ∀ k, v.cursorDoc < k → k < j → s.matches_ E k v = Res.ok (false, v)) ∧
      (r = none ↔ ∀ j, v.cursorDoc < j → j < v.cache.numDocs →
        s.matches_ E j v ≠ Res.ok (true, v)) := by
  have hu : uadd1 v.cursorDoc = v.cursorDoc + 1 := by
    unfold uadd1
    exact Nat.mod_eq_of_lt (by omega)
  obtain ⟨r, r1, r2, r3⟩ := BSONCacheView.searchForLoop_spec E s v hn E.fuel (v.cursorDoc + 1) hfuel
  refine ⟨r, ?_, ?_, ?_⟩
  · unfold BSONCacheView.searchFor
    rw [hu]
    exact r1
  · intro j hj
    obtain ⟨a1, a2, a3, a4⟩ := r2 j hj
    exact ⟨by omega, a2, a3, fun k h1 h2 => a4 k (by omega) h2⟩
  · constructor
    · intro hr j h1 h2 hcon
      have := r3 hr j (by omega) h2
      rw [this] at hcon
      cases hcon
    · intro hall
      cases hr : r with
      | none => rfl
      | some j =>
        obtain ⟨a1, a2, a3, _⟩ := r2 j hr
        exact absurd a3 (hall j (by omega) a2)

/-- Witness for C21: a search for the text `b` from the cursor on document 0 of the file that
starts with the one-field document finds document 1. -/
theorem searchFor_first_match_witness :
    ∃ r, BSONCacheView.searchFor tallEnv (Search.renderedText "b".toList)
        (BSONCacheView.new tallLoaded) = Res.ok (r, BSONCacheView.new tallLoaded) ∧
      (∀ j, r = some j → (BSONCacheView.new tallLoaded).cursorDoc < j ∧
        j < (BSONCacheView.new tallLoaded).cache.numDocs ∧
        (Search.renderedText "b".toList).matches_ tallEnv j (BSONCacheView.new tallLoaded)
          = Res.ok (true, BSONCacheView.new tallLoaded) ∧
        ∀ k, (BSONCacheView.new tallLoaded).cursorDoc < k → k < j →
          (Search.renderedText "b".toList).matches_ tallEnv k (BSONCacheView.new tallLoaded)
            = Res.ok (false, BSONCacheView.new tallLoaded)) ∧
      (r = none ↔ ∀ j, (BSONCacheView.new tallLoaded).cursorDoc < j →
        j < (BSONCacheView.new tallLoaded).cache.numDocs →
        (Search.renderedText "b".toList).matches_ tallEnv j (BSONCacheView.new tallLoaded)
          ≠ Res.ok (true, BSONCacheView.new tallLoaded)) :=
  searchFor_first_match tallEnv (Search.renderedText "b".toList) (BSONCacheView.new tallLoaded)
    (by decide) (by decide) (by decide)

/-- C22: a literal search is valid exactly when its text is not empty; an invalid one matches no
document (and renders none); a valid one matches a document exactly when the rendering of the
document in the current mode and flavor, as `renderDoc` returns it, contains the text as a
contiguous part, and it fails as `renderDoc` fails. -/
theorem literal_search_matches (E : Env) (text : List Char) (doc : Nat) (v : BSONCacheView) :
    ((Search.renderedText text).isValid = true ↔ text ≠ []) ∧
    (text = [] → (Search.renderedText text).matches_ E doc v = Res.ok (false, v)) ∧
    (text ≠ [] → ∀ str v1, BSONCacheView.renderDoc E v doc = Res.ok (str, v1) →
      (Search.renderedText text).matches_ E doc v = Res.ok (decide (text <:+: str), v1)) ∧
    (text ≠ [] → ∀ f, BSONCacheView.renderDoc E v doc = Res.fault f →
      (Search.renderedText text).matches_ E doc v = Res.fault f) := by
  refine ⟨by simp [Search.isValid], ?_, ?_, ?_⟩
  · intro h
    subst h
    rfl
  · intro h str v1 hr
    have hv : ¬ (Search.renderedText text).isValid = false := by simp [Search.isValid, h]
    have e : (strFind str text).isSome = decide (text <:+: str) := by
      rw [Bool.eq_iff_iff]
      simp [strFind_isSome]
    rw [Search.matches_renderedText, if_neg hv, hr, ← e]
    rfl
  · intro h f hr
    have hv : ¬ (Search.renderedText text).isValid = false := by simp [Search.isValid, h]
    rw [Search.matches_renderedText, if_neg hv, hr]
    rfl

/-- Witness for C22: the text `b` and document 1 of the file that starts with the one-field
document, in one-line mode. -/
theorem literal_search_matches_witness :
    ∃ str v1,
      BSONCacheView.renderDoc tallEnv (BSONCacheView.new tallLoaded) 1 = Res.ok (str, v1) ∧
      "b".toList ≠ [] ∧ "b".toList <:+: str ∧
      (Search.renderedText "b".toList).matches_ tallEnv 1 (BSONCacheView.new tallLoaded)
        = Res.ok (decide ("b".toList <:+: str), v1) :=
  ⟨_, _, rfl, by decide, by decide,
    (literal_search_matches tallEnv "b".toList 1 (BSONCacheView.new tallLoaded)).2.2.1
      (by decide) _ _ rfl⟩

/-- C23, as stated, fails: on the first frame of the six-record file, submitting the empty
text registers an invalid literal search and leaves the status message
`Invalid search pattern`, not `No search pattern`; the view is untouched. -/
theorem empty_search_reports_invalid_pattern :
    ∃ v s1,
      BSONCacheView.updateDimensions sixEnv 4 80 (BSONCacheView.new sixLoaded) = Res.ok v ∧
      submitSearchString sixEnv (fun _ => none) [] { view := v } = Res.ok s1 ∧
      s1.extra = "Invalid search pattern".toList ∧
      s1.extra ≠ "No search pattern".toList ∧ s1.view = v :=
  ⟨_, _, rfl, rfl, rfl, by decide, rfl⟩

/-- C23, amended: submitting the empty text returns, makes the empty literal search the
retained search, which is invalid, leaves the status message `Invalid search pattern`, and does
not change the view. -/
theorem empty_search_is_invalid (E : Env) (mql : List Char → Option (BSONObj → Bool))
    (s : Session) :
    ∃ s1, submitSearchString E mql [] s = Res.ok s1 ∧
      s1.extra = "Invalid search pattern".toList ∧ s1.view = s.view ∧
      s1.lastSearch = some (Search.renderedText []) ∧
      (Search.renderedText []).isValid = false :=
  ⟨_, rfl, rfl, rfl, rfl, rfl⟩

/-- C24: on the complete file that starts with the four-field document, in pretty mode in a
window of 4 rows, the cursor is on document 0 and the retained search is the valid literal
search for `a`; `searchFor` finds document 1, `doSearch` clears the status message and calls
`jumpToDoc(1)`, which leaves `start_doc = 0`, `start_line = 2` and the cursor on row 1, on
document 0, not on document 1. -/
theorem search_hit_leaves_cursor_above :
    ∃ v s1,
      (BSONCacheView.updateDimensions tallFirstEnv 4 80 (BSONCacheView.new tallFirstLoaded)).bind
          (runOps tallFirstEnv [ViewOp.setDocumentRenderMode DocumentRenderMode.kJSONPretty])
        = Res.ok v ∧
      v.cache.numDocs = 2 ∧ v.cursorDoc = 0 ∧ v.lastDisplayedDoc = 0 ∧
      (Search.renderedText "a".toList).isValid = true ∧
      BSONCacheView.searchFor tallFirstEnv (Search.renderedText "a".toList) v
        = Res.ok (some 1, v) ∧
      doSearch tallFirstEnv { view := v, lastSearch := some (Search.renderedText "a".toList) }
        = Res.ok s1 ∧
      s1.extra = [] ∧ s1.view.startDoc = 0 ∧ s1.view.startLine = 2 ∧ s1.view.cursorLine = 1 ∧
      s1.view.lastDisplayedDoc = 0 ∧ s1.view.cursorDoc = 0 ∧ s1.view.cursorDoc ≠ 1 :=
  ⟨_, _, rfl, by decide, by decide, by decide, by decide, rfl, rfl, by decide, by decide,
    by decide, by decide, by decide, by decide, by decide⟩

/-! ## The viewport: the sub-lines that `computeVisible` displays -/

theorem subLineLoop_cons_of_lt (m cl : Int) (doc len : Nat) (rest : List Nat) (st : Scan)
    (h : st.line < m) :
    subLineLoop m cl doc (len :: rest) st =
      subLineLoop m cl doc rest
        (if st.skipLines > 0 then
          { st with skipLines := st.skipLines - 1, thisDocLines := st.thisDocLines + 1 }
        else
          { st with
            longestLine := if st.longestLine < (len : Int) then (len : Int) else st.longestLine
            cursorDoc := if st.line = cl then doc else st.cursorDoc
            line := st.line + 1
            thisDocLines := st.thisDocLines + 1 }) := by
  conv => lhs; unfold subLineLoop
  rw [if_pos h]
  cases rest with
  | nil =>
    unfold subLineLoop
    split <;> rfl
  | cons a r =>
    simp only
    split <;> rfl

theorem subLineLoop_of_not_lt (m cl : Int) (doc : Nat) (lens : List Nat) (st : Scan)
    (h : ¬ st.line < m) : subLineLoop m cl doc lens st = st := by
  cases lens with
  | nil => rfl
  | cons a r => unfold subLineLoop; rw [if_neg h]

/-- The inner loop of `computeVisible` walks a first part of the sub-lines of the document: it
counts them in `thisDocLines`, spends `skipLines` on the first of them, and displays the others,
one row each, taking the maximum of their lengths. -/
theorem subLineLoop_lens (m cl : Int) (doc : Nat) :
    ∀ (lens : List Nat) (st : Scan),
      ∃ k, k ≤ lens.length ∧
        (subLineLoop m cl doc lens st).thisDocLines = st.thisDocLines + (k : Int) ∧
        (subLineLoop m cl doc lens st).skipLines.toNat = st.skipLines.toNat - k ∧
        (subLineLoop m cl doc lens st).line =
          st.line + (((lens.take k).drop st.skipLines.toNat).length : Int) ∧
        (subLineLoop m cl doc lens st).longestLine =
          ((lens.take k).drop st.skipLines.toNat).foldl
            (fun (a : Int) (len : Nat) => max a (len : Int)) st.longestLine := by
  intro lens
  induction lens with
  | nil =>
    intro st
    exact ⟨0, le_refl _, by simp [subLineLoop], by simp [subLineLoop], by simp [subLineLoop],
      by simp [subLineLoop]⟩
  | cons len rest ih =>
    intro st
    by_cases hl : st.line < m
    · rw [subLineLoop_cons_of_lt m cl doc len rest st hl]
      by_cases hs : st.skipLines > 0
      · rw [if_pos hs]
        obtain ⟨k, k1, k2, k3, k4, k5⟩ := ih
          { st with skipLines := st.skipLines - 1, thisDocLines := st.thisDocLines + 1 }
        have e : st.skipLines.toNat = (st.skipLines - 1).toNat + 1 := by omega
        refine ⟨k + 1, by simp; omega, ?_, ?_, ?_, ?_⟩
        · rw [k2]; simp only; push_cast; ring
        · rw [k3]; simp only; omega
        · rw [k4]; simp only; rw [e]; simp
        · rw [k5]; simp only; rw [e]; simp
      · rw [if_neg hs]
        obtain ⟨k, k1, k2, k3, k4, k5⟩ := ih
          { st with
            longestLine := if st.longestLine < (len : Int) then (len : Int) else st.longestLine
            cursorDoc := if st.line = cl then doc else st.cursorDoc
            line := st.line + 1
            thisDocLines := st.thisDocLines + 1 }
        have e : st.skipLines.toNat = 0 := by omega
        have emax : (if st.longestLine < (len : Int) then (len : Int) else st.longestLine)
            = max st.longestLine (len : Int) := by
          split
          · rw [max_eq_right]; omega
          · rw [max_eq_left]; omega
        refine ⟨k + 1, by simp; omega, ?_, ?_, ?_, ?_⟩
        · rw [k2]; simp only; push_cast; ring
        · rw [k3]; simp only; omega
        · rw [k4]; simp only; rw [e]; simp; ring
        · rw [k5]; simp only; rw [e, emax]; simp
    · rw [subLineLoop_of_not_lt m cl doc _ st hl]
      exact ⟨0, by simp, by simp, by simp, by simp, by simp⟩

namespace BSONCacheView

theorem countedLens_congr (E : Env) (v w : BSONCacheView) (hc : w.cache = v.cache)
    (hm : w.documentRenderMode = v.documentRenderMode)
    (hf : w.extendedJSONMode = v.extendedJSONMode) :
    ∀ (dl : List Int) (doc : Nat), countedLens E w doc dl = countedLens E v doc dl := by
  intro dl
  induction dl with
  | nil => intro doc; rfl
  | cons n rest ih =>
    intro doc
    unfold countedLens
    rw [hc, hm, hf, ih]

/-- What the outer loop of `computeVisible` returns: the line counts it appends to `_docLines`
count sub-lines of the documents from `doc` on, as the final cache holds them; the first
`skipLines` of these sub-lines are hidden, the others take one row each, and `longestLine`
is the maximum of their lengths and of its initial value. -/
theorem computeVisibleLoop_lens (E : Env) (n : Nat) :
    ∀ (v : BSONCacheView) (doc : Nat) (line lg skip : Int) (v' : BSONCacheView) (l' g' : Int),
      computeVisibleLoop E n v doc line lg skip = Res.ok (v', l', g') →
      v'.cache.numDocs < 2 ^ 64 →
      ∃ dl, v'.docLines = v.docLines ++ dl ∧
        l' = line + (((countedLens E v' doc dl).drop skip.toNat).length : Int) ∧
        g' = ((countedLens E v' doc dl).drop skip.toNat).foldl
          (fun (a : Int) (len : Nat) => max a (len : Int)) lg := by
  induction n with
  | zero =>
    intro v doc line lg skip v' l' g' h _
    rcases computeVisibleLoop_ok_cases E 0 v doc line lg skip v' l' g' h with
      ⟨_, rfl, rfl, rfl⟩ | ⟨k, _, _, hk, _⟩
    · exact ⟨[], by simp, by simp [countedLens], by simp [countedLens]⟩
    · omega
  | succ n ih =>
    intro v doc line lg skip v' l' g' h hn
    rcases computeVisibleLoop_ok_cases E (n + 1) v doc line lg skip v' l' g' h with
      ⟨_, rfl, rfl, rfl⟩ | ⟨k, str, v1, hk, hc, hr, _⟩
    · exact ⟨[], by simp, by simp [countedLens], by simp [countedLens]⟩
    · obtain ⟨r, d, hi, hstr, hv1⟩ := renderDoc_ok E v doc str v1 hr
      rw [computeVisibleLoop_step E n v doc line lg skip r d hc hi] at h
      obtain ⟨hfault, hpre, hget⟩ := BSONCache.index_ok E.dec E.fuel doc v.cache r d hi
      obtain ⟨⟨ctl, _, _⟩, hp2, _⟩ := computeVisibleLoop_ctl E n _ _ _ _ _ _ _ _ h
      have hp2' : r.cache.docs <+: v'.cache.docs := hp2
      have hd : v'.cache.docs.get? doc = some d := by
        rw [List.get?_eq_getElem?]
        exact prefix_getElem? hp2' doc d hget
      have hlt : doc < v'.cache.docs.length := by
        rw [List.get?_eq_getElem?] at hd
        exact getElem?_lt hd
      have hu : uadd1 doc = doc + 1 := by
        unfold uadd1
        have : v'.cache.docs.length < 2 ^ 64 := hn
        exact Nat.mod_eq_of_lt (by omega)
      rw [hu] at h
      obtain ⟨dl, e1, e2, e3⟩ := ih _ _ _ _ _ _ _ _ h hn
      obtain ⟨k1, a1, a2, a3, a4, a5⟩ := subLineLoop_lens v.mainLines v.cursorLine doc
        (subLineLens (E.render v.documentRenderMode v.extendedJSONMode d))
        { line := line, longestLine := lg, skipLines := skip, thisDocLines := 0,
          cursorDoc := v.cursorDoc }
      have hmode : v'.documentRenderMode = v.documentRenderMode := ctl.documentRenderMode
      have hfmt : v'.extendedJSONMode = v.extendedJSONMode := ctl.extendedJSONMode
      simp only [zero_add] at a2 a3 a4 a5
      have hsc : ∀ x, scanOf v doc (E.render v.documentRenderMode v.extendedJSONMode d) line lg
          skip = x → subLineLoop v.mainLines v.cursorLine doc
            (subLineLens (E.render v.documentRenderMode v.extendedJSONMode d))
            { line := line, longestLine := lg, skipLines := skip, thisDocLines := 0,
              cursorDoc := v.cursorDoc } = x := fun x hx => hx
      generalize hst : scanOf v doc (E.render v.documentRenderMode v.extendedJSONMode d) line lg
          skip = st at h e1 e2 e3
      rw [hsc st hst] at a2 a3 a4 a5
      have hcl : countedLens E v' doc (st.thisDocLines :: dl) =
          (subLineLens (E.render v.documentRenderMode v.extendedJSONMode d)).take k1 ++
            countedLens E v' (doc + 1) dl := by
        conv => lhs; unfold countedLens
        rw [hd, hmode, hfmt, a2]
        simp
      have hlen : ((subLineLens (E.render v.documentRenderMode v.extendedJSONMode d)).take
          k1).length = k1 := by
        rw [List.length_take]; omega
      refine ⟨st.thisDocLines :: dl, ?_, ?_, ?_⟩
      · rw [e1]
        show (v.docLines ++ [st.thisDocLines]) ++ dl = v.docLines ++ st.thisDocLines :: dl
        simp
      · rw [e2, hcl, List.drop_append_eq_append_drop, hlen, a4, a3]
        simp
        ring
      · rw [e3, hcl, List.drop_append_eq_append_drop, hlen, List.foldl_append, a5, a3]

end BSONCacheView

theorem foldl_max_ge (lens : List Nat) :
    ∀ init : Int, init ≤ lens.foldl (fun (a : Int) (len : Nat) => max a (len : Int)) init := by
  induction lens with
  | nil => intro init; exact le_refl _
  | cons len rest ih =>
    intro init
    exact le_trans (le_max_left _ _) (ih _)

/-- C29, as stated, fails: the first frame of the six-record file of one-line documents in a
window of 2 rows and 80 columns shows two sub-lines of 14 characters, and `computeVisible`
stores `longest_line_start_col = 14 - 80 = -66`, not 0. -/
theorem longest_line_start_col_negative :
    ∃ v,
      BSONCacheView.updateDimensions sixEnv 2 80 (BSONCacheView.new sixLoaded) = Res.ok v ∧
      v.mainCols = 80 ∧ BSONCacheView.visibleLens sixEnv v = [14, 14] ∧
      BSONCacheView.longestVisible sixEnv v = 14 ∧
      v.longestLineStartCol = -66 ∧
      v.longestLineStartCol ≠ max 0 (BSONCacheView.longestVisible sixEnv v - v.mainCols) :=
  ⟨_, rfl, by decide, by decide, by decide, by decide, by decide⟩

/-- C29, amended: `computeVisible` sets `longest_line_start_col` to `longest - main_cols`,
where `longest` is the length of the longest visible sub-line (0 when none is visible), without
a clamp: the stored value is negative exactly when every visible sub-line is narrower than the
window.  It also sets `last_displayed_line` to the number of visible sub-lines less one. -/
theorem longest_line_start_col_unclamped (E : Env) (v v1 : BSONCacheView)
    (h : BSONCacheView.computeVisible E v = Res.ok v1) (hn : v1.cache.numDocs < 2 ^ 64) :
    v1.longestLineStartCol = BSONCacheView.longestVisible E v1 - v1.mainCols ∧
    0 ≤ BSONCacheView.longestVisible E v1 ∧
    (v1.longestLineStartCol < 0 ↔ BSONCacheView.longestVisible E v1 < v1.mainCols) ∧
    v1.lastDisplayedLine = ((BSONCacheView.visibleLens E v1).length : Int) - 1 := by
  obtain ⟨w, l, g, hl, rfl⟩ := BSONCacheView.computeVisible_ok E v v1 h
  obtain ⟨⟨ctl, _, _⟩, _, _⟩ := BSONCacheView.computeVisibleLoop_ctl E E.fuel _ _ _ _ _ _ _ _ hl
  obtain ⟨dl, e1, e2, e3⟩ := BSONCacheView.computeVisibleLoop_lens E E.fuel _ _ _ _ _ _ _ _ hl hn
  have hsd : w.startDoc = v.startDoc := ctl.startDoc
  have hsl : w.startLine = v.startLine := ctl.startLine
  have hdl : w.docLines = dl := by rw [e1]; rfl
  have hvis : BSONCacheView.visibleLens E
      { w with lastDisplayedLine := l - 1, longestLineStartCol := g - w.mainCols } =
      (BSONCacheView.countedLens E w v.startDoc dl).drop v.startLine.toNat := by
    have hcong := BSONCacheView.countedLens_congr E w
      { w with lastDisplayedLine := l - 1, longestLineStartCol := g - w.mainCols } rfl rfl rfl
    unfold BSONCacheView.visibleLens
    show (BSONCacheView.countedLens E
      { w with lastDisplayedLine := l - 1, longestLineStartCol := g - w.mainCols }
      w.startDoc w.docLines).drop w.startLine.toNat = _
    rw [hcong, hsd, hsl, hdl]
  have hlong : BSONCacheView.longestVisible E
      { w with lastDisplayedLine := l - 1, longestLineStartCol := g - w.mainCols } = g := by
    unfold BSONCacheView.longestVisible
    rw [hvis, e3]
  have hge : 0 ≤ g := by
    rw [e3]; exact foldl_max_ge _ 0
  refine ⟨?_, ?_, ?_, ?_⟩
  · rw [hlong]
  · rw [hlong]; exact hge
  · rw [hlong]
    show g - w.mainCols < 0 ↔ g < w.mainCols
    omega
  · rw [hvis]
    show l - 1 = _
    rw [e2]
    simp

/-- Witness for C29, amended: the first frame of the six-record file in a window of 2 rows and
80 columns. -/
theorem longest_line_start_col_unclamped_witness :
    ∃ v,
      BSONCacheView.updateDimensions sixEnv 2 80 (BSONCacheView.new sixLoaded) = Res.ok v ∧
      v.cache.numDocs < 2 ^ 64 ∧
      (v.longestLineStartCol = BSONCacheView.longestVisible sixEnv v - v.mainCols ∧
      0 ≤ BSONCacheView.longestVisible sixEnv v ∧
      (v.longestLineStartCol < 0 ↔ BSONCacheView.longestVisible sixEnv v < v.mainCols) ∧
      v.lastDisplayedLine = ((BSONCacheView.visibleLens sixEnv v).length : Int) - 1) :=
  ⟨_, rfl, by decide,
    longest_line_start_col_unclamped sixEnv
      { BSONCacheView.new sixLoaded with mainLines := 2, mainCols := 80 } _ rfl (by decide)⟩

/-! ## The viewport: rows, documents and sub-line offsets -/

/-- The inner loop of `computeVisible`, started with no negative `skipLines`: it counts `k`
sub-lines, all of them when it ends above the bottom of the window; `line - skipLines` grows by
`k`; a row is used only once `skipLines` is spent; and `_cursorDoc` becomes the document exactly
when the cursor line is one of the rows used. -/
theorem subLineLoop_rows (m cl : Int) (doc : Nat) :
    ∀ (lens : List Nat) (st : Scan), 0 ≤ st.skipLines →
      ∃ k : Nat,
        (subLineLoop m cl doc lens st).thisDocLines = st.thisDocLines + (k : Int) ∧
        0 ≤ (subLineLoop m cl doc lens st).skipLines ∧
        (subLineLoop m cl doc lens st).skipLines ≤ st.skipLines ∧
        st.line ≤ (subLineLoop m cl doc lens st).line ∧
        (subLineLoop m cl doc lens st).line - (subLineLoop m cl doc lens st).skipLines =
          st.line - st.skipLines + (k : Int) ∧
        (st.line < (subLineLoop m cl doc lens st).line →
          (subLineLoop m cl doc lens st).skipLines = 0) ∧
        (st.line ≤ cl ∧ cl < (subLineLoop m cl doc lens st).line →
          (subLineLoop m cl doc lens st).cursorDoc = doc) ∧
        (¬ (st.line ≤ cl ∧ cl < (subLineLoop m cl doc lens st).line) →
          (subLineLoop m cl doc lens st).cursorDoc = st.cursorDoc) ∧
        ((subLineLoop m cl doc lens st).line < m → k = lens.length) := by
  intro lens
  induction lens with
  | nil =>
    intro st hs
    refine ⟨0, ?_, ?_, ?_, ?_, ?_, ?_, ?_, ?_, ?_⟩ <;> simp [subLineLoop, hs]
  | cons len rest ih =>
    intro st hs
    by_cases hl : st.line < m
    · rw [subLineLoop_cons_of_lt m cl doc len rest st hl]
      by_cases hsk : st.skipLines > 0
      · rw [if_pos hsk]
        obtain ⟨k, a1, a2, a3, a4, a5, a6, a7, a8, a9⟩ := ih
          { st with skipLines := st.skipLines - 1, thisDocLines := st.thisDocLines + 1 }
          (by show 0 ≤ st.skipLines - 1; omega)
        simp only at a1 a2 a3 a4 a5 a6 a7 a8 a9
        refine ⟨k + 1, ?_, a2, by omega, a4, ?_, a6, a7, a8, ?_⟩
        · rw [a1]; push_cast; ring
        · rw [a5]; push_cast; ring
        · intro h; rw [a9 h]; simp
      · rw [if_neg hsk]
        obtain ⟨k, a1, a2, a3, a4, a5, a6, a7, a8, a9⟩ := ih
          { st with
            longestLine := if st.longestLine < (len : Int) then (len : Int) else st.longestLine
            cursorDoc := if st.line = cl then doc else st.cursorDoc
            line := st.line + 1
            thisDocLines := st.thisDocLines + 1 }
          (by show 0 ≤ st.skipLines; exact hs)
        simp only at a1 a2 a3 a4 a5 a6 a7 a8 a9
        have h0 : st.skipLines = 0 := by omega
        refine ⟨k + 1, ?_, a2, a3, by omega, ?_, ?_, ?_, ?_, ?_⟩
        · rw [a1]; push_cast; ring
        · rw [a5]; push_cast; ring
        · intro _; omega
        · rintro ⟨h1, h2⟩
          by_cases hc : st.line = cl
          · rw [a8 (by omega), if_pos hc]
          · exact a7 ⟨by omega, h2⟩
        · intro h
          by_cases hc : st.line = cl
          · exact absurd ⟨by omega, by omega⟩ h
          · rw [a8 (fun hh => h ⟨by omega, hh.2⟩), if_neg hc]
        · intro h; rw [a9 h]; simp
    · rw [subLineLoop_of_not_lt m cl doc _ st hl]
      refine ⟨0, by simp, hs, le_refl _, le_refl _, by simp, ?_, ?_, ?_, ?_⟩
      · intro h; omega
      · intro h; omega
      · intro _; rfl
      · intro h; omega

namespace BSONCacheView

theorem docForLineLoop_cons (v : BSONCacheView) (line : Int) (n : Int) (rest : List Int)
    (doc : Nat) (l : Int) :
    docForLineLoop v line (n :: rest) doc l =
      if l ≤ line ∧ line < l + n then some ((v.startDoc + doc) % 2 ^ 64)
      else docForLineLoop v line rest (doc + 1) (l + n) := rfl

theorem docForLineLoop_congr (v w : BSONCacheView) (h : w.startDoc = v.startDoc) (line : Int) :
    ∀ (dl : List Int) (doc : Nat) (l : Int),
      docForLineLoop w line dl doc l = docForLineLoop v line dl doc l := by
  intro dl
  induction dl with
  | nil => intro doc l; rfl
  | cons n rest ih =>
    intro doc l
    rw [docForLineLoop_cons, docForLineLoop_cons, h, ih]

theorem linesBefore_succ (E : Env) (v : BSONCacheView) (n : Nat) :
    linesBefore E v (n + 1) = linesBefore E v n + subLineCount E v n := by
  unfold linesBefore
  rw [List.range_succ, List.map_append, List.sum_append]
  simp

theorem subLineCount_congr (E : Env) (v w : BSONCacheView)
    (hm : w.documentRenderMode = v.documentRenderMode)
    (hf : w.extendedJSONMode = v.extendedJSONMode) (hp : v.cache.docs <+: w.cache.docs)
    (i : Nat) (hi : i < v.cache.docs.length) : subLineCount E w i = subLineCount E v i := by
  unfold subLineCount
  have hg : v.cache.docs.get? i = some (v.cache.docs.get ⟨i, hi⟩) := List.get?_eq_get hi
  have hw : w.cache.docs.get? i = some (v.cache.docs.get ⟨i, hi⟩) := by
    rw [List.get?_eq_getElem?]
    rw [List.get?_eq_getElem?] at hg
    exact prefix_getElem? hp i _ hg
  rw [hg, hw, hm, hf]

theorem linesBefore_congr (E : Env) (v w : BSONCacheView)
    (hm : w.documentRenderMode = v.documentRenderMode)
    (hf : w.extendedJSONMode = v.extendedJSONMode) (hp : v.cache.docs <+: w.cache.docs) :
    ∀ n, n ≤ v.cache.docs.length → linesBefore E w n = linesBefore E v n := by
  intro n
  induction n with
  | zero => intro _; rfl
  | succ k ih =>
    intro hk
    rw [linesBefore_succ, linesBefore_succ, ih (by omega),
      subLineCount_congr E v w hm hf hp k (by omega)]

/-- What the outer loop of `computeVisible` returns when it starts with no negative `skipLines`
at the document `_startDoc + idx`: on the line counts it appends, `docForLine` finds
`_cursorDoc` for a cursor on a row the loop used and nothing for the rows after the last one;
the counts add up to the rows used and the sub-lines skipped; and all counts but the last are
the full numbers of sub-lines of their documents. -/
theorem computeVisibleLoop_rows (E : Env) (n : Nat) :
    ∀ (v : BSONCacheView) (doc idx : Nat) (line lg skip : Int) (v' : BSONCacheView)
      (l' g' : Int),
      computeVisibleLoop E n v doc line lg skip = Res.ok (v', l', g') →
      0 ≤ skip → v'.cache.numDocs < 2 ^ 64 → doc = v.startDoc + idx →
      ∃ dl, v'.docLines = v.docLines ++ dl ∧ line ≤ l' ∧
        (line ≤ v.cursorLine ∧ v.cursorLine < l' →
          docForLineLoop v' v.cursorLine dl idx (line - skip) = some v'.cursorDoc) ∧
        (¬ (line ≤ v.cursorLine ∧ v.cursorLine < l') → v'.cursorDoc = v.cursorDoc) ∧
        (∀ r, l' ≤ r → docForLineLoop v' r dl idx (line - skip) = none) ∧
        (∃ sf, 0 ≤ sf ∧ sf ≤ skip ∧ dl.sum = l' - sf - (line - skip) ∧ (line < l' → sf = 0)) ∧
        (∀ x ∈ dl, 0 ≤ x) ∧
        (dl = [] → v' = v ∧ l' = line) ∧
        (dl ≠ [] → line < v.mainLines ∧ v'.lastDisplayedDoc = doc + (dl.length - 1) ∧
          doc + (dl.length - 1) < v'.cache.docs.length ∧
          (linesBefore E v' (doc + (dl.length - 1)) : Int) =
            (linesBefore E v' doc : Int) + dl.dropLast.sum) := by
  induction n with
  | zero =>
    intro v doc idx line lg skip v' l' g' h hs _ _
    rcases computeVisibleLoop_ok_cases E 0 v doc line lg skip v' l' g' h with
      ⟨_, rfl, rfl, rfl⟩ | ⟨k, _, _, hk, _⟩
    · refine ⟨[], by simp, le_refl _, ?_, fun _ => rfl, fun _ _ => rfl,
        ⟨skip, hs, le_refl _, by simp, fun hh => absurd hh (lt_irrefl _)⟩,
        fun x hx => absurd hx (List.not_mem_nil x),
        fun _ => ⟨rfl, rfl⟩, fun hh => absurd rfl hh⟩
      intro hh; omega
    · omega
  | succ n ih =>
    intro v doc idx line lg skip v' l' g' h hs hn hdoc
    rcases computeVisibleLoop_ok_cases E (n + 1) v doc line lg skip v' l' g' h with
      ⟨_, rfl, rfl, rfl⟩ | ⟨k, str, v1, hk, hc, hr, _⟩
    · refine ⟨[], by simp, le_refl _, ?_, fun _ => rfl, fun _ _ => rfl,
        ⟨skip, hs, le_refl _, by simp, fun hh => absurd hh (lt_irrefl _)⟩,
        fun x hx => absurd hx (List.not_mem_nil x),
        fun _ => ⟨rfl, rfl⟩, fun hh => absurd rfl hh⟩
      intro hh; omega
    · obtain ⟨r, d, hi, hstr, hv1⟩ := renderDoc_ok E v doc str v1 hr
      rw [computeVisibleLoop_step E n v doc line lg skip r d hc hi] at h
      obtain ⟨hfault, hpre, hget⟩ := BSONCache.index_ok E.dec E.fuel doc v.cache r d hi
      obtain ⟨⟨ctl, _, _⟩, hp2, _⟩ := computeVisibleLoop_ctl E n _ _ _ _ _ _ _ _ h
      have hp2' : r.cache.docs <+: v'.cache.docs := hp2
      have hd : v'.cache.docs.get? doc = some d := by
        rw [List.get?_eq_getElem?]
        exact prefix_getElem? hp2' doc d hget
      have hlt : doc < v'.cache.docs.length := by
        rw [List.get?_eq_getElem?] at hd
        exact getElem?_lt hd
      have hlen64 : v'.cache.docs.length < 2 ^ 64 := hn
      have hu : uadd1 doc = doc + 1 := by
        unfold uadd1
        exact Nat.mod_eq_of_lt (by omega)
      rw [hu] at h
      obtain ⟨k1, a1, a2, a3, a4, a5, a6, a7, a8, a9⟩ := subLineLoop_rows v.mainLines
        v.cursorLine doc (subLineLens (E.render v.documentRenderMode v.extendedJSONMode d))
        { line := line, longestLine := lg, skipLines := skip, thisDocLines := 0,
          cursorDoc := v.cursorDoc } hs
      have hmode : v'.documentRenderMode = v.documentRenderMode := ctl.documentRenderMode
      have hfmt : v'.extendedJSONMode = v.extendedJSONMode := ctl.extendedJSONMode
      have hsd : v'.startDoc = v.startDoc := ctl.startDoc
      have hml : v'.mainLines = v.mainLines := ctl.mainLines
      simp only [zero_add] at a1 a2 a3 a4 a5 a6 a7 a8 a9
      have hsc : ∀ x, scanOf v doc (E.render v.documentRenderMode v.extendedJSONMode d) line lg
          skip = x → subLineLoop v.mainLines v.cursorLine doc
            (subLineLens (E.render v.documentRenderMode v.extendedJSONMode d))
            { line := line, longestLine := lg, skipLines := skip, thisDocLines := 0,
              cursorDoc := v.cursorDoc } = x := fun x hx => hx
      have hnext := computeVisibleLoop_ok_cases E n _ _ _ _ _ _ _ _ h
      obtain ⟨dl, e1, e2, e3, e4, e5, ⟨sf, f1, f2, f3, f4⟩, e6, e7, e8⟩ :=
        ih _ _ (idx + 1) _ _ _ _ _ _ h
          (by
            show 0 ≤ (scanOf v doc (E.render v.documentRenderMode v.extendedJSONMode d) line lg
              skip).skipLines
            exact a2)
          hn (by show doc + 1 = v.startDoc + (idx + 1); omega)
      generalize hst : scanOf v doc (E.render v.documentRenderMode v.extendedJSONMode d) line lg
          skip = st at h e1 e2 e3 e4 e5 f1 f2 f3 f4 e6 e7 e8 hnext
      rw [hsc st hst] at a1 a2 a3 a4 a5 a6 a7 a8 a9
      have hcur : (stepView v r.cache doc st).cursorLine = v.cursorLine := rfl
      have hcd : (stepView v r.cache doc st).cursorDoc = st.cursorDoc := rfl
      have hdl : (stepView v r.cache doc st).docLines = v.docLines ++ [st.thisDocLines] := rfl
      rw [hcur] at e3 e4
      rw [hcd] at e4
      have hdocidx : (v'.startDoc + idx) % 2 ^ 64 = doc := by
        rw [hsd, ← hdoc]
        exact Nat.mod_eq_of_lt (by omega)
      have hcount : st.line < v.mainLines →
          subLineCount E v' doc = k1 := by
        intro hh
        unfold subLineCount
        rw [hd, hmode, hfmt, a9 hh]
      refine ⟨st.thisDocLines :: dl, ?_, by omega, ?_, ?_, ?_, ?_, ?_, ?_, ?_⟩
      · rw [e1, hdl]; simp
      · rintro ⟨h1, h2⟩
        rw [docForLineLoop_cons, a1]
        by_cases hin : v.cursorLine < st.line
        · have hs0 : st.skipLines = 0 := a6 (by omega)
          rw [if_pos ⟨by omega, by omega⟩, hdocidx, e4 (fun hh => by omega), a7 ⟨h1, hin⟩]
        · rw [if_neg (fun hh => by omega)]
          have := e3 ⟨by omega, h2⟩
          rw [← this]
          congr 1
          omega
      · intro hh
        by_cases hin : line ≤ v.cursorLine ∧ v.cursorLine < st.line
        · exact absurd ⟨hin.1, by omega⟩ hh
        · rw [e4 (fun h2 => hh ⟨by omega, h2.2⟩), a8 hin]
      · intro r hr2
        rw [docForLineLoop_cons, a1, if_neg (fun hh => by omega)]
        have := e5 r hr2
        rw [← this]
        congr 1
        omega
      · refine ⟨sf, f1, by omega, ?_, ?_⟩
        · rw [List.sum_cons, f3, a1]; omega
        · intro hh
          by_cases h2 : st.line < l'
          · exact f4 h2
          · have hs0 : st.skipLines = 0 := a6 (by omega)
            omega
      · intro x hx
        rcases List.mem_cons.mp hx with hx | hx
        · rw [hx, a1]; omega
        · exact e6 x hx
      · intro hh; cases hh
      · intro _
        refine ⟨hc.1, ?_⟩
        cases hdl' : dl with
        | nil =>
          obtain ⟨e7a, _⟩ := e7 hdl'
          refine ⟨?_, by simpa using hlt, by simp⟩
          rw [e7a]
          simp [stepView]
        | cons a t =>
          have hne : dl ≠ [] := by rw [hdl']; simp
          obtain ⟨_, g1, g2, g3⟩ := e8 hne
          have hlen : (st.thisDocLines :: a :: t).length - 1 = (dl.length - 1) + 1 := by
            rw [hdl']; simp
          have hiter : st.line < v.mainLines := by
            rcases hnext with ⟨_, hv', _, _⟩ | ⟨_, _, _, _, hc2, _, _⟩
            · have e1' := e1
              rw [hv'] at e1'
              have : dl = [] := by simpa using e1'
              exact absurd this hne
            · exact hc2.1
          rw [hlen]
          refine ⟨by rw [g1]; omega, by omega, ?_⟩
          have e : doc + (dl.length - 1 + 1) = doc + 1 + (dl.length - 1) := by omega
          rw [e, g3, linesBefore_succ, hcount hiter, ← hdl']
          have hdrop : (st.thisDocLines :: dl).dropLast = st.thisDocLines :: dl.dropLast := by
            cases dl with
            | nil => exact absurd rfl hne
            | cons b u => rfl
          rw [hdrop, List.sum_cons, a1]
          push_cast
          ring

/-- The frame that `computeVisible` leaves when it starts with no negative `_startLine`:
`docForLine` finds `_cursorDoc` on the cursor row when that row is displayed and nothing below
the last displayed row; the line counts add up to the rows displayed and the sub-lines skipped;
and all counts but the last are the full numbers of sub-lines of their documents. -/
theorem computeVisible_rows (E : Env) (v v1 : BSONCacheView)
    (h : computeVisible E v = Res.ok v1) (hs : 0 ≤ v.startLine)
    (hn : v1.cache.numDocs < 2 ^ 64) :
    (0 ≤ v.cursorLine ∧ v.cursorLine ≤ v1.lastDisplayedLine →
      v1.docForLine v.cursorLine = some v1.cursorDoc) ∧
    (∀ r, v1.lastDisplayedLine < r → v1.docForLine r = none) ∧
    (∃ sf, 0 ≤ sf ∧ sf ≤ v.startLine ∧
      v1.docLines.sum = v1.lastDisplayedLine + 1 - sf + v.startLine ∧
      (0 ≤ v1.lastDisplayedLine → sf = 0)) ∧
    (∀ x ∈ v1.docLines, 0 ≤ x) ∧
    (v1.docLines ≠ [] → 0 < v.mainLines ∧
      v1.lastDisplayedDoc = v.startDoc + (v1.docLines.length - 1) ∧
      v.startDoc + (v1.docLines.length - 1) < v1.cache.docs.length ∧
      (linesBefore E v1 (v.startDoc + (v1.docLines.length - 1)) : Int) =
        (linesBefore E v1 v.startDoc : Int) + v1.docLines.dropLast.sum) := by
  obtain ⟨w, l, g, hl, rfl⟩ := computeVisible_ok E v v1 h
  obtain ⟨⟨ctl, _, _⟩, _, _⟩ := computeVisibleLoop_ctl E E.fuel _ _ _ _ _ _ _ _ hl
  have hR := computeVisibleLoop_rows E E.fuel _ _ 0 _ _ _ _ _ _ hl hs hn (by simp)
  simp only [List.nil_append] at hR
  obtain ⟨dl, e1, e2, e3, e4, e5, ⟨sf, f1, f2, f3, f4⟩, e6, e7, e8⟩ := hR
  have hdl : w.docLines = dl := by simpa using e1
  have hsl : w.startLine = v.startLine := ctl.startLine
  have hloop : ∀ r, docForLine
      { w with lastDisplayedLine := l - 1, longestLineStartCol := g - w.mainCols } r =
      docForLineLoop w r dl 0 (0 - v.startLine) := by
    intro r
    unfold docForLine
    show docForLineLoop _ r w.docLines 0 (0 - w.startLine) = _
    rw [hdl, hsl]
    exact docForLineLoop_congr w _ (by rfl) r dl 0 _
  refine ⟨?_, ?_, ⟨sf, f1, f2, ?_, ?_⟩, ?_, ?_⟩
  · rintro ⟨h1, h2⟩
    rw [hloop]
    have h2' : v.cursorLine ≤ l - 1 := h2
    exact e3 ⟨h1, by omega⟩
  · intro r hr
    rw [hloop]
    have hr' : l - 1 < r := hr
    exact e5 r (by omega)
  · show w.docLines.sum = l - 1 + 1 - sf + v.startLine
    rw [hdl, f3]; omega
  · intro hh
    have hh' : 0 ≤ l - 1 := hh
    exact f4 (by omega)
  · show ∀ x ∈ w.docLines, 0 ≤ x
    rw [hdl]; exact e6
  · intro hne
    have hne' : dl ≠ [] := by rw [← hdl]; exact hne
    obtain ⟨g0, g1, g2, g3⟩ := e8 hne'
    show 0 < v.mainLines ∧ w.lastDisplayedDoc = v.startDoc + (w.docLines.length - 1) ∧
      v.startDoc + (w.docLines.length - 1) < w.cache.docs.length ∧
      (linesBefore E w (v.startDoc + (w.docLines.length - 1)) : Int) =
        (linesBefore E w v.startDoc : Int) + w.docLines.dropLast.sum
    rw [hdl]
    exact ⟨g0, g1, g2, g3⟩

theorem getTotalDocLines_eq_sum (v : BSONCacheView) : getTotalDocLines v = v.docLines.sum := by
  unfold getTotalDocLines
  have key : ∀ (l : List Int) (a : Int), l.foldl (fun a b => a + b) a = a + l.sum := by
    intro l
    induction l with
    | nil => intro a; simp
    | cons x t ih => intro a; rw [List.foldl_cons, ih, List.sum_cons]; ring
  rw [key]; simp

end BSONCacheView

/-- C33: in the frame `v1` that `computeVisible` computes from a view with `start_line ≥ 0`
(the loaded documents being fewer than 2^64), for every screen row `r` in
`[0, last_displayed_line]` the same frame computed with the cursor on row `r` records in
`_cursorDoc` the document whose sub-line it places on that row, and `docForLine(r)` is that
document; `docForLine(r)` is absent for every `r > last_displayed_line`; and on the frame itself
`docForLine` of a displayed cursor row is `_cursorDoc`. -/
theorem docForLine_agrees_with_frame (E : Env) (v v1 : BSONCacheView)
    (h : BSONCacheView.computeVisible E v = Res.ok v1) (hs : 0 ≤ v.startLine)
    (hn : v1.cache.numDocs < 2 ^ 64) :
    (∀ r : Int, 0 ≤ r → r ≤ v1.lastDisplayedLine →
      ∃ w, BSONCacheView.computeVisible E { v with cursorLine := r } = Res.ok w ∧
        w.docLines = v1.docLines ∧ w.lastDisplayedLine = v1.lastDisplayedLine ∧
        w.startDoc = v1.startDoc ∧ w.startLine = v1.startLine ∧ w.cache = v1.cache ∧
        v1.docForLine r = some w.cursorDoc) ∧
    (∀ r : Int, v1.lastDisplayedLine < r → v1.docForLine r = none) ∧
    (0 ≤ v1.cursorLine → v1.cursorLine ≤ v1.lastDisplayedLine →
      v1.docForLine v1.cursorLine = some v1.cursorDoc) := by
  obtain ⟨ctl, _⟩ := BSONCacheView.computeVisible_ctl E v v1 h
  obtain ⟨r1, r2, _⟩ := BSONCacheView.computeVisible_rows E v v1 h hs hn
  refine ⟨?_, r2, ?_⟩
  · intro r h0 h1
    obtain ⟨w, hw, c1, c2, _, c4, _⟩ :=
      BSONCacheView.computeVisible_congr E v v1 { v with cursorLine := r } h rfl rfl rfl rfl rfl
        rfl (Or.inl rfl)
    have hcache : w.cache = v1.cache := c4 rfl
    obtain ⟨ctlw, _⟩ := BSONCacheView.computeVisible_ctl E _ w hw
    have hsd : w.startDoc = v1.startDoc := by rw [ctlw.startDoc, ctl.startDoc]
    have hsl : w.startLine = v1.startLine := by rw [ctlw.startLine, ctl.startLine]
    obtain ⟨q1, _, _⟩ := BSONCacheView.computeVisible_rows E _ w hw hs (by rw [hcache]; exact hn)
    refine ⟨w, hw, c1, c2, hsd, hsl, hcache, ?_⟩
    have hq := q1 ⟨h0, by rw [c2]; exact h1⟩
    rw [← hq]
    unfold BSONCacheView.docForLine
    rw [c1, hsl]
    exact (BSONCacheView.docForLineLoop_congr v1 w hsd r _ 0 _).symm
  · intro h0 h1
    have := r1 ⟨by rw [← ctl.cursorLine]; exact h0, by rw [← ctl.cursorLine]; exact h1⟩
    rw [← ctl.cursorLine] at this
    exact this

/-- Witness for C33: the first frame of the six-sub-line file of two pretty-printed records in a
window of 4 rows, computed with the cursor on row 1. -/
theorem docForLine_agrees_with_frame_witness :
    ∃ v1,
      BSONCacheView.computeVisible sampleEnv
        { BSONCacheView.new sampleLoaded with
          mainLines := 4, mainCols := 80, cursorLine := 1,
          documentRenderMode := DocumentRenderMode.kJSONPretty } = Res.ok v1 ∧
      v1.docLines = [3, 1] ∧ v1.lastDisplayedLine = 3 ∧ v1.cursorDoc = 0 ∧
      v1.docForLine 2 = some 0 ∧ v1.docForLine 3 = some 1 ∧
      ((∀ r : Int, 0 ≤ r → r ≤ v1.lastDisplayedLine →
        ∃ w, BSONCacheView.computeVisible sampleEnv
            { ({ BSONCacheView.new sampleLoaded with
                mainLines := 4, mainCols := 80, cursorLine := 1,
                documentRenderMode := DocumentRenderMode.kJSONPretty } : BSONCacheView) with
              cursorLine := r } = Res.ok w ∧
          w.docLines = v1.docLines ∧ w.lastDisplayedLine = v1.lastDisplayedLine ∧
          w.startDoc = v1.startDoc ∧ w.startLine = v1.startLine ∧ w.cache = v1.cache ∧
          v1.docForLine r = some w.cursorDoc) ∧
      (∀ r : Int, v1.lastDisplayedLine < r → v1.docForLine r = none) ∧
      (0 ≤ v1.cursorLine → v1.cursorLine ≤ v1.lastDisplayedLine →
        v1.docForLine v1.cursorLine = some v1.cursorDoc)) :=
  ⟨_, rfl, by decide, by decide, by decide, by decide, by decide,
    docForLine_agrees_with_frame sampleEnv _ _ rfl (by decide) (by decide)⟩

namespace BSONCacheView

/-- Setting the cursor line keeps the render mode and flavor and can only extend the cache. -/
theorem setCursor_ctl (E : Env) (t : Int) (v v1 : BSONCacheView)
    (h : (if v.cursorLine ≠ t then computeVisible E { v with cursorLine := t } else Res.ok v)
      = Res.ok v1) :
    v1.documentRenderMode = v.documentRenderMode ∧ v1.extendedJSONMode = v.extendedJSONMode ∧
      v.cache.docs <+: v1.cache.docs := by
  by_cases hc : v.cursorLine ≠ t
  · rw [if_pos hc] at h
    obtain ⟨c, hp⟩ := computeVisible_ctl E _ _ h
    exact ⟨c.documentRenderMode, c.extendedJSONMode, hp⟩
  · rw [if_neg hc] at h
    cases h
    exact ⟨rfl, rfl, List.prefix_refl _⟩

end BSONCacheView

/-- C34: `pageDown` from a fresh frame with `start_line ≥ 0` that fills the screen
(`last_displayed_line = main_lines - 1`), when the scrolled frame does not show the last loaded
document (the loaded documents being fewer than 2^64), returns that frame; it starts at the
`last_displayed_doc` of the frame before with a `start_line` that is not negative, and its
global sub-line offset (the sub-lines of all documents before `start_doc`, plus `start_line`)
is the offset of the frame before plus `main_lines`. -/
theorem pageDown_advances_by_main_lines (E : Env) (v v3 : BSONCacheView)
    (hv : Fresh E v) (hs : 0 ≤ v.startLine)
    (hfull : v.lastDisplayedLine = v.mainLines - 1)
    (h : BSONCacheView.pageDownScroll E v = Res.ok v3)
    (hend : v3.lastDisplayedDoc ≠ usub1 v3.cache.numDocs)
    (hn : v3.cache.numDocs < 2 ^ 64) :
    BSONCacheView.pageDown E v = Res.ok v3 ∧ v3.startDoc = v.lastDisplayedDoc ∧
      0 ≤ v3.startLine ∧
      BSONCacheView.globalOffset E v3 = BSONCacheView.globalOffset E v + v.mainLines := by
  unfold BSONCacheView.pageDownScroll at h
  unfold BSONCacheView.pageDown
  rw [if_neg (by omega)]
  cases hb : v.docLines.getLast? with
  | none => rw [hb] at h; cases h
  | some back =>
    rw [hb] at h
    simp only at h ⊢
    obtain ⟨v2, h2, h3⟩ := Res.bind_ok _ _ _ h
    obtain ⟨_, e2, e3⟩ := BSONCacheView.setCursor_spec E 0 _ v2 h2
    obtain ⟨m2, f2, p2⟩ := BSONCacheView.setCursor_ctl E 0 _ v2 h2
    obtain ⟨c3, p3⟩ := BSONCacheView.computeVisible_ctl E v2 v3 h3
    simp only at e2 e3 m2 f2 p2
    have hfresh : BSONCacheView.computeVisible E v3 = Res.ok v3 :=
      BSONCacheView.computeVisible_fresh E v2 v3 h3
    have hpre : v.cache.docs <+: v3.cache.docs := List.IsPrefix.trans p2 p3
    have hnv : v.cache.numDocs < 2 ^ 64 := lt_of_le_of_lt hpre.length_le hn
    obtain ⟨_, _, ⟨sf, _, _, hsum, hsf⟩, hpos, hlast⟩ :=
      BSONCacheView.computeVisible_rows E v v hv hs hnv
    have hlist : v.docLines.dropLast ++ [back] = v.docLines :=
      List.dropLast_append_getLast? back (by rw [hb]; exact rfl)
    have hne : v.docLines ≠ [] := by
      intro hnil
      rw [hnil] at hb
      cases hb
    obtain ⟨hml, hld, hlt, hlb⟩ := hlast hne
    have hsf0 : sf = 0 := hsf (by omega)
    have hback : 0 ≤ back := hpos back (by rw [← hlist]; simp)
    have hsplit : v.docLines.sum = v.docLines.dropLast.sum + back := by
      conv => lhs; rw [← hlist]
      rw [List.sum_append]; simp
    have htot : BSONCacheView.getTotalDocLines v = v.mainLines + v.startLine := by
      rw [BSONCacheView.getTotalDocLines_eq_sum, hsum]; omega
    have hsd3 : v3.startDoc = v.lastDisplayedDoc := by rw [c3.startDoc, e2]
    have hsl3 : v3.startLine = back := by rw [c3.startLine, e3, htot]; omega
    refine ⟨?_, hsd3, by omega, ?_⟩
    · rw [h2]
      simp only [Res.bind]
      rw [h3]
      simp only [Res.bind]
      rw [if_neg hend]
      exact hfresh
    · unfold BSONCacheView.globalOffset
      rw [hsd3, hsl3, BSONCacheView.linesBefore_congr E v v3
        (by rw [c3.documentRenderMode, m2]) (by rw [c3.extendedJSONMode, f2]) hpre
        v.lastDisplayedDoc (by omega)]
      have hlb2 : (BSONCacheView.linesBefore E v v.lastDisplayedDoc : Int) =
          (BSONCacheView.linesBefore E v v.startDoc : Int) + v.docLines.dropLast.sum := by
        rw [hld]; exact hlb
      omega

/-- Witness for C34: `pageDown` from the first frame of the six-record file of one-line
documents in a window of 2 rows moves the global sub-line offset from 0 to 2. -/
theorem pageDown_advances_by_main_lines_witness :
    ∃ v v3,
      BSONCacheView.updateDimensions sixEnv 2 80 (BSONCacheView.new sixLoaded) = Res.ok v ∧
      Fresh sixEnv v ∧ 0 ≤ v.startLine ∧ v.lastDisplayedLine = v.mainLines - 1 ∧
      BSONCacheView.pageDownScroll sixEnv v = Res.ok v3 ∧
      v3.lastDisplayedDoc ≠ usub1 v3.cache.numDocs ∧ v3.cache.numDocs < 2 ^ 64 ∧
      BSONCacheView.globalOffset sixEnv v = 0 ∧ BSONCacheView.globalOffset sixEnv v3 = 2 ∧
      (BSONCacheView.pageDown sixEnv v = Res.ok v3 ∧ v3.startDoc = v.lastDisplayedDoc ∧
        0 ≤ v3.startLine ∧
        BSONCacheView.globalOffset sixEnv v3 = BSONCacheView.globalOffset sixEnv v + v.mainLines) :=
  ⟨_, _, rfl, rfl, by decide, by decide, rfl, by decide, by decide, by decide, by decide,
    pageDown_advances_by_main_lines sixEnv _ _ rfl (by decide) (by decide) rfl (by decide)
      (by decide)⟩

/-! ## Cursor moves at the edge, the prompt, and the deferred jump -/

/-- C31: on the complete mixed file in pretty mode (documents of 3, 1, 3, 1, 3, 1 sub-lines) in a
window of 4 rows, three `moveDown` lead to `start_doc = 1`, `start_line = 0` with the cursor on
the top row (global sub-line offset 3); `moveCursorUp` leaves `start_doc = 0`, `start_line = 0`
(offset 0): the view has scrolled up by three sub-lines, not one.  From the first frame with the
cursor on the bottom row, `moveCursorDown` does scroll by one sub-line and keeps the cursor
there. -/
theorem moveCursorUp_scrolls_three_sub_lines :
    ∃ v v1 u u1,
      (BSONCacheView.updateDimensions mixedEnv 4 80 (BSONCacheView.new mixedLoaded)).bind
          (runOps mixedEnv [ViewOp.setDocumentRenderMode DocumentRenderMode.kJSONPretty,
            ViewOp.moveDown, ViewOp.moveDown, ViewOp.moveDown])
        = Res.ok v ∧
      v.startDoc = 1 ∧ v.startLine = 0 ∧ v.cursorLine = 0 ∧ v.mainLines = 4 ∧
      BSONCacheView.globalOffset mixedEnv v = 3 ∧
      ViewOp.moveCursorUp.run mixedEnv v = Res.ok v1 ∧
      v1.startDoc = 0 ∧ v1.startLine = 0 ∧ v1.cursorLine = 0 ∧
      BSONCacheView.globalOffset mixedEnv v1 = 0 ∧
      BSONCacheView.globalOffset mixedEnv v1 ≠ BSONCacheView.globalOffset mixedEnv v - 1 ∧
      (BSONCacheView.updateDimensions mixedEnv 4 80 (BSONCacheView.new mixedLoaded)).bind
          (runOps mixedEnv [ViewOp.setDocumentRenderMode DocumentRenderMode.kJSONPretty,
            ViewOp.cursorBottom])
        = Res.ok u ∧
      u.startDoc = 0 ∧ u.startLine = 0 ∧ u.cursorLine = 3 ∧
      ViewOp.moveCursorDown.run mixedEnv u = Res.ok u1 ∧
      u1.startDoc = 0 ∧ u1.startLine = 1 ∧ u1.cursorLine = 3 :=
  ⟨_, _, _, _, rfl, by decide, by decide, by decide, by decide, by decide, rfl, by decide,
    by decide, by decide, by decide, by decide, rfl, by decide, by decide, by decide, rfl,
    by decide, by decide, by decide⟩

/-- C32: with the buffer `ab` and the cursor moved left to column 1, typing `x` gives the buffer
`abx` and column 2: the text is appended at the end, not inserted at the cursor (`axb`). -/
theorem typed_text_goes_to_the_end :
    SingleLinePrompt.typeKeys
        [PromptKey.text ['a'], PromptKey.text ['b'], PromptKey.left] { } =
      some { enteredText := ['a', 'b'], cursorCol := 1 } ∧
    SingleLinePrompt._event_key (PromptKey.text ['x'])
        { enteredText := ['a', 'b'], cursorCol := 1 } =
      some ({ enteredText := ['a', 'b', 'x'], cursorCol := 2 }, none) ∧
    (['a', 'b', 'x'] : List Char) ≠ (['a', 'b'] : List Char).take 1 ++ ['x'] ++
      (['a', 'b'] : List Char).drop 1 :=
  ⟨by decide, by decide, by decide⟩

/-- C35: on the six-record file right after `init` (one document loaded, cache not complete) in
a window of 2 rows, the first frame has loaded two documents and
`jumpToEndAfterLoadingComplete` is false; `pageDown` returns with the cache still not complete
and the flag set. -/
theorem pageDown_arms_deferred_jump :
    ∃ v v1,
      BSONCacheView.updateDimensions sixEnv 2 80 (BSONCacheView.new sixInit) = Res.ok v ∧
      v.cache.isComplete = false ∧ v.cache.numDocs = 2 ∧
      v.lastDisplayedLine = v.mainLines - 1 ∧
      v.jumpToEndAfterLoadingComplete = false ∧
      ViewOp.pageDown.run sixEnv v = Res.ok v1 ∧
      v1.cache.isComplete = false ∧ v1.cache.numDocs = 4 ∧
      v1.jumpToEndAfterLoadingComplete = true :=
  ⟨_, _, rfl, by decide, by decide, by decide, by decide, rfl, by decide, by decide, by decide⟩

namespace BSONCache

/-- On a complete cache, `_loadTo(index)` with `index ≥ numDocs()` does not return, whatever the
number of iterations allowed: `_loadNext()` leaves a complete cache as it is. -/
theorem loadTo_complete_spins (dec : Decoder) (i : Nat) (c : BSONCache)
    (hc : c.complete = true) (hi : c.docs.length ≤ i) :
    ∀ fuel, _loadTo dec fuel i c = none := by
  intro fuel
  induction fuel with
  | zero => unfold _loadTo; rw [if_pos hi]
  | succ k ih =>
    have hn : c._loadNext dec = { cache := c, fault := none } := by
      unfold _loadNext isComplete
      rw [hc]; rfl
    unfold _loadTo
    rw [if_pos hi]
    simp only [hn]
    exact ih

end BSONCache

/-- C37: on the complete cache of the two-record file (`numDocs() = 2`, reached by `init` and
`loadSome(1)`), `_loadTo(2)` and `operator[](2)` return for no number of loop iterations: the
loop `while (index >= _docs.size()) _loadNext();` spins on a load step that appends nothing. -/
theorem index_spins_on_complete_cache :
    Reachable sampleDec 1000 1016 sampleLoaded ∧ sampleLoaded.isComplete = true ∧
      sampleLoaded.numDocs = 2 ∧
      sampleLoaded._loadNext sampleDec = { cache := sampleLoaded, fault := none } ∧
      ∀ fuel, sampleLoaded._loadTo sampleDec fuel 2 = none ∧
        sampleLoaded.index sampleDec fuel 2 = none := by
  refine ⟨Reachable.loadSome _ 1 (Reachable.init (by decide)), by decide, by decide, by decide,
    fun fuel => ?_⟩
  have h := BSONCache.loadTo_complete_spins sampleDec 2 sampleLoaded (by decide) (by decide) fuel
  refine ⟨h, ?_⟩
  unfold BSONCache.index
  rw [h]

/-- C38: on the first frame of the two-record file in a window of 9 rows (rows 0 and 1 show the
two documents, rows 2 to 8 show none), a button-1 press on row 5 starts no drag and the release
on row 0 runs `dragEnd(0)` with `_dragMarked` empty: the loop reads `*_dragMarked` of an empty
optional. -/
theorem release_without_drag_reads_empty_polarity :
    ∃ v m,
      BSONCacheView.updateDimensions sampleEnv 9 80 (BSONCacheView.new sampleLoaded)
        = Res.ok v ∧
      v.lastDisplayedLine = 1 ∧ v.docForLine 5 = none ∧ v.docForLine 0 = some 0 ∧
      event_mouse sampleEnv v (MouseEvent.press 5) { } = Res.ok m ∧
      m.dragMarked = none ∧
      event_mouse sampleEnv v (MouseEvent.release 0) m = Res.fault Fault.undefinedBehaviour ∧
      mouseEvents sampleEnv v [MouseEvent.press 5, MouseEvent.release 0] { } =
        Res.fault Fault.undefinedBehaviour :=
  ⟨_, _, rfl, by decide, by decide, by decide, rfl, by decide, by decide, by decide⟩

namespace BSONCacheView

/-- On the complete two-record file in a window of 4 rows, with `_startLine = 0` and the default
mode and flavor, `computeVisible` returns from every `_startDoc` with a frame of at most two
rows, and with no row when `_startDoc ≥ 2`. -/
theorem sampleFrame_short (w : BSONCacheView) (hc : w.cache = sampleLoaded)
    (hm : w.mainLines = 4) (hcols : w.mainCols = 80)
    (hmode : w.documentRenderMode = (BSONCacheView.new sampleLoaded).documentRenderMode)
    (hfmt : w.extendedJSONMode = (BSONCacheView.new sampleLoaded).extendedJSONMode)
    (hsl : w.startLine = 0) :
    ∃ w', computeVisible sampleEnv w = Res.ok w' ∧ w'.cache = sampleLoaded ∧
      w'.lastDisplayedLine < 2 ∧ (2 ≤ w.startDoc → w'.lastDisplayedLine = -1) := by
  by_cases h0 : w.startDoc = 0
  · have href : ∃ v', computeVisible sampleEnv
        { BSONCacheView.new sampleLoaded with mainLines := 4, mainCols := 80, startDoc := 0 }
          = Res.ok v' ∧ v'.lastDisplayedLine = 1 ∧ v'.cache = sampleLoaded :=
      ⟨_, rfl, by decide, by decide⟩
    obtain ⟨v', hv', e1, e2⟩ := href
    obtain ⟨w', hw', _, c2, _, c4, _⟩ :=
      computeVisible_congr sampleEnv _ v' w hv' hm hcols hmode hfmt h0 hsl (Or.inl hc)
    exact ⟨w', hw', by rw [c4 hc, e2], by rw [c2, e1]; decide, fun h2 => by omega⟩
  · by_cases h1 : w.startDoc = 1
    · have href : ∃ v', computeVisible sampleEnv
          { BSONCacheView.new sampleLoaded with mainLines := 4, mainCols := 80, startDoc := 1 }
            = Res.ok v' ∧ v'.lastDisplayedLine = 0 ∧ v'.cache = sampleLoaded :=
        ⟨_, rfl, by decide, by decide⟩
      obtain ⟨v', hv', e1, e2⟩ := href
      obtain ⟨w', hw', _, c2, _, c4, _⟩ :=
        computeVisible_congr sampleEnv _ v' w hv' hm hcols hmode hfmt h1 hsl (Or.inl hc)
      exact ⟨w', hw', by rw [c4 hc, e2], by rw [c2, e1]; decide, fun h2 => by omega⟩
    · have hge : 2 ≤ w.startDoc := by omega
      have hcomp : sampleLoaded.isComplete = true := by decide
      have hnum : sampleLoaded.numDocs = 2 := by decide
      have hloop := computeVisibleLoop_of_not sampleEnv sampleEnv.fuel { w with docLines := [] }
        w.startDoc 0 0 w.startLine (by
          show ¬ ((0 : Int) < w.mainLines ∧
            (w.cache.isComplete = false ∨ w.startDoc < w.cache.numDocs))
          rw [hc, hcomp, hnum]
          rintro ⟨_, h | h⟩
          · cases h
          · omega)
      refine ⟨_, computeVisible_of_loop sampleEnv w _ _ _ hloop, hc, ?_, fun _ => ?_⟩
      · show (0 : Int) - 1 < 2
        decide
      · show (0 : Int) - 1 = -1
        decide

/-- On the complete two-record file in a window of 4 rows, the loop of `jumpDown` never ends
once it is entered with `_startLine = 0`: every `computeVisible()` returns, and with fewer
than 3 rows displayed, whatever `_startDoc` has become. -/
theorem jumpDownLoop_sample_spins :
    ∀ (n : Nat) (w : BSONCacheView), w.cache = sampleLoaded → w.mainLines = 4 →
      w.mainCols = 80 →
      w.documentRenderMode = (BSONCacheView.new sampleLoaded).documentRenderMode →
      w.extendedJSONMode = (BSONCacheView.new sampleLoaded).extendedJSONMode →
      w.startLine = 0 → w.lastDisplayedLine < 2 →
      jumpDownLoop sampleEnv n w = Res.outOfFuel := by
  intro n
  induction n with
  | zero =>
    intro w _ hm _ _ _ _ hl
    unfold jumpDownLoop
    rw [if_pos (by rw [hm]; omega)]
  | succ k ih =>
    intro w hc hm hcols hmode hfmt hsl hl
    unfold jumpDownLoop
    rw [if_pos (by rw [hm]; omega)]
    obtain ⟨w', hw', hc', hl', _⟩ :=
      sampleFrame_short { w with startDoc := usub1 w.startDoc } hc hm hcols hmode hfmt hsl
    obtain ⟨ctl, _⟩ := computeVisible_ctl sampleEnv _ w' hw'
    rw [hw']
    simp only [Res.bind]
    exact ih w' hc' (by rw [ctl.mainLines]; exact hm) (by rw [ctl.mainCols]; exact hcols)
      (by rw [ctl.documentRenderMode]; exact hmode) (by rw [ctl.extendedJSONMode]; exact hfmt)
      (by rw [ctl.startLine]; exact hsl) hl'

end BSONCacheView

/-- C36: on the complete cache of the two-record file, whose whole rendering is 2 rows, in a
window of 4 rows, `jumpDown` computes the frame of document 1 (1 row), backs up to document 0
(2 rows, still fewer than `main_lines - 1`), and then decrements `_startDoc` at 0: it wraps to
2^64 - 1, the frame is empty, and the loop goes on.  The loop ends for no number of
iterations, every `computeVisible()` in it returning, and the model of `jumpDown` runs out of
fuel. -/
theorem jumpDown_decrements_start_doc_at_zero :
    ∃ v a v1 v2,
      BSONCacheView.updateDimensions sampleEnv 4 80 (BSONCacheView.new sampleLoaded)
        = Res.ok v ∧
      v.cache.isComplete = true ∧ v.cache.numDocs = 2 ∧ v.mainLines = 4 ∧
      v.docLines = [1, 1] ∧ v.lastDisplayedLine = 1 ∧
      BSONCacheView.computeVisible sampleEnv { v with startDoc := usub1 v.cache.numDocs }
        = Res.ok a ∧
      a.startDoc = 1 ∧ a.lastDisplayedLine < a.mainLines - 2 ∧
      BSONCacheView.computeVisible sampleEnv { a with startDoc := usub1 a.startDoc }
        = Res.ok v1 ∧
      v1.startDoc = 0 ∧ v1.lastDisplayedLine = 1 ∧ v1.lastDisplayedLine < v1.mainLines - 2 ∧
      BSONCacheView.computeVisible sampleEnv { v1 with startDoc := usub1 v1.startDoc }
        = Res.ok v2 ∧
      v2.startDoc = 2 ^ 64 - 1 ∧ ¬ v2.startDoc < v2.cache.numDocs ∧ v2.docLines = [] ∧
      v2.lastDisplayedLine < v2.mainLines - 2 ∧
      (∀ n, BSONCacheView.jumpDownLoop sampleEnv n a = Res.outOfFuel) ∧
      ViewOp.jumpDown.run sampleEnv v = Res.outOfFuel :=
  ⟨_, _, _, _, rfl, by decide, by decide, by decide, by decide, by decide, rfl, by decide,
    by decide, rfl, by decide, by decide, by decide, rfl, by decide, by decide, by decide,
    by decide,
    fun n => BSONCacheView.jumpDownLoop_sample_spins n _ (by decide) (by decide) (by decide)
      (by decide) (by decide) (by decide) (by decide),
    rfl⟩

end BsonView
